import Mathlib

/-! KaleidoscopeLang: parser (`parser.h`) and lowering (`ast.cpp`)

A shallow embedding of the recursive-descent / operator-precedence parser and
of the AST-to-IR lowering, with the global mutable state of the C++ program
(`CurTok`, `BinopPrecedence`, the module, the builder, `namedVals`, `stderr`)
passed explicitly.
-/

namespace Kaleidoscope

/-! ## Data model -/

/-- A `double`. The parser and the lowering only copy the value of a numeric
literal, no arithmetic is done on it; it is identified here by a natural number. -/
abbrev Double := Nat

/-- Modelled from the spec: the token of the lexer (`lexer.h`, `gettok`, `IdentifierStr`,
`NumVal` are not among the sources). A token is a tagged value: end-of-input, the
keywords `def` and `extern`, an identifier with its text, a numeric literal with its
value, or any other single character. The five named kinds are the negative
(non-ASCII) token codes, a character token is the code of the character. -/
inductive Token where
  | tok_eof
  | tok_def
  | tok_extern
  | tok_identifier (IdentifierStr : String)
  | tok_number (NumVal : Double)
  | char (c : Char)
  deriving DecidableEq, Repr

/-- The expression nodes of `ast.h`: `NumberExprAST`, `VariableExprAST`,
`BinaryExprAST` and `CallExprAST`. -/
inductive ExprAST where
  | Number (Val : Double)
  | Variable (Name : String)
  | Binary (Op : Char) (LHS RHS : ExprAST)
  | Call (Callee : String) (Args : List ExprAST)
  deriving Repr

/-- The class `PrototypeAST`: the name of a function and the names of its arguments. -/
structure PrototypeAST where
  Name : String
  Args : List String
  deriving DecidableEq, Repr

/-- The class `FunctionAST`: a prototype and the body expression. -/
structure FunctionAST where
  Proto : PrototypeAST
  Body : ExprAST
  deriving Repr

/-! ## `std::map` -/

/-- Lookup without insertion (`std::map::find`). -/
def mapFind {κ ν : Type} [DecidableEq κ] : List (κ × ν) → κ → Option ν
  | [], _ => none
  | (k, v) :: m, x => if k = x then some v else mapFind m x

/-- Assignment `m[x] = v`: overwrites the entry of `x` or adds one. -/
def mapSet {κ ν : Type} [DecidableEq κ] : List (κ × ν) → κ → ν → List (κ × ν)
  | [], x, v => [(x, v)]
  | (k, w) :: m, x, v => if k = x then (k, v) :: m else (k, w) :: mapSet m x v

/-- Reading `m[x]` (`std::map::operator[]`): the value of `x`, and the map, to
which a value-initialised entry (`dflt`) has been added when `x` was absent. -/
def mapIndex {κ ν : Type} [DecidableEq κ] (m : List (κ × ν)) (x : κ) (dflt : ν) :
    ν × List (κ × ν) :=
  match mapFind m x with
  | some v => (v, m)
  | none => (dflt, mapSet m x dflt)

/-! ## Parser state -/

/-- The globals of `parser.h`: the token buffer `CurTok`, the tokens `gettok` has
still to deliver, the table `BinopPrecedence`, and the lines `LogError` wrote. -/
structure Parser where
  CurTok : Token
  input : List Token
  BinopPrecedence : List (Char × Int)
  errs : List String
  deriving Repr

/-- Modelled from the spec: `gettok` of the absent `lexer.h`, a pull interface
that delivers one token at a time, and end-of-input once the tokens are exhausted. -/
def gettok (s : Parser) : Token × Parser :=
  match s.input with
  | [] => (Token.tok_eof, s)
  | t :: rest => (t, { s with input := rest })

/-- The function `getNextToken`: `CurTok = gettok()`. -/
def getNextToken (s : Parser) : Parser :=
  let r := gettok s
  { r.2 with CurTok := r.1 }

/-- The function `LogError` (also `LogErrorP`): writes the line and returns null. -/
def LogError (Str : String) (s : Parser) : Parser :=
  { s with errs := s.errs ++ [Str] }

/-- The function `GetTokPrecedence`: the precedence of the pending binary operator
token. `isascii(CurTok)` holds of the character tokens with a code below 128. The
lookup `BinopPrecedence[CurTok]` adds a zero entry for an unlisted character, so the
table is part of the result. -/
def GetTokPrecedence (s : Parser) : Int × Parser :=
  match s.CurTok with
  | Token.char c =>
    if c.toNat < 128 then
      let r := mapIndex s.BinopPrecedence c 0
      let s1 := { s with BinopPrecedence := r.2 }
      if r.1 ≤ 0 then (-1, s1) else (r.1, s1)
    else (-1, s)
  | _ => (-1, s)

/-- The conversion of the `int` token code to the `char Op` of a `BinaryExprAST`.
A binary node is only built from a token whose precedence was at least `ExprPrec`;
for the callers in `parser.h` (`ExprPrec` is `0` or `TokPrec + 1`) that is a
character token. The named kinds, whose negative codes the absent `lexer.h` fixes,
are mapped to the NUL character. -/
def Token.toChar (t : Token) : Char :=
  match t with
  | Token.char c => c
  | _ => Char.ofNat 0

/-- Result of a parsing function: `none` when the fuel of the model ran out,
otherwise the returned pointer (`none` for `nullptr`) and the state. -/
abbrev PResult (α : Type) := Option (Option α × Parser)

/-- The function `ParseNumberExpr`, called with `CurTok = tok_number`. -/
def ParseNumberExpr (NumVal : Double) (s : Parser) : Option ExprAST × Parser :=
  (some (ExprAST.Number NumVal), getNextToken s)

mutual

/-- The function `ParseParenExpr`. -/
def ParseParenExpr : Nat → Parser → PResult ExprAST
  | 0, _ => none
  | fuel + 1, s =>
    let s1 := getNextToken s
    match ParseExpression fuel s1 with
    | none => none
    | some (none, s2) => some (none, s2)
    | some (some V, s2) =>
      if s2.CurTok ≠ Token.char ')' then some (none, LogError "expected ')'" s2)
      else some (some V, getNextToken s2)

/-- The `while (true)` loop of `ParseIdentifierExpr` that collects the arguments. -/
def ParseArgs : Nat → List ExprAST → Parser → PResult (List ExprAST)
  | 0, _, _ => none
  | fuel + 1, Args, s =>
    match ParseExpression fuel s with
    | none => none
    | some (none, s1) => some (none, s1)
    | some (some Arg, s1) =>
      let Args1 := Args ++ [Arg]
      if s1.CurTok = Token.char ')' then some (some Args1, s1)
      else if s1.CurTok ≠ Token.char ',' then
        some (none, LogError "Expected ')' or ',' in argument list" s1)
      else ParseArgs fuel Args1 (getNextToken s1)

/-- The function `ParseIdentifierExpr`, called with `CurTok = tok_identifier`. -/
def ParseIdentifierExpr : Nat → String → Parser → PResult ExprAST
  | 0, _, _ => none
  | fuel + 1, IdName, s =>
    let s1 := getNextToken s
    if s1.CurTok ≠ Token.char '(' then some (some (ExprAST.Variable IdName), s1)
    else
      let s2 := getNextToken s1
      if s2.CurTok ≠ Token.char ')' then
        match ParseArgs fuel [] s2 with
        | none => none
        | some (none, s3) => some (none, s3)
        | some (some Args, s3) => some (some (ExprAST.Call IdName Args), getNextToken s3)
      else some (some (ExprAST.Call IdName []), getNextToken s2)

/-- The function `ParsePrimary`. -/
def ParsePrimary : Nat → Parser → PResult ExprAST
  | 0, _ => none
  | fuel + 1, s =>
    match s.CurTok with
    | Token.tok_identifier IdName => ParseIdentifierExpr fuel IdName s
    | Token.tok_number NumVal => some (ParseNumberExpr NumVal s)
    | Token.char c =>
      if c = '(' then ParseParenExpr fuel s
      else some (none, LogError "unknown token when expecting an expression" s)
    | _ => some (none, LogError "unknown token when expecting an expression" s)

/-- The function `ParseBinOpRHS`; one unit of fuel per iteration of its loop. -/
def ParseBinOpRHS : Nat → Int → ExprAST → Parser → PResult ExprAST
  | 0, _, _, _ => none
  | fuel + 1, ExprPrec, LHS, s =>
    let r := GetTokPrecedence s
    let TokPrec := r.1
    if TokPrec < ExprPrec then some (some LHS, r.2)
    else
      let BinOp := r.2.CurTok
      let s1 := getNextToken r.2
      match ParsePrimary fuel s1 with
      | none => none
      | some (none, s2) => some (none, s2)
      | some (some RHS, s2) =>
        let r2 := GetTokPrecedence s2
        let NextPrec := r2.1
        if TokPrec < NextPrec then
          match ParseBinOpRHS fuel (TokPrec + 1) RHS r2.2 with
          | none => none
          | some (none, s3) => some (none, s3)
          | some (some RHS1, s3) =>
            ParseBinOpRHS fuel ExprPrec (ExprAST.Binary BinOp.toChar LHS RHS1) s3
        else ParseBinOpRHS fuel ExprPrec (ExprAST.Binary BinOp.toChar LHS RHS) r2.2

/-- The function `ParseExpression`. -/
def ParseExpression : Nat → Parser → PResult ExprAST
  | 0, _ => none
  | fuel + 1, s =>
    match ParsePrimary fuel s with
    | none => none
    | some (none, s1) => some (none, s1)
    | some (some LHS, s1) => ParseBinOpRHS fuel 0 LHS s1

end

/-- The loop `while (getNextToken() == tok_identifier) ArgNames.push_back(IdentifierStr)`
of `ParsePrototype`, by recursion on the tokens still to be delivered: the names
collected, the token that ended the loop and the tokens after it. -/
def ParsePrototypeArgs : List String → List Token → List String × Token × List Token
  | ArgNames, [] => (ArgNames, Token.tok_eof, [])
  | ArgNames, Token.tok_identifier IdentifierStr :: rest =>
    ParsePrototypeArgs (ArgNames ++ [IdentifierStr]) rest
  | ArgNames, t :: rest => (ArgNames, t, rest)

/-- The function `ParsePrototype`. -/
def ParsePrototype (s : Parser) : Option PrototypeAST × Parser :=
  match s.CurTok with
  | Token.tok_identifier FnName =>
    let s1 := getNextToken s
    if s1.CurTok ≠ Token.char '(' then (none, LogError "Expected '(' in prototype" s1)
    else
      let r := ParsePrototypeArgs [] s1.input
      let s2 := { s1 with CurTok := r.2.1, input := r.2.2 }
      if s2.CurTok ≠ Token.char ')' then (none, LogError "Expected ')' in prototype" s2)
      else (some { Name := FnName, Args := r.1 }, getNextToken s2)
  | _ => (none, LogError "Expected function name in prototype" s)

/-- The function `ParseDefinition`. -/
def ParseDefinition (fuel : Nat) (s : Parser) : PResult FunctionAST :=
  match ParsePrototype (getNextToken s) with
  | (none, s1) => some (none, s1)
  | (some Proto, s1) =>
    match ParseExpression fuel s1 with
    | none => none
    | some (none, s2) => some (none, s2)
    | some (some E, s2) => some (some { Proto := Proto, Body := E }, s2)

/-- The function `ParseTopLevelExpr`: the expression becomes the body of an
anonymous function without parameters. -/
def ParseTopLevelExpr (fuel : Nat) (s : Parser) : PResult FunctionAST :=
  match ParseExpression fuel s with
  | none => none
  | some (none, s1) => some (none, s1)
  | some (some E, s1) =>
    some (some { Proto := { Name := "__anon_expr", Args := [] }, Body := E }, s1)

/-- The function `ParseExtern`. -/
def ParseExtern (s : Parser) : Option PrototypeAST × Parser :=
  ParsePrototype (getNextToken s)

/-! ## The IR (LLVM, an external library) -/

/-- An IR value handle (`llvm::Value*`): a floating-point constant, an argument of
a function, or the result of an instruction the builder created. The builder is the
IR-builder interface of the spec (emit-binary, emit-widen-bool-to-scalar): every
`Create...` call of `ast.cpp` stands for one instruction with its operands; what
LLVM's folder makes of constant operands is outside this model. -/
inductive Value where
  | ConstantFP (Val : Double)
  | Argument (F : String) (Idx : Nat)
  | FAdd (L R : Value)
  | FSub (L R : Value)
  | FMul (L R : Value)
  | FCmpULT (L R : Value)
  | UIToFP (V : Value)
  deriving DecidableEq, Repr

/-- An instruction of a basic block: one that computes a value, or a return. -/
inductive Inst where
  | val (V : Value)
  | Ret (V : Value)
  deriving DecidableEq, Repr

/-- An `llvm::Function` of the module: its name, the names of its arguments and its
basic blocks. A function without blocks is a declaration (`empty()`). LLVM keeps the
names of the functions of a module distinct, so the name stands for the handle. -/
structure Function where
  Name : String
  args : List String
  blocks : List (List Inst)
  deriving DecidableEq, Repr

/-- The state the lowering works on: the functions of `mod`, the insertion point of
`builder` (the function whose last block receives the instructions), the symbol table
`namedVals` (a null handle is `none`), and the lines written by `LogErrorV`. -/
structure Codegen where
  mod : List Function
  InsertPoint : Option String
  namedVals : List (String × Option Value)
  errs : List String
  deriving DecidableEq, Repr

/-- Result of a lowering function: the returned pointer (`none` for `nullptr`) with
the state, or `undefined` when the code dereferences a null pointer. -/
inductive Outcome (α : Type) where
  | ret (v : Option α) (s : Codegen)
  | undefined
  deriving Repr

/-- The function `LogErrorV`: writes the line and returns null. -/
def LogErrorV (Str : String) (s : Codegen) : Codegen :=
  { s with errs := s.errs ++ [Str] }

/-- The call `mod.getFunction(Name)`: the function of that name, if any. -/
def getFunction : List Function → String → Option Function
  | [], _ => none
  | F :: rest, Name => if F.Name = Name then some F else getFunction rest Name

/-- The counter loop of LLVM's symbol tables: the first of `base k`, `base (k+1)`, ...
that is not taken. -/
def freshName (taken : List String) (base : String) : Nat → Nat → String
  | 0, k => base ++ toString k
  | fuel + 1, k =>
    if (base ++ toString k) ∈ taken then freshName taken base fuel (k + 1)
    else base ++ toString k

/-- The name LLVM gives a value that asks for `Name` in a symbol table where the
names `taken` are in use: `Name` itself when it is free, otherwise `Name` followed by
`sep` and a number that makes it unique. -/
def uniqueName (taken : List String) (Name sep : String) : String :=
  if Name ∈ taken then freshName taken (Name ++ sep) taken.length 1 else Name

/-- The loop `for (auto& Arg : F->args()) Arg.setName(Args[Idx++])`: the names the
arguments carry afterwards, `taken` being the names of the arguments before. -/
def setNames : List String → List String → List String
  | _, [] => []
  | taken, a :: rest =>
    let n := uniqueName taken a ""
    n :: setNames (taken ++ [n]) rest

/-- The builder inserting an instruction at its insertion point: the instruction is
appended to the last block of the function the builder points into; without such a
block in the module it is attached nowhere. -/
def Insert (I : Inst) (s : Codegen) : Codegen :=
  match s.InsertPoint with
  | none => s
  | some Name =>
    { s with mod := s.mod.map fun F =>
        if F.Name = Name then
          match F.blocks.reverse with
          | [] => F
          | BB :: before => { F with blocks := (before.reverse ++ [BB ++ [I]]) }
        else F }

/-! ## Lowering (`ast.cpp`) -/

/-- The `codegen` methods of the four expression classes. In `CallExprAST::codegen`
the test on the looked-up callee is `if (CalleeF)`: a callee that is found is
reported as unknown, and for a callee that is not found the next statement reads
`CalleeF->arg_size()` through the null pointer, so nothing after it is reached with
a defined behaviour. -/
def ExprAST.codegen : ExprAST → Codegen → Outcome Value
  | ExprAST.Number Val, s => Outcome.ret (some (Value.ConstantFP Val)) s
  | ExprAST.Variable Name, s =>
    let r := mapIndex s.namedVals Name none
    let s1 := { s with namedVals := r.2 }
    match r.1 with
    | none => Outcome.ret none (LogErrorV "Unknown variable name" s1)
    | some V => Outcome.ret (some V) s1
  | ExprAST.Binary Op LHS RHS, s =>
    match LHS.codegen s with
    | Outcome.undefined => Outcome.undefined
    | Outcome.ret L s1 =>
      match RHS.codegen s1 with
      | Outcome.undefined => Outcome.undefined
      | Outcome.ret R s2 =>
        match L, R with
        | some L, some R =>
          if Op = '+' then Outcome.ret (some (Value.FAdd L R)) (Insert (Inst.val (Value.FAdd L R)) s2)
          else if Op = '-' then
            Outcome.ret (some (Value.FSub L R)) (Insert (Inst.val (Value.FSub L R)) s2)
          else if Op = '*' then
            Outcome.ret (some (Value.FMul L R)) (Insert (Inst.val (Value.FMul L R)) s2)
          else if Op = '<' then
            let s3 := Insert (Inst.val (Value.FCmpULT L R)) s2
            Outcome.ret (some (Value.UIToFP (Value.FCmpULT L R)))
              (Insert (Inst.val (Value.UIToFP (Value.FCmpULT L R))) s3)
          else Outcome.ret none (LogErrorV "invalid binary operator" s2)
        | _, _ => Outcome.ret none s2
  | ExprAST.Call Callee _, s =>
    match getFunction s.mod Callee with
    | some _ => Outcome.ret none (LogErrorV "Uknown function referenced" s)
    | none => Outcome.undefined

/-- The method `PrototypeAST::codegen`: `Function::Create` adds a declaration to the
module and the arguments are named after the prototype. It never returns null. -/
def PrototypeAST.codegen (P : PrototypeAST) (s : Codegen) : Function × Codegen :=
  let F : Function :=
    { Name := uniqueName (s.mod.map fun G => G.Name) P.Name ".",
      args := setNames [] P.Args,
      blocks := [] }
  (F, { s with mod := s.mod ++ [F] })

/-- The loop `for (auto& Arg : TheFunction->args()) namedVals[Arg.getName()] = &Arg`,
`Idx` being the position of the first of the remaining arguments. -/
def recordArgs (F : String) : List String → Nat → List (String × Option Value) →
    List (String × Option Value)
  | [], _, namedVals => namedVals
  | a :: rest, Idx, namedVals =>
    recordArgs F rest (Idx + 1) (mapSet namedVals a (some (Value.Argument F Idx)))

/-- The first part of `FunctionAST::codegen` (up to the lowering of the body): the
function is looked up or declared; `none` with the diagnostic when it already has a
body; otherwise the entry block is created, the builder is pointed at it and
`namedVals` is cleared and filled from the arguments of the function. The result is
the function and the state in which the body is lowered. -/
def FunctionAST.enter (Fn : FunctionAST) (s : Codegen) : Option Function × Codegen :=
  let r : Function × Codegen :=
    match getFunction s.mod Fn.Proto.Name with
    | some F => (F, s)
    | none => Fn.Proto.codegen s
  let TheFunction := r.1
  let s1 := r.2
  if TheFunction.blocks ≠ [] then (none, LogErrorV "Function cannot be redefined. " s1)
  else
    let s2 : Codegen :=
      { s1 with
        mod := s1.mod.map fun F =>
          if F.Name = TheFunction.Name then { F with blocks := F.blocks ++ [[]] } else F,
        InsertPoint := some TheFunction.Name }
    (some TheFunction,
      { s2 with namedVals := recordArgs TheFunction.Name TheFunction.args 0 [] })

/-- The method `FunctionAST::codegen`: on success the handle of the function, whose
body ends with the return of the value of the body; when the body fails to lower the
function is erased from the module. -/
def FunctionAST.codegen (Fn : FunctionAST) (s : Codegen) : Outcome String :=
  match Fn.enter s with
  | (none, s1) => Outcome.ret none s1
  | (some TheFunction, s3) =>
    match Fn.Body.codegen s3 with
    | Outcome.undefined => Outcome.undefined
    | Outcome.ret (some RetVal) s4 =>
      Outcome.ret (some TheFunction.Name) (Insert (Inst.Ret RetVal) s4)
    | Outcome.ret none s4 =>
      Outcome.ret none { s4 with mod := s4.mod.filter fun F => F.Name ≠ TheFunction.Name }

/-- A fresh module, builder and symbol table (`InitializeModule`). -/
def Codegen.init : Codegen := { mod := [], InsertPoint := none, namedVals := [], errs := [] }

/-! ## Tables, tokens and modules of the examples -/

/-- Modelled from the spec: the precedence table of the language (the code that fills
`BinopPrecedence` is not among the sources): `<` weakest, `+` and `-` next, `*`
strongest. -/
def stdPrec : List (Char × Int) := [('<', 10), ('+', 20), ('-', 20), ('*', 40)]

/-- A parser state whose current token is the first of `toks`. -/
def Parser.start (tbl : List (Char × Int)) (toks : List Token) : Parser :=
  getNextToken { CurTok := Token.tok_eof, input := toks, BinopPrecedence := tbl, errs := [] }

/-- Every entry of the table `t` is an entry of `u`. -/
def TableLe (t u : List (Char × Int)) : Prop :=
  ∀ k v, mapFind t k = some v → mapFind u k = some v

/-- The definition `def add(a b) a+b`. -/
def addDef : FunctionAST :=
  { Proto := { Name := "add", Args := ["a", "b"] },
    Body := ExprAST.Binary '+' (ExprAST.Variable "a") (ExprAST.Variable "b") }

/-- The module after `def add(a b) a+b` has been lowered into a fresh one. -/
def addModule : Codegen :=
  { mod := [{ Name := "add", args := ["a", "b"],
              blocks := [[Inst.val (Value.FAdd (Value.Argument "add" 0) (Value.Argument "add" 1)),
                          Inst.Ret (Value.FAdd (Value.Argument "add" 0) (Value.Argument "add" 1))]] }],
    InsertPoint := some "add",
    namedVals := [("a", some (Value.Argument "add" 0)), ("b", some (Value.Argument "add" 1))],
    errs := [] }

/-- The module after the prototype `foo(a b)` has been lowered into a fresh one. -/
def fooDeclared : Codegen := (PrototypeAST.codegen { Name := "foo", Args := ["a", "b"] } Codegen.init).2

/-- The definition `def foo(x) x`. -/
def fooDef : FunctionAST :=
  { Proto := { Name := "foo", Args := ["x"] }, Body := ExprAST.Variable "x" }

/-- The module after `def foo(x) x` has been lowered into a fresh one. -/
def fooModule : Codegen :=
  { mod := [{ Name := "foo", args := ["x"], blocks := [[Inst.Ret (Value.Argument "foo" 0)]] }],
    InsertPoint := some "foo",
    namedVals := [("x", some (Value.Argument "foo" 0))],
    errs := [] }

/-- The module after the prototype `foo(a)` has been lowered into a fresh one. -/
def fooDeclaredA : Codegen := (PrototypeAST.codegen { Name := "foo", Args := ["a"] } Codegen.init).2

/-- The precedence of a token as the spec words it: the value of the table for an
ASCII character that the table lists with a positive precedence, and `-1` for every
other token. -/
def tokenPrecedence (tbl : List (Char × Int)) (t : Token) : Int :=
  match t with
  | Token.char c =>
    if c.toNat < 128 then
      match mapFind tbl c with
      | some p => if 0 < p then p else -1
      | none => -1
    else -1
  | _ => -1

/-- The value handle a name resolves to in the symbol table: none when the name has
no entry or a null one. -/
def resolve (namedVals : List (String × Option Value)) (Name : String) : Option Value :=
  match mapFind namedVals Name with
  | some (some V) => some V
  | _ => none

/-- The definition `def lt(a b) a<b`. -/
def ltDef : FunctionAST :=
  { Proto := { Name := "lt", Args := ["a", "b"] },
    Body := ExprAST.Binary '<' (ExprAST.Variable "a") (ExprAST.Variable "b") }

/-- The state in which the body of `def lt(a b) a<b` is lowered, in a fresh module:
the entry block of `lt` is empty and the builder points at it. -/
def ltEntry : Codegen :=
  { mod := [{ Name := "lt", args := ["a", "b"], blocks := [[]] }],
    InsertPoint := some "lt",
    namedVals := [("a", some (Value.Argument "lt" 0)), ("b", some (Value.Argument "lt" 1))],
    errs := [] }

/-- A chain `o1 p1 o2 p2 ...` that follows a primary, as the parser meets it: in the
state after the preceding primary the current token is the ASCII operator `o`, which
the table `tbl` lists with the precedence `p`, and `ParsePrimary` (with fuel `n`)
returns the operand `e` from the token after the operator and leaves the state `s1`,
from which the rest of the chain goes on. -/
def IsChain (n : Nat) (tbl : List (Char × Int)) (p : Int) :
    Parser → List (Char × ExprAST × Parser) → Prop
  | _, [] => True
  | s, (o, e, s1) :: rest =>
    s.CurTok = Token.char o ∧ o.toNat < 128 ∧ mapFind tbl o = some p ∧
      ParsePrimary n (getNextToken s) = some (some e, s1) ∧ IsChain n tbl p s1 rest

/-- The state after the last operand of a chain. -/
def chainEnd : Parser → List (Char × ExprAST × Parser) → Parser
  | s, [] => s
  | _, (_, _, s1) :: rest => chainEnd s1 rest

/-- The left-nested tree of a chain: `Binary on (... Binary o1 p0 p1 ...) pn`. -/
def leftNested : ExprAST → List (Char × ExprAST × Parser) → ExprAST
  | LHS, [] => LHS
  | LHS, (o, e, _) :: rest => leftNested (ExprAST.Binary o LHS e) rest

/-- What the test that writes the diagnostic `msg` has found of the current token
`t`: `ParsePrimary` met a token that starts no expression, `ParseParenExpr` no `)`,
the argument loop neither `)` nor `,`, and `ParsePrototype` no identifier, no `(`,
or a token that is neither an identifier nor `)`. -/
def Rejects (msg : String) (t : Token) : Prop :=
  (msg = "unknown token when expecting an expression" ∧
    (∀ n, t ≠ Token.tok_identifier n) ∧ (∀ v, t ≠ Token.tok_number v) ∧ t ≠ Token.char '(') ∨
  (msg = "expected ')'" ∧ t ≠ Token.char ')') ∨
  (msg = "Expected ')' or ',' in argument list" ∧ t ≠ Token.char ')' ∧ t ≠ Token.char ',') ∨
  (msg = "Expected function name in prototype" ∧ ∀ n, t ≠ Token.tok_identifier n) ∨
  (msg = "Expected '(' in prototype" ∧ t ≠ Token.char '(') ∨
  (msg = "Expected ')' in prototype" ∧ t ≠ Token.char ')' ∧ ∀ n, t ≠ Token.tok_identifier n)

/-- The state `u` in which a parsing function has returned `v`, the diagnostics
having been `E` when it was called: after a success no diagnostic has been added;
after a failure exactly one has, and the current token is the one its test
rejected. -/
def ParseOutcome {α : Type} (E : List String) (v : Option α) (u : Parser) : Prop :=
  match v with
  | some _ => u.errs = E
  | none => ∃ msg, u.errs = E ++ [msg] ∧ Rejects msg u.CurTok

mutual

/-- The operator characters of the binary nodes of an expression tree, arguments of
calls included. -/
def ExprAST.binops : ExprAST → List Char
  | ExprAST.Number _ => []
  | ExprAST.Variable _ => []
  | ExprAST.Binary Op LHS RHS => Op :: (LHS.binops ++ RHS.binops)
  | ExprAST.Call _ Args => binopsList Args

/-- The operator characters of the binary nodes of a list of expression trees. -/
def binopsList : List ExprAST → List Char
  | [] => []
  | a :: rest => a.binops ++ binopsList rest

end

/-- The character `c` is a legal operator of the table: an ASCII character that the
table lists with a positive precedence. -/
def Legal (tbl : List (Char × Int)) (c : Char) : Prop :=
  c.toNat < 128 ∧ ∃ p, mapFind tbl c = some p ∧ 0 < p

/-- Every entry with a positive precedence of the later table `u` is an entry of the
earlier table `t`. -/
def TableBack (t u : List (Char × Int)) : Prop :=
  ∀ k p, mapFind u k = some p → 0 < p → mapFind t k = some p

/-- The token stream of `s` is exhausted: nothing is left to deliver and the current
token is end-of-input. -/
def Exhausted (s : Parser) : Prop := s.input = [] ∧ s.CurTok = Token.tok_eof

/-- The state `u` is not before `s` in the token stream: no more tokens are left to
deliver than in `s`, and if `s` is exhausted so is `u`. -/
def NotBefore (s u : Parser) : Prop :=
  u.input.length ≤ s.input.length ∧ (Exhausted s → Exhausted u)

/-- At least one token has been consumed between the states `s` and `u`: fewer
tokens are left to deliver, or the stream is exhausted. -/
def Advanced (s u : Parser) : Prop :=
  u.input.length < s.input.length ∨ Exhausted u

/-- The state `s` after a failure found at its current token: the diagnostic `msg`
has been written and nothing else has happened, the current token, the tokens still
to be delivered and the table are those of `s`. -/
def Parser.failedAt (s : Parser) (msg : String) : Parser :=
  { CurTok := s.CurTok, input := s.input, BinopPrecedence := s.BinopPrecedence,
    errs := s.errs ++ [msg] }

/-- The token buffer of `u` is downstream of that of `s`: the current token of `u`
followed by the tokens `u` has still to deliver is a final part of the same for `s`
(nothing has been put back or skipped over unseen), or the stream of `u` is
exhausted; and an exhausted stream stays exhausted. -/
def Downstream (s u : Parser) : Prop :=
  ((∃ pre, s.CurTok :: s.input = pre ++ u.CurTok :: u.input) ∨ Exhausted u) ∧
    (Exhausted s → Exhausted u)

/-! ## Fuel -/

/-- More fuel does not change a result: one more unit, all six functions at once. -/
theorem fuel_succ (n : Nat) :
    (∀ s r, ParseParenExpr n s = some r → ParseParenExpr (n + 1) s = some r) ∧
    (∀ A s r, ParseArgs n A s = some r → ParseArgs (n + 1) A s = some r) ∧
    (∀ I s r, ParseIdentifierExpr n I s = some r → ParseIdentifierExpr (n + 1) I s = some r) ∧
    (∀ s r, ParsePrimary n s = some r → ParsePrimary (n + 1) s = some r) ∧
    (∀ p L s r, ParseBinOpRHS n p L s = some r → ParseBinOpRHS (n + 1) p L s = some r) ∧
    (∀ s r, ParseExpression n s = some r → ParseExpression (n + 1) s = some r) := by
  induction n with
  | zero =>
    refine ⟨?_, ?_, ?_, ?_, ?_, ?_⟩ <;> intros <;> simp_all [ParseParenExpr, ParseArgs,
      ParseIdentifierExpr, ParsePrimary, ParseBinOpRHS, ParseExpression]
  | succ n ih =>
    obtain ⟨ihP, ihA, ihI, ihPr, ihB, ihE⟩ := ih
    refine ⟨?_, ?_, ?_, ?_, ?_, ?_⟩
    · intro s r h
      rw [ParseParenExpr] at h ⊢
      cases hq : ParseExpression n (getNextToken s) with
      | none => simp [hq] at h
      | some q => simp only [hq, ihE _ _ hq] at h ⊢; exact h
    · intro A s r h
      rw [ParseArgs] at h ⊢
      cases hq : ParseExpression n s with
      | none => simp [hq] at h
      | some q =>
        simp only [hq, ihE _ _ hq] at h ⊢
        obtain ⟨v, s1⟩ := q
        cases v with
        | none => exact h
        | some Arg =>
          simp only at h ⊢
          split_ifs at h ⊢ with h1 h2
          · exact h
          · exact h
          · exact ihA _ _ _ h
    · intro I s r h
      rw [ParseIdentifierExpr] at h ⊢
      simp only at h ⊢
      split_ifs at h ⊢ with h1 h2
      · exact h
      · cases hq : ParseArgs n [] (getNextToken (getNextToken s)) with
        | none => simp [hq] at h
        | some q => simp only [hq, ihA _ _ _ hq] at h ⊢; exact h
      · exact h
    · intro s r h
      rw [ParsePrimary] at h ⊢
      generalize s.CurTok = t at h ⊢
      cases t with
      | tok_identifier IdName => exact ihI _ _ _ h
      | char c =>
        simp only at h ⊢
        split_ifs at h ⊢ with h1
        · exact ihP _ _ h
        · exact h
      | _ => exact h
    · intro p L s r h
      rw [ParseBinOpRHS] at h ⊢
      simp only at h ⊢
      split_ifs at h ⊢ with h1
      · exact h
      · cases hq : ParsePrimary n (getNextToken (GetTokPrecedence s).2) with
        | none => simp [hq] at h
        | some q =>
          simp only [hq, ihPr _ _ hq] at h ⊢
          obtain ⟨v, s2⟩ := q
          cases v with
          | none => exact h
          | some RHS =>
            simp only at h ⊢
            split_ifs at h ⊢ with h2
            · cases hq2 : ParseBinOpRHS n ((GetTokPrecedence s).1 + 1) RHS (GetTokPrecedence s2).2 with
              | none => simp [hq2] at h
              | some q2 =>
                simp only [hq2, ihB _ _ _ _ hq2] at h ⊢
                obtain ⟨v2, s3⟩ := q2
                cases v2 with
                | none => exact h
                | some RHS1 => exact ihB _ _ _ _ h
            · exact ihB _ _ _ _ h
    · intro s r h
      rw [ParseExpression] at h ⊢
      cases hq : ParsePrimary n s with
      | none => simp [hq] at h
      | some q =>
        simp only [hq, ihPr _ _ hq] at h ⊢
        obtain ⟨v, s1⟩ := q
        cases v with
        | none => exact h
        | some LHS => exact ihB _ _ _ _ h

/-- More fuel does not change the result of `ParsePrimary`. -/
theorem ParsePrimary_mono {n m : Nat} (hnm : n ≤ m) {s : Parser} {r : Option ExprAST × Parser}
    (h : ParsePrimary n s = some r) : ParsePrimary m s = some r := by
  induction hnm with
  | refl => exact h
  | step _ ih => exact (fuel_succ _).2.2.2.1 _ _ ih

/-- More fuel does not change the result of `ParseBinOpRHS`. -/
theorem ParseBinOpRHS_mono {n m : Nat} (hnm : n ≤ m) {p : Int} {L : ExprAST} {s : Parser}
    {r : Option ExprAST × Parser} (h : ParseBinOpRHS n p L s = some r) :
    ParseBinOpRHS m p L s = some r := by
  induction hnm with
  | refl => exact h
  | step _ ih => exact (fuel_succ _).2.2.2.2.1 _ _ _ _ ih

/-- More fuel does not change the result of `ParseExpression`. -/
theorem ParseExpression_mono {n m : Nat} (hnm : n ≤ m) {s : Parser}
    {r : Option ExprAST × Parser} (h : ParseExpression n s = some r) :
    ParseExpression m s = some r := by
  induction hnm with
  | refl => exact h
  | step _ ih => exact (fuel_succ _).2.2.2.2.2 _ _ ih

/-! ## The precedence table during parsing -/

theorem TableLe.refl (t : List (Char × Int)) : TableLe t t := fun _ _ h => h

theorem TableLe.trans {t u w : List (Char × Int)} (h1 : TableLe t u) (h2 : TableLe u w) :
    TableLe t w := fun k v h => h2 k v (h1 k v h)

theorem mapFind_mapSet {κ ν : Type} [DecidableEq κ] (m : List (κ × ν)) (x k : κ) (v : ν) :
    mapFind (mapSet m x v) k = if x = k then some v else mapFind m k := by
  induction m with
  | nil => simp [mapSet, mapFind]
  | cons e m ih =>
    obtain ⟨a, b⟩ := e
    by_cases hax : a = x
    · subst hax
      by_cases hak : a = k <;> simp [mapSet, mapFind, hak]
    · by_cases hak : a = k
      · subst hak
        simp [mapSet, mapFind, hax, Ne.symm hax]
      · simp [mapSet, mapFind, hax, hak, ih]

theorem TableLe_mapIndex (t : List (Char × Int)) (c : Char) :
    TableLe t (mapIndex t c 0).2 := by
  intro k v h
  unfold mapIndex
  cases hc : mapFind t c with
  | some w => simpa using h
  | none =>
    simp only [mapFind_mapSet]
    split_ifs with hck
    · subst hck; rw [hc] at h; cases h
    · exact h

@[simp] theorem getNextToken_BinopPrecedence (s : Parser) :
    (getNextToken s).BinopPrecedence = s.BinopPrecedence := by
  unfold getNextToken gettok
  cases s.input <;> rfl

@[simp] theorem LogError_BinopPrecedence (m : String) (s : Parser) :
    (LogError m s).BinopPrecedence = s.BinopPrecedence := rfl

@[simp] theorem GetTokPrecedence_CurTok (s : Parser) :
    (GetTokPrecedence s).2.CurTok = s.CurTok := by
  unfold GetTokPrecedence
  split
  · dsimp only
    split_ifs <;> rfl
  · rfl

@[simp] theorem GetTokPrecedence_input (s : Parser) :
    (GetTokPrecedence s).2.input = s.input := by
  unfold GetTokPrecedence
  split
  · dsimp only
    split_ifs <;> rfl
  · rfl

theorem GetTokPrecedence_table (s : Parser) :
    TableLe s.BinopPrecedence (GetTokPrecedence s).2.BinopPrecedence := by
  unfold GetTokPrecedence
  split
  · dsimp only
    split_ifs
    · exact TableLe_mapIndex _ _
    · exact TableLe_mapIndex _ _
    · exact TableLe.refl _
  · exact TableLe.refl _

/-- Parsing only adds entries to `BinopPrecedence`: every entry of the table before
is an entry of the table after, for all six functions at once. -/
theorem parse_table (n : Nat) :
    (∀ s v u, ParseParenExpr n s = some (v, u) → TableLe s.BinopPrecedence u.BinopPrecedence) ∧
    (∀ A s v u, ParseArgs n A s = some (v, u) → TableLe s.BinopPrecedence u.BinopPrecedence) ∧
    (∀ I s v u, ParseIdentifierExpr n I s = some (v, u) →
      TableLe s.BinopPrecedence u.BinopPrecedence) ∧
    (∀ s v u, ParsePrimary n s = some (v, u) → TableLe s.BinopPrecedence u.BinopPrecedence) ∧
    (∀ p L s v u, ParseBinOpRHS n p L s = some (v, u) →
      TableLe s.BinopPrecedence u.BinopPrecedence) ∧
    (∀ s v u, ParseExpression n s = some (v, u) →
      TableLe s.BinopPrecedence u.BinopPrecedence) := by
  induction n with
  | zero =>
    refine ⟨?_, ?_, ?_, ?_, ?_, ?_⟩ <;> intros <;> simp_all [ParseParenExpr, ParseArgs,
      ParseIdentifierExpr, ParsePrimary, ParseBinOpRHS, ParseExpression]
  | succ n ih =>
    obtain ⟨ihP, ihA, ihI, ihPr, ihB, ihE⟩ := ih
    refine ⟨?_, ?_, ?_, ?_, ?_, ?_⟩
    · intro s v u h
      rw [ParseParenExpr] at h
      cases hq : ParseExpression n (getNextToken s) with
      | none => simp [hq] at h
      | some q =>
        obtain ⟨w, s2⟩ := q
        have h2 := ihE _ _ _ hq
        simp only [getNextToken_BinopPrecedence] at h2
        simp only [hq] at h
        cases w with
        | none => simp only [Option.some.injEq, Prod.mk.injEq] at h; rw [← h.2]; exact h2
        | some V =>
          simp only at h
          split_ifs at h <;> simp only [Option.some.injEq, Prod.mk.injEq] at h <;>
            rw [← h.2] <;> simpa using h2
    · intro A s v u h
      rw [ParseArgs] at h
      cases hq : ParseExpression n s with
      | none => simp [hq] at h
      | some q =>
        obtain ⟨w, s1⟩ := q
        have h2 := ihE _ _ _ hq
        simp only [hq] at h
        cases w with
        | none => simp only [Option.some.injEq, Prod.mk.injEq] at h; rw [← h.2]; exact h2
        | some Arg =>
          simp only at h
          split_ifs at h
          · simp only [Option.some.injEq, Prod.mk.injEq] at h; rw [← h.2]; exact h2
          · simp only [Option.some.injEq, Prod.mk.injEq] at h; rw [← h.2]; simpa using h2
          · have h3 := ihA _ _ _ _ h
            simp only [getNextToken_BinopPrecedence] at h3
            exact h2.trans h3
    · intro I s v u h
      rw [ParseIdentifierExpr] at h
      simp only at h
      split_ifs at h
      · simp only [Option.some.injEq, Prod.mk.injEq] at h; rw [← h.2]; simpa using TableLe.refl _
      · cases hq : ParseArgs n [] (getNextToken (getNextToken s)) with
        | none => simp [hq] at h
        | some q =>
          obtain ⟨w, s3⟩ := q
          have h2 := ihA _ _ _ _ hq
          simp only [getNextToken_BinopPrecedence] at h2
          simp only [hq] at h
          cases w <;> simp only [Option.some.injEq, Prod.mk.injEq] at h <;> rw [← h.2] <;>
            simpa using h2
      · simp only [Option.some.injEq, Prod.mk.injEq] at h; rw [← h.2]; simpa using TableLe.refl _
    · intro s v u h
      rw [ParsePrimary] at h
      generalize s.CurTok = t at h
      cases t with
      | tok_identifier IdName => exact ihI _ _ _ _ h
      | tok_number NumVal =>
        simp only [ParseNumberExpr, Option.some.injEq, Prod.mk.injEq] at h
        rw [← h.2]; simpa using TableLe.refl _
      | char c =>
        simp only at h
        split_ifs at h
        · exact ihP _ _ _ h
        · simp only [Option.some.injEq, Prod.mk.injEq] at h; rw [← h.2]; exact TableLe.refl _
      | _ => simp only [Option.some.injEq, Prod.mk.injEq] at h; rw [← h.2]; exact TableLe.refl _
    · intro p L s v u h
      rw [ParseBinOpRHS] at h
      simp only at h
      have h0 := GetTokPrecedence_table s
      split_ifs at h
      · simp only [Option.some.injEq, Prod.mk.injEq] at h; rw [← h.2]; exact h0
      · cases hq : ParsePrimary n (getNextToken (GetTokPrecedence s).2) with
        | none => simp [hq] at h
        | some q =>
          obtain ⟨w, s2⟩ := q
          have h2 := ihPr _ _ _ hq
          simp only [getNextToken_BinopPrecedence] at h2
          simp only [hq] at h
          cases w with
          | none =>
            simp only [Option.some.injEq, Prod.mk.injEq] at h; rw [← h.2]; exact h0.trans h2
          | some RHS =>
            simp only at h
            have h3 := GetTokPrecedence_table s2
            split_ifs at h
            · cases hq2 : ParseBinOpRHS n ((GetTokPrecedence s).1 + 1) RHS
                  (GetTokPrecedence s2).2 with
              | none => simp [hq2] at h
              | some q2 =>
                obtain ⟨w2, s3⟩ := q2
                have h4 := ihB _ _ _ _ _ hq2
                simp only [hq2] at h
                cases w2 with
                | none =>
                  simp only [Option.some.injEq, Prod.mk.injEq] at h
                  rw [← h.2]; exact ((h0.trans h2).trans h3).trans h4
                | some RHS1 =>
                  exact (((h0.trans h2).trans h3).trans h4).trans (ihB _ _ _ _ _ h)
            · exact ((h0.trans h2).trans h3).trans (ihB _ _ _ _ _ h)
    · intro s v u h
      rw [ParseExpression] at h
      cases hq : ParsePrimary n s with
      | none => simp [hq] at h
      | some q =>
        obtain ⟨w, s1⟩ := q
        have h2 := ihPr _ _ _ hq
        simp only [hq] at h
        cases w with
        | none => simp only [Option.some.injEq, Prod.mk.injEq] at h; rw [← h.2]; exact h2
        | some LHS => exact h2.trans (ihB _ _ _ _ _ h)

/-! ## One iteration of the loop of `ParseBinOpRHS` -/

/-- A listed ASCII operator with a positive precedence: `GetTokPrecedence` returns that
precedence and changes nothing. -/
theorem GetTokPrecedence_listed {s : Parser} {o : Char} {p : Int} (hcur : s.CurTok = Token.char o)
    (hascii : o.toNat < 128) (hfind : mapFind s.BinopPrecedence o = some p) (hpos : 0 < p) :
    GetTokPrecedence s = (p, s) := by
  obtain ⟨cur, inp, tbl, errs⟩ := s
  simp only at hcur hfind
  subst hcur
  simp only [GetTokPrecedence, hascii, if_true, mapIndex, hfind, not_le.mpr hpos, if_false]

/-- Asking again gives the same answer and no further change of the table. -/
theorem GetTokPrecedence_again (s : Parser) :
    GetTokPrecedence (GetTokPrecedence s).2 = ((GetTokPrecedence s).1, (GetTokPrecedence s).2) := by
  obtain ⟨cur, inp, tbl, errs⟩ := s
  cases cur with
  | char c =>
    by_cases hc : c.toNat < 128
    · cases hf : mapFind tbl c with
      | none => simp [GetTokPrecedence, hc, mapIndex, hf, mapFind_mapSet]
      | some v =>
        by_cases hv : v ≤ 0 <;> simp [GetTokPrecedence, hc, mapIndex, hf, hv]
    · simp [GetTokPrecedence, hc]
  | _ => rfl

/-- The loop stops at a token whose precedence is below `ExprPrec`. -/
theorem ParseBinOpRHS_stop (n : Nat) (ExprPrec : Int) (LHS : ExprAST) (s : Parser)
    (h : (GetTokPrecedence s).1 < ExprPrec) :
    ParseBinOpRHS (n + 1) ExprPrec LHS s = some (some LHS, (GetTokPrecedence s).2) := by
  rw [ParseBinOpRHS]
  simp only [h, if_true]

/-- An iteration in which the operator after the right operand does not bind
tighter: the two operands are merged and the loop goes on. -/
theorem ParseBinOpRHS_merge (n : Nat) (ExprPrec TokPrec : Int) (LHS RHS : ExprAST)
    (s s2 : Parser) (o : Char) (hg : GetTokPrecedence s = (TokPrec, s))
    (hge : ¬ TokPrec < ExprPrec) (hcur : s.CurTok = Token.char o)
    (hR : ParsePrimary n (getNextToken s) = some (some RHS, s2))
    (hnext : ¬ TokPrec < (GetTokPrecedence s2).1) :
    ParseBinOpRHS (n + 1) ExprPrec LHS s =
      ParseBinOpRHS n ExprPrec (ExprAST.Binary o LHS RHS) (GetTokPrecedence s2).2 := by
  rw [ParseBinOpRHS]
  simp only [hg, hge, if_false, hR, hnext, hcur, Token.toChar]

/-- An iteration in which the operator after the right operand binds tighter: the
pending operator first takes the right operand as its left-hand side. -/
theorem ParseBinOpRHS_absorb (n : Nat) (ExprPrec TokPrec : Int) (LHS RHS RHS1 : ExprAST)
    (s s2 s3 : Parser) (o : Char) (hg : GetTokPrecedence s = (TokPrec, s))
    (hge : ¬ TokPrec < ExprPrec) (hcur : s.CurTok = Token.char o)
    (hR : ParsePrimary n (getNextToken s) = some (some RHS, s2))
    (hnext : TokPrec < (GetTokPrecedence s2).1)
    (hrec : ParseBinOpRHS n (TokPrec + 1) RHS (GetTokPrecedence s2).2 = some (some RHS1, s3)) :
    ParseBinOpRHS (n + 1) ExprPrec LHS s =
      ParseBinOpRHS n ExprPrec (ExprAST.Binary o LHS RHS1) s3 := by
  rw [ParseBinOpRHS]
  simp only [hg, hge, if_false, hR, hnext, if_true, hrec, hcur, Token.toChar]

/-! ## Operator precedence -/

/-- C1: for a table that gives the ASCII operators `o1` and `o2` the positive
precedences `p1` and `p2`, and primaries `a`, `b`, `c` (what `ParsePrimary` returns at
the three places) with a non-operator token after `c`, `ParseExpression` on
`a o1 b o2 c` returns `(a o1 b) o2 c` when `p1 ≥ p2` and `a o1 (b o2 c)` when
`p2 > p1`, with any fuel from `n + 4` on, `n` being enough for the primaries. -/
theorem ParseExpression_two_operators (n : Nat) (s s1 s2 s3 : Parser) (a b c : ExprAST)
    (o1 o2 : Char) (p1 p2 : Int)
    (ho1 : o1.toNat < 128) (ho2 : o2.toNat < 128)
    (hp1 : mapFind s.BinopPrecedence o1 = some p1) (hpos1 : 0 < p1)
    (hp2 : mapFind s.BinopPrecedence o2 = some p2) (hpos2 : 0 < p2)
    (ha : ParsePrimary n s = some (some a, s1)) (hcur1 : s1.CurTok = Token.char o1)
    (hb : ParsePrimary n (getNextToken s1) = some (some b, s2))
    (hcur2 : s2.CurTok = Token.char o2)
    (hc : ParsePrimary n (getNextToken s2) = some (some c, s3))
    (hend : (GetTokPrecedence s3).1 = -1) :
    ∀ m, n + 4 ≤ m →
      ParseExpression m s =
        some (some (if p2 ≤ p1 then ExprAST.Binary o2 (ExprAST.Binary o1 a b) c
                    else ExprAST.Binary o1 a (ExprAST.Binary o2 b c)),
              (GetTokPrecedence s3).2) := by
  intro m hm
  obtain ⟨k, rfl⟩ : ∃ k, m = k + 1 + 1 + 1 + 1 := ⟨m - 4, by omega⟩
  have hnk : n ≤ k := by omega
  have ta := (parse_table n).2.2.2.1 _ _ _ ha
  have tb := (parse_table n).2.2.2.1 _ _ _ hb
  simp only [getNextToken_BinopPrecedence] at tb
  have g1 : GetTokPrecedence s1 = (p1, s1) :=
    GetTokPrecedence_listed hcur1 ho1 (ta _ _ hp1) hpos1
  have g2 : GetTokPrecedence s2 = (p2, s2) :=
    GetTokPrecedence_listed hcur2 ho2 (tb _ _ (ta _ _ hp2)) hpos2
  have g3 := GetTokPrecedence_again s3
  rw [hend] at g3
  have ha1 : ParsePrimary (k + 1 + 1 + 1) s = some (some a, s1) :=
    ParsePrimary_mono (by omega) ha
  have hb1 : ParsePrimary (k + 1 + 1) (getNextToken s1) = some (some b, s2) :=
    ParsePrimary_mono (by omega) hb
  have hc1 : ParsePrimary (k + 1) (getNextToken s2) = some (some c, s3) :=
    ParsePrimary_mono (by omega) hc
  have hc2 : ParsePrimary k (getNextToken s2) = some (some c, s3) :=
    ParsePrimary_mono hnk hc
  rw [ParseExpression]
  simp only [ha1]
  by_cases hle : p2 ≤ p1
  · simp only [hle, if_true]
    rw [ParseBinOpRHS_merge (k + 1 + 1) 0 p1 a b s1 s2 o1 g1 (by omega) hcur1 hb1
      (by rw [g2]; omega)]
    simp only [g2]
    rw [ParseBinOpRHS_merge (k + 1) 0 p2 _ c s2 s3 o2 g2 (by omega) hcur2 hc1
      (by rw [hend]; omega)]
    rw [ParseBinOpRHS_stop k 0 _ _ (by rw [g3]; exact (by decide : (-1 : Int) < 0))]
    simp only [g3]
  · simp only [hle, if_false]
    have hinner : ParseBinOpRHS (k + 1 + 1) (p1 + 1) b s2 =
        some (some (ExprAST.Binary o2 b c), (GetTokPrecedence s3).2) := by
      rw [ParseBinOpRHS_merge (k + 1) (p1 + 1) p2 b c s2 s3 o2 g2 (by omega) hcur2 hc1
        (by rw [hend]; omega)]
      rw [ParseBinOpRHS_stop k (p1 + 1) _ _ (by rw [g3]; show (-1 : Int) < p1 + 1; omega)]
      simp only [g3]
    rw [ParseBinOpRHS_absorb (k + 1 + 1) 0 p1 a b _ s1 s2 _ o1 g1 (by omega) hcur1 hb1
      (by rw [g2]; omega) (by rw [g2]; exact hinner)]
    rw [ParseBinOpRHS_stop (k + 1) 0 _ _ (by rw [g3]; exact (by decide : (-1 : Int) < 0))]
    simp only [g3]

/-- The two precedence chains of the spec, `1 + 2 * 3` and `1 - 2 - 3`, under the
table of the language: the first is `1 + (2 * 3)`, the second `(1 - 2) - 3`. -/
theorem ParseExpression_two_operators_examples :
    ParseExpression 5 (Parser.start stdPrec [Token.tok_number 1, Token.char '+',
        Token.tok_number 2, Token.char '*', Token.tok_number 3]) =
      some (some (ExprAST.Binary '+' (ExprAST.Number 1)
          (ExprAST.Binary '*' (ExprAST.Number 2) (ExprAST.Number 3))),
        { CurTok := Token.tok_eof, input := [], BinopPrecedence := stdPrec, errs := [] }) ∧
    ParseExpression 5 (Parser.start stdPrec [Token.tok_number 1, Token.char '-',
        Token.tok_number 2, Token.char '-', Token.tok_number 3]) =
      some (some (ExprAST.Binary '-' (ExprAST.Binary '-' (ExprAST.Number 1)
          (ExprAST.Number 2)) (ExprAST.Number 3)),
        { CurTok := Token.tok_eof, input := [], BinopPrecedence := stdPrec, errs := [] }) :=
  ⟨ParseExpression_two_operators 1
      (Parser.start stdPrec [Token.tok_number 1, Token.char '+', Token.tok_number 2,
        Token.char '*', Token.tok_number 3]) _ _ _ _ _ _ '+' '*' 20 40
      (by decide) (by decide) rfl (by decide) rfl (by decide) rfl rfl rfl rfl rfl rfl
      5 (Nat.le_refl 5),
   ParseExpression_two_operators 1
      (Parser.start stdPrec [Token.tok_number 1, Token.char '-', Token.tok_number 2,
        Token.char '-', Token.tok_number 3]) _ _ _ _ _ _ '-' '-' 20 20
      (by decide) (by decide) rfl (by decide) rfl (by decide) rfl rfl rfl rfl rfl rfl
      5 (Nat.le_refl 5)⟩

/-! ## Parentheses -/

/-- C2: when `ParseExpression` succeeds with the tree `t` on the tokens after a `(`
and stops at a `)`, `ParsePrimary` on `( e )` returns exactly `t` and consumes the
`)`. Hence, when an ASCII operator `o2` of positive precedence and a primary `c`
follow (and then a non-operator token), `ParseExpression` on `( e ) o2 c` returns
`Binary o2 t c`, whatever the operators inside `t` are: for `t = Binary o1 a b` the
precedences of `o1` and `o2` are not compared. -/
theorem ParsePrimary_paren (n : Nat) (s s1 : Parser) (t : ExprAST)
    (hopen : s.CurTok = Token.char '(')
    (ht : ParseExpression n (getNextToken s) = some (some t, s1))
    (hclose : s1.CurTok = Token.char ')') :
    (∀ m, n + 2 ≤ m → ParsePrimary m s = some (some t, getNextToken s1)) ∧
    (∀ (o2 : Char) (p2 : Int) (c : ExprAST) (s3 : Parser),
      (getNextToken s1).CurTok = Token.char o2 → o2.toNat < 128 →
      mapFind s.BinopPrecedence o2 = some p2 → 0 < p2 →
      ParsePrimary n (getNextToken (getNextToken s1)) = some (some c, s3) →
      (GetTokPrecedence s3).1 = -1 →
      ∀ m, n + 3 ≤ m →
        ParseExpression m s = some (some (ExprAST.Binary o2 t c), (GetTokPrecedence s3).2)) := by
  have hprim : ∀ m, n + 2 ≤ m → ParsePrimary m s = some (some t, getNextToken s1) := by
    intro m hm
    obtain ⟨k, rfl⟩ : ∃ k, m = k + 1 + 1 := ⟨m - 2, by omega⟩
    have ht1 : ParseExpression k (getNextToken s) = some (some t, s1) :=
      ParseExpression_mono (by omega) ht
    rw [ParsePrimary]
    simp only [hopen, if_true]
    rw [ParseParenExpr]
    simp only [ht1, hclose, ne_eq, not_true_eq_false, if_false]
  refine ⟨hprim, ?_⟩
  intro o2 p2 c s3 hcur2 ho2 hp2 hpos2 hc hend m hm
  obtain ⟨k, rfl⟩ : ∃ k, m = k + 1 + 1 + 1 := ⟨m - 3, by omega⟩
  have tt := (parse_table n).2.2.2.2.2 _ _ _ ht
  simp only [getNextToken_BinopPrecedence] at tt
  have g2 : GetTokPrecedence (getNextToken s1) = (p2, getNextToken s1) :=
    GetTokPrecedence_listed hcur2 ho2 (by simpa using tt _ _ hp2) hpos2
  have g3 := GetTokPrecedence_again s3
  rw [hend] at g3
  have hc1 : ParsePrimary (k + 1) (getNextToken (getNextToken s1)) = some (some c, s3) :=
    ParsePrimary_mono (by omega) hc
  rw [ParseExpression]
  simp only [hprim (k + 1 + 1) (by omega)]
  rw [ParseBinOpRHS_merge (k + 1) 0 p2 t c _ s3 o2 g2 (by omega) hcur2 hc1
    (by rw [hend]; omega)]
  rw [ParseBinOpRHS_stop k 0 _ _ (by rw [g3]; exact (by decide : (-1 : Int) < 0))]
  simp only [g3]

/-- The example of the spec, `(1 + 2) * 3`: the parenthesised sum is one primary, and
the additive node is the left operand of the multiplicative node. -/
theorem ParsePrimary_paren_example :
    ParsePrimary 6 (Parser.start stdPrec [Token.char '(', Token.tok_number 1,
        Token.char '+', Token.tok_number 2, Token.char ')', Token.char '*',
        Token.tok_number 3]) =
      some (some (ExprAST.Binary '+' (ExprAST.Number 1) (ExprAST.Number 2)),
        { CurTok := Token.char '*', input := [Token.tok_number 3],
          BinopPrecedence := stdPrec ++ [(')', 0)], errs := [] }) ∧
    ParseExpression 8 (Parser.start stdPrec [Token.char '(', Token.tok_number 1,
        Token.char '+', Token.tok_number 2, Token.char ')', Token.char '*',
        Token.tok_number 3]) =
      some (some (ExprAST.Binary '*'
          (ExprAST.Binary '+' (ExprAST.Number 1) (ExprAST.Number 2)) (ExprAST.Number 3)),
        { CurTok := Token.tok_eof, input := [],
          BinopPrecedence := stdPrec ++ [(')', 0)], errs := [] }) :=
  have h := ParsePrimary_paren 4
    (Parser.start stdPrec [Token.char '(', Token.tok_number 1, Token.char '+',
      Token.tok_number 2, Token.char ')', Token.char '*', Token.tok_number 3])
    _ (ExprAST.Binary '+' (ExprAST.Number 1) (ExprAST.Number 2)) rfl rfl rfl
  ⟨h.1 6 (by decide),
   h.2 '*' 40 (ExprAST.Number 3) _ rfl (by decide) rfl (by decide) rfl rfl 8 (by decide)⟩

/-! ## The function table of the module -/

theorem getFunction_name {l : List Function} {n : String} {F : Function}
    (h : getFunction l n = some F) : F.Name = n := by
  induction l with
  | nil => simp [getFunction] at h
  | cons G l ih =>
    rw [getFunction] at h
    split_ifs at h with hG
    · cases h; exact hG
    · exact ih h

theorem getFunction_none_not_mem {l : List Function} {n : String}
    (h : getFunction l n = none) : n ∉ l.map fun G => G.Name := by
  induction l with
  | nil => simp
  | cons G l ih =>
    rw [getFunction] at h
    split_ifs at h with hG
    simp only [List.map_cons, List.mem_cons, not_or]
    exact ⟨fun e => hG e.symm, ih h⟩

theorem getFunction_append (l : List Function) (F : Function) (n : String) :
    getFunction (l ++ [F]) n =
      match getFunction l n with
      | some G => some G
      | none => if F.Name = n then some F else none := by
  induction l with
  | nil => simp [getFunction]
  | cons G l ih =>
    by_cases hG : G.Name = n
    · simp [getFunction, hG]
    · simp only [List.cons_append, getFunction, hG, if_false]
      exact ih

theorem getFunction_map (f : Function → Function) (hf : ∀ G, (f G).Name = G.Name)
    (l : List Function) (n : String) :
    getFunction (l.map f) n = (getFunction l n).map f := by
  induction l with
  | nil => rfl
  | cons G l ih =>
    simp only [List.map_cons, getFunction, hf]
    split_ifs with hG
    · rfl
    · exact ih

theorem getFunction_erased (l : List Function) (n : String) :
    getFunction (l.filter fun F => F.Name ≠ n) n = none := by
  induction l with
  | nil => rfl
  | cons G l ih =>
    by_cases hG : G.Name = n
    · simpa [List.filter, hG] using ih
    · simp only [List.filter, hG, ne_eq, not_false_eq_true, decide_True, getFunction, if_false]
      exact ih

/-- The function `FunctionAST::codegen` works on bears the name of the prototype,
whether it was found in the module or has just been declared. -/
theorem FunctionAST.enter_name {Fn : FunctionAST} {s s3 : Codegen} {F : Function}
    (h : Fn.enter s = (some F, s3)) : F.Name = Fn.Proto.Name := by
  unfold FunctionAST.enter at h
  cases hg : getFunction s.mod Fn.Proto.Name with
  | some G =>
    simp only [hg] at h
    split_ifs at h
    · simp at h
    · simp only [Prod.mk.injEq, Option.some.injEq] at h
      rw [← h.1]; exact getFunction_name hg
  | none =>
    simp only [hg, PrototypeAST.codegen] at h
    split_ifs at h
    · simp at h
    · simp only [Prod.mk.injEq, Option.some.injEq] at h
      rw [← h.1]
      simp only [uniqueName, getFunction_none_not_mem hg, if_false]

/-! ## Calls -/

/-- C3 (the code at the failing input): `def add(a b) a+b` lowers into a fresh module
and declares `add` with two arguments; lowering the call `add(4, 5)` then returns
null with the line "Uknown function referenced", and the module is as before: no
call instruction has been emitted. -/
theorem CallExprAST_codegen_add_rejected :
    addDef.codegen Codegen.init = Outcome.ret (some "add") addModule ∧
    (getFunction addModule.mod "add").map (fun F => F.args.length) = some 2 ∧
    (ExprAST.Call "add" [ExprAST.Number 4, ExprAST.Number 5]).codegen addModule =
      Outcome.ret none { addModule with errs := ["Uknown function referenced"] } :=
  ⟨rfl, rfl, rfl⟩

/-- C4 (what the code does): `CallExprAST::codegen` reports "Uknown function
referenced" and returns null exactly for the callees that are in the module, leaving
module, builder and symbol table as they were; for a callee that is not in the module
it reports nothing and goes on to read the arity through the null pointer. -/
theorem CallExprAST_codegen_test_inverted (Callee : String) (Args : List ExprAST)
    (s : Codegen) :
    (getFunction s.mod Callee ≠ none →
      (ExprAST.Call Callee Args).codegen s =
        Outcome.ret none { s with errs := s.errs ++ ["Uknown function referenced"] }) ∧
    (getFunction s.mod Callee = none →
      (ExprAST.Call Callee Args).codegen s = Outcome.undefined) := by
  constructor
  · intro h
    cases hg : getFunction s.mod Callee with
    | none => exact absurd hg h
    | some F => simp only [ExprAST.codegen, hg, LogErrorV]
  · intro h
    simp only [ExprAST.codegen, h]

/-- The two cases of the inverted test at concrete inputs: the call `add(4, 5)` in
the module that defines `add`, and the call `f()` in a fresh module. -/
theorem CallExprAST_codegen_test_inverted_examples :
    (ExprAST.Call "add" [ExprAST.Number 4, ExprAST.Number 5]).codegen addModule =
      Outcome.ret none
        { addModule with errs := addModule.errs ++ ["Uknown function referenced"] } ∧
    (ExprAST.Call "f" []).codegen Codegen.init = Outcome.undefined :=
  ⟨(CallExprAST_codegen_test_inverted "add" _ addModule).1 (by decide),
   (CallExprAST_codegen_test_inverted "f" [] Codegen.init).2 rfl⟩

/-- C5 (the code at the failing input): with `foo(a b)` declared (two arguments), the
text `foo(1)` parses to a call with one argument, and lowering that call returns null
with the line "Uknown function referenced", not with "Incorrect # arguments passed":
the arity test is not reached. -/
theorem CallExprAST_codegen_arity_not_reported :
    (getFunction fooDeclared.mod "foo").map (fun F => F.args.length) = some 2 ∧
    ParseExpression 6 (Parser.start stdPrec [Token.tok_identifier "foo", Token.char '(',
        Token.tok_number 1, Token.char ')']) =
      some (some (ExprAST.Call "foo" [ExprAST.Number 1]),
        { CurTok := Token.tok_eof, input := [], BinopPrecedence := stdPrec ++ [(')', 0)],
          errs := [] }) ∧
    (ExprAST.Call "foo" [ExprAST.Number 1]).codegen fooDeclared =
      Outcome.ret none { fooDeclared with errs := ["Uknown function referenced"] } :=
  ⟨rfl, rfl, rfl⟩

/-! ## Function definitions -/

/-- C6: when the module has a function of the name of the definition with a
non-empty body, `FunctionAST::codegen` returns null with the line "Function cannot be
redefined. " and changes nothing else: module, builder and symbol table are as
before. -/
theorem FunctionAST_codegen_redefinition (Fn : FunctionAST) (s : Codegen) (F : Function)
    (hF : getFunction s.mod Fn.Proto.Name = some F) (hbody : F.blocks ≠ []) :
    Fn.codegen s =
      Outcome.ret none { s with errs := s.errs ++ ["Function cannot be redefined. "] } := by
  simp only [FunctionAST.codegen, FunctionAST.enter, hF, hbody, ne_eq, not_false_eq_true,
    if_true, LogErrorV]

/-- Lowering `def foo(x) x` twice, starting with a fresh module: the first lowering
succeeds and gives `foo` its body, the second is rejected and leaves it untouched. -/
theorem FunctionAST_codegen_redefinition_foo_twice :
    fooDef.codegen Codegen.init = Outcome.ret (some "foo") fooModule ∧
    fooDef.codegen fooModule =
      Outcome.ret none
        { fooModule with errs := fooModule.errs ++ ["Function cannot be redefined. "] } :=
  ⟨rfl, FunctionAST_codegen_redefinition fooDef fooModule
    { Name := "foo", args := ["x"], blocks := [[Inst.Ret (Value.Argument "foo" 0)]] }
    rfl (by decide)⟩

/-- C7: a declaration made by lowering the prototype `name(x)` is the bodiless
function `name` with the one argument `x`; with it in the module, lowering
`def name(x) x` succeeds with the handle of that function, the module has as many
functions as before and the others are as before, and `name` now has the body that
returns its parameter. -/
theorem FunctionAST_codegen_after_declaration (name x : String) (s : Codegen)
    (hF : getFunction s.mod name = some { Name := name, args := [x], blocks := [] }) :
    (∀ s0 : Codegen, getFunction s0.mod name = none →
      getFunction (PrototypeAST.codegen { Name := name, Args := [x] } s0).2.mod name =
        some { Name := name, args := [x], blocks := [] }) ∧
    ∃ s1, FunctionAST.codegen { Proto := { Name := name, Args := [x] },
                                Body := ExprAST.Variable x } s = Outcome.ret (some name) s1 ∧
      s1.mod.length = s.mod.length ∧
      getFunction s1.mod name =
        some { Name := name, args := [x],
               blocks := [[Inst.Ret (Value.Argument name 0)]] } ∧
      (∀ g, g ≠ name → getFunction s1.mod g = getFunction s.mod g) ∧
      s1.errs = s.errs := by
  constructor
  · intro s0 h0
    simp only [PrototypeAST.codegen, getFunction_append, h0, uniqueName,
      getFunction_none_not_mem h0, if_false, setNames, if_true, List.not_mem_nil]
  · refine ⟨Insert (Inst.Ret (Value.Argument name 0))
      { mod := s.mod.map fun F =>
          if F.Name = name then { F with blocks := F.blocks ++ [[]] } else F,
        InsertPoint := some name,
        namedVals := [(x, some (Value.Argument name 0))],
        errs := s.errs }, ?_, ?_, ?_, ?_, ?_⟩
    · simp only [FunctionAST.codegen, FunctionAST.enter, hF, ne_eq, not_true_eq_false,
        if_false, recordArgs, mapSet, ExprAST.codegen, mapIndex, mapFind, if_true]
    · simp [Insert]
    · simp only [Insert, List.map_map]
      rw [getFunction_map _ (by intro G; simp only [Function.comp]; split_ifs <;>
        (try split) <;> simp_all) _ _, hF]
      simp
    · intro g hg
      simp only [Insert, List.map_map]
      rw [getFunction_map _ (by intro G; simp only [Function.comp]; split_ifs <;>
        (try split) <;> simp_all) _ _]
      cases hgf : getFunction s.mod g with
      | none => rfl
      | some G =>
        have hn := getFunction_name hgf
        have hne : ¬ G.Name = name := by rw [hn]; exact hg
        simp [hne]
    · simp [Insert]

/-- The declaration `extern foo(x)` followed by the definition `def foo(x) x`, in a
fresh module. -/
theorem FunctionAST_codegen_after_declaration_foo :
    ∃ s1, fooDef.codegen (PrototypeAST.codegen { Name := "foo", Args := ["x"] } Codegen.init).2 =
        Outcome.ret (some "foo") s1 ∧
      s1.mod.length = 1 ∧
      getFunction s1.mod "foo" =
        some { Name := "foo", args := ["x"], blocks := [[Inst.Ret (Value.Argument "foo" 0)]] } :=
  have h := (FunctionAST_codegen_after_declaration "foo" "x"
    (PrototypeAST.codegen { Name := "foo", Args := ["x"] } Codegen.init).2 rfl).2
  h.elim fun s1 hs => ⟨s1, hs.1, hs.2.1, hs.2.2.1⟩

/-! ## Variable references -/

/-- C8: for every identifier `x` (and every precedence table) the token sequence `x`
parses to `Variable x`, also as a top-level expression, whose anonymous function has
no parameters; `VariableExprAST::codegen` returns the handle bound to `x` when there
is one, leaving the state as it is, and returns null with the line "Unknown variable
name" when `x` has no entry or a null one; hence lowering the top-level expression
`x` returns null whenever the function `__anon_expr` it is lowered into has no
parameters. -/
theorem VariableExprAST_unknown (x : String) :
    (∀ tbl m, 3 ≤ m →
      ParseExpression m (Parser.start tbl [Token.tok_identifier x]) =
        some (some (ExprAST.Variable x),
          { CurTok := Token.tok_eof, input := [], BinopPrecedence := tbl, errs := [] }) ∧
      ParseTopLevelExpr m (Parser.start tbl [Token.tok_identifier x]) =
        some (some { Proto := { Name := "__anon_expr", Args := [] },
                     Body := ExprAST.Variable x },
          { CurTok := Token.tok_eof, input := [], BinopPrecedence := tbl, errs := [] })) ∧
    (∀ (s : Codegen) (V : Value), mapFind s.namedVals x = some (some V) →
      (ExprAST.Variable x).codegen s = Outcome.ret (some V) s) ∧
    (∀ s : Codegen, (∀ V, mapFind s.namedVals x ≠ some (some V)) →
      ∃ s1, (ExprAST.Variable x).codegen s = Outcome.ret none s1 ∧
        s1.errs = s.errs ++ ["Unknown variable name"] ∧ s1.mod = s.mod) ∧
    (∀ s : Codegen, (∀ F, getFunction s.mod "__anon_expr" = some F → F.args = []) →
      ∃ s1, FunctionAST.codegen { Proto := { Name := "__anon_expr", Args := [] },
                                  Body := ExprAST.Variable x } s = Outcome.ret none s1) := by
  have hparse : ∀ tbl m, 3 ≤ m →
      ParseExpression m (Parser.start tbl [Token.tok_identifier x]) =
        some (some (ExprAST.Variable x),
          { CurTok := Token.tok_eof, input := [], BinopPrecedence := tbl, errs := [] }) := by
    intro tbl m hm
    exact ParseExpression_mono hm (by
      simp [ParseExpression, ParsePrimary, ParseIdentifierExpr, ParseBinOpRHS, Parser.start,
        getNextToken, gettok, GetTokPrecedence])
  refine ⟨fun tbl m hm => ⟨hparse tbl m hm, ?_⟩, ?_, ?_, ?_⟩
  · simp only [ParseTopLevelExpr, hparse tbl m hm]
  · intro s V h
    simp only [ExprAST.codegen, mapIndex, h]
  · intro s h
    cases hf : mapFind s.namedVals x with
    | none =>
      have hc : (ExprAST.Variable x).codegen s = Outcome.ret none
          (LogErrorV "Unknown variable name"
            { s with namedVals := mapSet s.namedVals x none }) := by
        simp only [ExprAST.codegen, mapIndex, hf]
      exact ⟨_, hc, rfl, rfl⟩
    | some v =>
      cases v with
      | none =>
        have hc : (ExprAST.Variable x).codegen s = Outcome.ret none
            (LogErrorV "Unknown variable name" s) := by
          simp only [ExprAST.codegen, mapIndex, hf]
        exact ⟨_, hc, rfl, rfl⟩
      | some V => exact absurd hf (h V)
  · intro s h
    cases hg : getFunction s.mod "__anon_expr" with
    | none =>
      simp only [FunctionAST.codegen, FunctionAST.enter, hg, PrototypeAST.codegen,
        setNames, recordArgs, ne_eq, not_true_eq_false, if_false, ExprAST.codegen, mapIndex,
        mapFind]
      exact ⟨_, rfl⟩
    | some F =>
      have hargs := h F hg
      by_cases hb : F.blocks = []
      · simp only [FunctionAST.codegen, FunctionAST.enter, hg, hargs, hb,
          recordArgs, ne_eq, not_true_eq_false, if_false, ExprAST.codegen, mapIndex, mapFind]
        exact ⟨_, rfl⟩
      · simp only [FunctionAST.codegen, FunctionAST.enter, hg, hb, ne_eq,
          not_false_eq_true, if_true]
        exact ⟨_, rfl⟩

/-- The top-level expression `x` in a fresh module: it parses, and its lowering
returns null with the line "Unknown variable name", leaving no function behind. -/
theorem VariableExprAST_unknown_toplevel :
    ParseTopLevelExpr 3 (Parser.start stdPrec [Token.tok_identifier "x"]) =
      some (some { Proto := { Name := "__anon_expr", Args := [] },
                   Body := ExprAST.Variable "x" },
        { CurTok := Token.tok_eof, input := [], BinopPrecedence := stdPrec, errs := [] }) ∧
    FunctionAST.codegen { Proto := { Name := "__anon_expr", Args := [] },
                          Body := ExprAST.Variable "x" } Codegen.init =
      Outcome.ret none
        { mod := [], InsertPoint := some "__anon_expr", namedVals := [("x", none)],
          errs := ["Unknown variable name"] } :=
  ⟨((VariableExprAST_unknown "x").1 stdPrec 3 (Nat.le_refl 3)).2, rfl⟩

/-! ## A body that fails to lower -/

/-- C9: when `FunctionAST::codegen` gets as far as lowering the body (the function
`F` was found or declared and is not a redefinition) and the body returns null, then
`FunctionAST::codegen` returns null and afterwards the module has no function of the
name of the definition, whatever it contained before. -/
theorem FunctionAST_codegen_body_fails (Fn : FunctionAST) (s s3 s4 : Codegen) (F : Function)
    (henter : Fn.enter s = (some F, s3))
    (hbody : Fn.Body.codegen s3 = Outcome.ret none s4) :
    ∃ s5, Fn.codegen s = Outcome.ret none s5 ∧ getFunction s5.mod Fn.Proto.Name = none ∧
      s5.mod = s4.mod.filter fun G => G.Name ≠ Fn.Proto.Name := by
  have hname := FunctionAST.enter_name henter
  refine ⟨{ s4 with mod := s4.mod.filter fun G => G.Name ≠ Fn.Proto.Name }, ?_, ?_, rfl⟩
  · simp only [FunctionAST.codegen, henter, hbody, hname]
  · exact getFunction_erased _ _

/-- A declaration `foo(a)` exists and the body of `def foo(x) x` fails to lower: the
declaration is gone afterwards. -/
theorem FunctionAST_codegen_body_fails_declared :
    getFunction fooDeclaredA.mod "foo" = some { Name := "foo", args := ["a"], blocks := [] } ∧
    ∃ s5, fooDef.codegen fooDeclaredA = Outcome.ret none s5 ∧
      getFunction s5.mod "foo" = none ∧ s5.mod = [] :=
  ⟨rfl,
   (FunctionAST_codegen_body_fails fooDef fooDeclaredA
      { mod := [{ Name := "foo", args := ["a"], blocks := [[]] }],
        InsertPoint := some "foo",
        namedVals := [("a", some (Value.Argument "foo" 0))],
        errs := [] }
      { mod := [{ Name := "foo", args := ["a"], blocks := [[]] }],
        InsertPoint := some "foo",
        namedVals := [("a", some (Value.Argument "foo" 0)), ("x", none)],
        errs := ["Unknown variable name"] }
      { Name := "foo", args := ["a"], blocks := [] } rfl rfl).elim
    fun s5 h => ⟨s5, h.1, h.2.1, h.2.2.trans rfl⟩⟩

/-! ## The symbol table of a definition -/

/-- C10 (the code at the failing input): with the declaration `foo(a)` in the module,
`def foo(x) x` is not rejected as a redefinition, and the symbol table its body is
lowered against binds `a`, the name of the argument of the earlier declaration, and
not `x`, the parameter of the prototype of the definition; the body `x` then fails to
lower. -/
theorem FunctionAST_enter_declared_names :
    (fooDef.enter fooDeclaredA).1 = some { Name := "foo", args := ["a"], blocks := [] } ∧
    (fooDef.enter fooDeclaredA).2.namedVals = [("a", some (Value.Argument "foo" 0))] ∧
    mapFind (fooDef.enter fooDeclaredA).2.namedVals "x" = none ∧
    fooDef.codegen fooDeclaredA =
      Outcome.ret none
        { mod := [], InsertPoint := some "foo",
          namedVals := [("a", some (Value.Argument "foo" 0)), ("x", none)],
          errs := ["Unknown variable name"] } :=
  ⟨rfl, rfl, rfl, rfl⟩

/-! ## Binary operators -/

/-- C11: when the operands of a binary node lower to the values `L` and `R`,
`BinaryExprAST::codegen` has the builder insert `FAdd L R` for `+`, `FSub L R` for
`-`, `FMul L R` for `*`, and for `<` the comparison `FCmpULT L R` followed by the
widening `UIToFP` of its result, and returns the value of the last instruction (for
`<` the widened value, not the comparison); for every other operator it inserts
nothing and returns null with the line "invalid binary operator". -/
theorem BinaryExprAST_codegen_operators (Op : Char) (LHS RHS : ExprAST) (s s1 s2 : Codegen)
    (L R : Value) (hL : LHS.codegen s = Outcome.ret (some L) s1)
    (hR : RHS.codegen s1 = Outcome.ret (some R) s2) :
    (Op = '+' → (ExprAST.Binary Op LHS RHS).codegen s =
      Outcome.ret (some (Value.FAdd L R)) (Insert (Inst.val (Value.FAdd L R)) s2)) ∧
    (Op = '-' → (ExprAST.Binary Op LHS RHS).codegen s =
      Outcome.ret (some (Value.FSub L R)) (Insert (Inst.val (Value.FSub L R)) s2)) ∧
    (Op = '*' → (ExprAST.Binary Op LHS RHS).codegen s =
      Outcome.ret (some (Value.FMul L R)) (Insert (Inst.val (Value.FMul L R)) s2)) ∧
    (Op = '<' → (ExprAST.Binary Op LHS RHS).codegen s =
      Outcome.ret (some (Value.UIToFP (Value.FCmpULT L R)))
        (Insert (Inst.val (Value.UIToFP (Value.FCmpULT L R)))
          (Insert (Inst.val (Value.FCmpULT L R)) s2))) ∧
    (Op ≠ '+' → Op ≠ '-' → Op ≠ '*' → Op ≠ '<' →
      (ExprAST.Binary Op LHS RHS).codegen s =
        Outcome.ret none { s2 with errs := s2.errs ++ ["invalid binary operator"] }) := by
  refine ⟨?_, ?_, ?_, ?_, ?_⟩
  · intro h; subst h; simp only [ExprAST.codegen, hL, hR, if_true]
  · intro h; subst h; simp [ExprAST.codegen, hL, hR]
  · intro h; subst h; simp [ExprAST.codegen, hL, hR]
  · intro h; subst h; simp [ExprAST.codegen, hL, hR]
  · intro h1 h2 h3 h4; simp only [ExprAST.codegen, hL, hR, h1, h2, h3, h4, if_false, LogErrorV]

/-- The body `a<b` of `def lt(a b) a<b` puts the comparison and then the widening
into the entry block and returns the widened value; `a/b` puts nothing there and
returns null with the diagnostic. -/
theorem BinaryExprAST_codegen_operators_examples :
    (ltDef.enter Codegen.init).2 = ltEntry ∧
    (ExprAST.Binary '<' (ExprAST.Variable "a") (ExprAST.Variable "b")).codegen ltEntry =
      Outcome.ret (some (Value.UIToFP (Value.FCmpULT (Value.Argument "lt" 0)
          (Value.Argument "lt" 1))))
        { ltEntry with mod := [{ Name := "lt", args := ["a", "b"], blocks :=
            [[Inst.val (Value.FCmpULT (Value.Argument "lt" 0) (Value.Argument "lt" 1)),
              Inst.val (Value.UIToFP (Value.FCmpULT (Value.Argument "lt" 0)
                (Value.Argument "lt" 1)))]] }] } ∧
    (ExprAST.Binary '/' (ExprAST.Variable "a") (ExprAST.Variable "b")).codegen ltEntry =
      Outcome.ret none { ltEntry with errs := ["invalid binary operator"] } :=
  ⟨rfl,
   (BinaryExprAST_codegen_operators '<' (ExprAST.Variable "a") (ExprAST.Variable "b")
      ltEntry ltEntry ltEntry (Value.Argument "lt" 0) (Value.Argument "lt" 1) rfl rfl).2.2.2.1
      rfl,
   (BinaryExprAST_codegen_operators '/' (ExprAST.Variable "a") (ExprAST.Variable "b")
      ltEntry ltEntry ltEntry (Value.Argument "lt" 0) (Value.Argument "lt" 1) rfl rfl).2.2.2.2
      (by decide) (by decide) (by decide) (by decide)⟩

/-- C12 (amended): the left operand is lowered first and the right operand after it,
in the state the left one leaves, also when the left one returned null; when either
of them returned null, `BinaryExprAST::codegen` returns null in exactly the state
after the right operand: no instruction for the operator, no further diagnostic. -/
theorem BinaryExprAST_codegen_operand_fails (Op : Char) (LHS RHS : ExprAST)
    (s s1 s2 : Codegen) (L R : Option Value)
    (hL : LHS.codegen s = Outcome.ret L s1) (hR : RHS.codegen s1 = Outcome.ret R s2)
    (hfail : L = none ∨ R = none) :
    (ExprAST.Binary Op LHS RHS).codegen s = Outcome.ret none s2 := by
  rcases hfail with h | h
  · subst h; simp only [ExprAST.codegen, hL, hR]
  · subst h
    cases L <;> simp only [ExprAST.codegen, hL, hR]

/-- C12 (counterexample): in `x + y` with neither name bound the left operand fails,
and still the right operand is lowered: the state after the binary node has the
diagnostic of `y` and the null entry of `y` in the symbol table, which the state
after the left operand alone does not have. -/
theorem BinaryExprAST_codegen_lowers_right_after_failed_left :
    (ExprAST.Variable "x").codegen Codegen.init =
      Outcome.ret none
        { mod := [], InsertPoint := none, namedVals := [("x", none)],
          errs := ["Unknown variable name"] } ∧
    (ExprAST.Binary '+' (ExprAST.Variable "x") (ExprAST.Variable "y")).codegen Codegen.init =
      Outcome.ret none
        { mod := [], InsertPoint := none, namedVals := [("x", none), ("y", none)],
          errs := ["Unknown variable name", "Unknown variable name"] } ∧
    ({ mod := [], InsertPoint := none, namedVals := [("x", none), ("y", none)],
       errs := ["Unknown variable name", "Unknown variable name"] } : Codegen) ≠
      { mod := [], InsertPoint := none, namedVals := [("x", none)],
        errs := ["Unknown variable name"] } :=
  ⟨rfl, rfl, by decide⟩

/-- The amended statement at `x + y` with neither name bound, and at `1 + y`. -/
theorem BinaryExprAST_codegen_operand_fails_examples :
    (ExprAST.Binary '+' (ExprAST.Variable "x") (ExprAST.Variable "y")).codegen Codegen.init =
      Outcome.ret none
        { mod := [], InsertPoint := none, namedVals := [("x", none), ("y", none)],
          errs := ["Unknown variable name", "Unknown variable name"] } ∧
    (ExprAST.Binary '+' (ExprAST.Number 1) (ExprAST.Variable "y")).codegen Codegen.init =
      Outcome.ret none
        { mod := [], InsertPoint := none, namedVals := [("y", none)],
          errs := ["Unknown variable name"] } :=
  ⟨BinaryExprAST_codegen_operand_fails '+' (ExprAST.Variable "x") (ExprAST.Variable "y")
      Codegen.init _ _ none none rfl rfl (Or.inl rfl),
   BinaryExprAST_codegen_operand_fails '+' (ExprAST.Number 1) (ExprAST.Variable "y")
      Codegen.init _ _ (some (Value.ConstantFP 1)) none rfl rfl (Or.inr rfl)⟩

/-! ## Arguments of a call -/

/-- C13 (the code at the failing input): with `foo(a b)` declared, the call
`foo(1, x)` has matching arity and its second argument `x` does not lower (alone it
gives "Unknown variable name"); `CallExprAST::codegen` returns null with the line
"Uknown function referenced" and no argument has been lowered: there is no
diagnostic of `x` and the symbol table has no entry for it. -/
theorem CallExprAST_codegen_arguments_not_lowered :
    (getFunction fooDeclared.mod "foo").map (fun F => F.args.length) = some 2 ∧
    (ExprAST.Variable "x").codegen fooDeclared =
      Outcome.ret none { fooDeclared with namedVals := [("x", none)],
                                          errs := ["Unknown variable name"] } ∧
    (ExprAST.Call "foo" [ExprAST.Number 1, ExprAST.Variable "x"]).codegen fooDeclared =
      Outcome.ret none { fooDeclared with namedVals := [],
                                          errs := ["Uknown function referenced"] } :=
  ⟨rfl, rfl, rfl⟩

/-! ## The precedence of a token -/

theorem mapIndex_find {κ ν : Type} [DecidableEq κ] (m : List (κ × ν)) (x k : κ) (d : ν) :
    mapFind (mapIndex m x d).2 k = mapFind m k ∨
      (k = x ∧ mapFind m k = none ∧ mapFind (mapIndex m x d).2 k = some d) := by
  unfold mapIndex
  cases hx : mapFind m x with
  | some v => exact Or.inl rfl
  | none =>
    simp only [mapFind_mapSet]
    by_cases hxk : x = k
    · subst hxk; right; simp [hx]
    · left; simp [hxk]

/-- The table after `GetTokPrecedence` is the table before, possibly after one
lookup `BinopPrecedence[c]`. -/
theorem GetTokPrecedence_table_cases (s : Parser) :
    (GetTokPrecedence s).2.BinopPrecedence = s.BinopPrecedence ∨
      ∃ c, (GetTokPrecedence s).2.BinopPrecedence = (mapIndex s.BinopPrecedence c 0).2 := by
  unfold GetTokPrecedence
  split
  · dsimp only
    split_ifs
    · exact Or.inr ⟨_, rfl⟩
    · exact Or.inr ⟨_, rfl⟩
    · exact Or.inl rfl
  · exact Or.inl rfl

/-- C16: `GetTokPrecedence` returns the precedence of the current token as the spec
words it (`tokenPrecedence`): the value of the table for an ASCII character listed
with a positive precedence, `-1` for the five named token kinds, for non-ASCII
characters, for unlisted characters and for characters listed with a precedence
`≤ 0`; asking again gives the same answer; the query leaves the token buffer and the
diagnostics as they are, and the table it leaves gives every token the precedence it
had before. -/
theorem GetTokPrecedence_spec (s : Parser) :
    (GetTokPrecedence s).1 = tokenPrecedence s.BinopPrecedence s.CurTok ∧
    ((∀ c, s.CurTok ≠ Token.char c) → (GetTokPrecedence s).1 = -1) ∧
    (∀ c, s.CurTok = Token.char c → 128 ≤ c.toNat → (GetTokPrecedence s).1 = -1) ∧
    (∀ c, s.CurTok = Token.char c → mapFind s.BinopPrecedence c = none →
      (GetTokPrecedence s).1 = -1) ∧
    (∀ c p, s.CurTok = Token.char c → mapFind s.BinopPrecedence c = some p → p ≤ 0 →
      (GetTokPrecedence s).1 = -1) ∧
    (∀ c p, s.CurTok = Token.char c → c.toNat < 128 →
      mapFind s.BinopPrecedence c = some p → 0 < p → (GetTokPrecedence s).1 = p) ∧
    GetTokPrecedence (GetTokPrecedence s).2 = ((GetTokPrecedence s).1, (GetTokPrecedence s).2) ∧
    (∀ t, tokenPrecedence (GetTokPrecedence s).2.BinopPrecedence t =
      tokenPrecedence s.BinopPrecedence t) ∧
    (GetTokPrecedence s).2.CurTok = s.CurTok ∧ (GetTokPrecedence s).2.input = s.input ∧
    (GetTokPrecedence s).2.errs = s.errs := by
  have hval : (GetTokPrecedence s).1 = tokenPrecedence s.BinopPrecedence s.CurTok := by
    obtain ⟨cur, inp, tbl, errs⟩ := s
    cases cur with
    | char c =>
      by_cases hc : c.toNat < 128
      · cases hf : mapFind tbl c with
        | none => simp [GetTokPrecedence, tokenPrecedence, hc, mapIndex, hf]
        | some v =>
          by_cases hv : v ≤ 0
          · simp [GetTokPrecedence, tokenPrecedence, hc, mapIndex, hf, hv, not_lt.mpr hv]
          · simp [GetTokPrecedence, tokenPrecedence, hc, mapIndex, hf, hv, not_le.mp hv]
      · simp [GetTokPrecedence, tokenPrecedence, hc]
    | _ => rfl
  have htbl : ∀ t, tokenPrecedence (GetTokPrecedence s).2.BinopPrecedence t =
      tokenPrecedence s.BinopPrecedence t := by
    intro t
    cases t with
    | char d =>
      rcases GetTokPrecedence_table_cases s with h | ⟨c, h⟩
      · rw [h]
      · rw [h]
        simp only [tokenPrecedence]
        rcases mapIndex_find s.BinopPrecedence c d 0 with h1 | ⟨_, h1, h2⟩
        · rw [h1]
        · rw [h1, h2]; simp
    | _ => rfl
  refine ⟨hval, ?_, ?_, ?_, ?_, ?_, GetTokPrecedence_again s, htbl,
    GetTokPrecedence_CurTok s, GetTokPrecedence_input s, ?_⟩
  · intro h
    rw [hval]
    cases hc : s.CurTok with
    | char c => exact absurd hc (h c)
    | _ => rfl
  · intro c hc h128
    rw [hval, hc]
    simp [tokenPrecedence, not_lt.mpr h128]
  · intro c hc hf
    rw [hval, hc]
    simp [tokenPrecedence, hf]
  · intro c p hc hf hp
    rw [hval, hc]
    simp [tokenPrecedence, hf, not_lt.mpr hp]
  · intro c p hc h128 hf hp
    rw [hval, hc]
    simp [tokenPrecedence, hf, hp, h128]
  · unfold GetTokPrecedence
    split
    · dsimp only
      split_ifs <;> rfl
    · rfl

/-! ## The symbol table during the lowering of an expression -/

@[simp] theorem Insert_namedVals (I : Inst) (s : Codegen) :
    (Insert I s).namedVals = s.namedVals := by
  unfold Insert
  split <;> rfl

@[simp] theorem Insert_errs (I : Inst) (s : Codegen) : (Insert I s).errs = s.errs := by
  unfold Insert
  split <;> rfl

theorem mapSet_absent {κ ν : Type} [DecidableEq κ] (m : List (κ × ν)) (x : κ) (v : ν)
    (h : mapFind m x = none) : mapSet m x v = m ++ [(x, v)] := by
  induction m with
  | nil => rfl
  | cons e m ih =>
    obtain ⟨a, b⟩ := e
    rw [mapFind] at h
    split_ifs at h with hax
    simp only [mapSet, hax, if_false, List.cons_append, ih h]

/-- Lowering an expression leaves every entry of the symbol table as it is; the one
thing it does to the table is to add null entries for names that had none. -/
theorem ExprAST.codegen_entries : ∀ (e : ExprAST) (s : Codegen) (v : Option Value)
    (s1 : Codegen), e.codegen s = Outcome.ret v s1 →
    ∀ x, mapFind s1.namedVals x = mapFind s.namedVals x ∨
      (mapFind s.namedVals x = none ∧ mapFind s1.namedVals x = some none)
  | ExprAST.Number _, s, v, s1, h, x => by
    simp only [ExprAST.codegen, Outcome.ret.injEq] at h
    rw [← h.2]; exact Or.inl rfl
  | ExprAST.Variable Name, s, v, s1, h, x => by
    have hx := mapIndex_find s.namedVals Name x none
    simp only [ExprAST.codegen] at h
    split at h <;> simp only [Outcome.ret.injEq] at h <;> rw [← h.2] <;>
      simp only [LogErrorV] <;> rcases hx with hx | ⟨_, h1, h2⟩ <;>
      first | exact Or.inl hx | exact Or.inr ⟨h1, h2⟩
  | ExprAST.Binary Op LHS RHS, s, v, s1, h, x => by
    simp only [ExprAST.codegen] at h
    cases hL : LHS.codegen s with
    | undefined => simp [hL] at h
    | ret L sL =>
      cases hR : RHS.codegen sL with
      | undefined => simp [hL, hR] at h
      | ret R sR =>
        have h1 := ExprAST.codegen_entries LHS s L sL hL x
        have h2 := ExprAST.codegen_entries RHS sL R sR hR x
        have h3 : mapFind s1.namedVals x = mapFind sR.namedVals x := by
          simp only [hL, hR] at h
          split at h
          · split_ifs at h <;> simp only [Outcome.ret.injEq] at h <;> rw [← h.2] <;>
              simp [LogErrorV]
          · simp only [Outcome.ret.injEq] at h; rw [← h.2]
        rw [h3]
        rcases h1 with h1 | ⟨h1a, h1b⟩ <;> rcases h2 with h2 | ⟨h2a, h2b⟩
        · exact Or.inl (h2.trans h1)
        · exact Or.inr ⟨h1 ▸ h2a, h2b⟩
        · exact Or.inr ⟨h1a, h2.trans h1b⟩
        · rw [h1b] at h2a; cases h2a
  | ExprAST.Call Callee Args, s, v, s1, h, x => by
    simp only [ExprAST.codegen] at h
    split at h
    · simp only [Outcome.ret.injEq] at h; rw [← h.2]; exact Or.inl rfl
    · cases h

/-- C20: when the lowering of an expression returns (with a value or with null),
every name bound to a value handle before is bound to the same handle afterwards, and
every name that did not resolve before (no entry, or a null one) does not resolve
afterwards; entry by entry, the table is as before except that names without an entry
may have got a null one. For a variable reference the table afterwards is the table
before, or the table before followed by a null entry for the name, which had none. -/
theorem ExprAST_codegen_keeps_resolution (e : ExprAST) (s s1 : Codegen) (v : Option Value)
    (h : e.codegen s = Outcome.ret v s1) :
    (∀ x V, resolve s.namedVals x = some V → resolve s1.namedVals x = some V) ∧
    (∀ x, resolve s.namedVals x = none → resolve s1.namedVals x = none) ∧
    (∀ x, mapFind s1.namedVals x = mapFind s.namedVals x ∨
      (mapFind s.namedVals x = none ∧ mapFind s1.namedVals x = some none)) ∧
    (∀ Name, e = ExprAST.Variable Name →
      s1.namedVals = s.namedVals ∨
        (mapFind s.namedVals Name = none ∧ s1.namedVals = s.namedVals ++ [(Name, none)])) := by
  have key := ExprAST.codegen_entries e s v s1 h
  have hres : ∀ x, resolve s1.namedVals x = resolve s.namedVals x := by
    intro x
    rcases key x with hx | ⟨h1, h2⟩
    · simp only [resolve, hx]
    · simp only [resolve, h1, h2]
  refine ⟨fun x V hx => (hres x).trans hx, fun x hx => (hres x).trans hx, key, ?_⟩
  intro Name he
  subst he
  simp only [ExprAST.codegen] at h
  cases hf : mapFind s.namedVals Name with
  | some w =>
    left
    simp only [mapIndex, hf] at h
    split at h
    all_goals
      simp only [Outcome.ret.injEq] at h
      rw [← h.2]
      try rfl
  | none =>
    right
    refine ⟨rfl, ?_⟩
    simp only [mapIndex, hf, Outcome.ret.injEq] at h
    rw [← h.2]
    exact mapSet_absent _ _ _ hf

/-- The lowering of `a + x` where `a` is bound and `x` is not: it returns null, `a`
is bound as before and `x`, which had no entry, has a null one and does not resolve. -/
theorem ExprAST_codegen_keeps_resolution_example :
    (ExprAST.Binary '+' (ExprAST.Variable "a") (ExprAST.Variable "x")).codegen ltEntry =
      Outcome.ret none
        { ltEntry with namedVals := ltEntry.namedVals ++ [("x", none)],
                       errs := ["Unknown variable name"] } ∧
    resolve (ltEntry.namedVals ++ [("x", none)]) "a" = some (Value.Argument "lt" 0) ∧
    resolve (ltEntry.namedVals ++ [("x", none)]) "x" = none :=
  have h := ExprAST_codegen_keeps_resolution
    (ExprAST.Binary '+' (ExprAST.Variable "a") (ExprAST.Variable "x")) ltEntry
    { ltEntry with namedVals := ltEntry.namedVals ++ [("x", none)],
                   errs := ["Unknown variable name"] } none rfl
  ⟨rfl, h.1 "a" (Value.Argument "lt" 0) rfl, h.2.1 "x" rfl⟩

/-! ## Prototypes -/

theorem ParsePrototypeArgs_idents (names : List String) :
    ∀ (acc : List String) (t : Token) (rest : List Token),
    (∀ n, t ≠ Token.tok_identifier n) →
    ParsePrototypeArgs acc (names.map Token.tok_identifier ++ t :: rest) =
      (acc ++ names, t, rest) := by
  induction names with
  | nil =>
    intro acc t rest ht
    cases t with
    | tok_identifier n => exact absurd rfl (ht n)
    | _ => simp [ParsePrototypeArgs]
  | cons a names ih =>
    intro acc t rest ht
    show ParsePrototypeArgs acc
      (Token.tok_identifier a :: (names.map Token.tok_identifier ++ t :: rest)) = _
    rw [ParsePrototypeArgs, ih _ t rest ht]
    simp

theorem ParsePrototypeArgs_close (l : List Token) :
    ∀ (acc A : List String) (rest : List Token),
    ParsePrototypeArgs acc l = (A, Token.char ')', rest) →
    ∃ names, A = acc ++ names ∧
      l = names.map Token.tok_identifier ++ Token.char ')' :: rest := by
  induction l with
  | nil =>
    intro acc A rest h
    simp [ParsePrototypeArgs] at h
  | cons t l ih =>
    intro acc A rest h
    cases t with
    | tok_identifier n =>
      simp only [ParsePrototypeArgs] at h
      obtain ⟨names, h1, h2⟩ := ih _ _ _ h
      exact ⟨n :: names, by simp [h1], by simp [h2]⟩
    | char c =>
      simp only [ParsePrototypeArgs, Prod.mk.injEq] at h
      exact ⟨[], by simp [h.1], by simp [h.2.1, h.2.2]⟩
    | _ => simp [ParsePrototypeArgs] at h

/-- C15: `ParsePrototype` succeeds exactly when the tokens from the current one on are
an identifier, `(`, identifiers without separators, `)`: on such tokens it returns
the prototype with the first identifier as name and the listed identifiers, in
order, as parameters (its arity is their number), and the `)` is consumed; and when
it returns a prototype the tokens have that shape, so on any other shape it returns
null. -/
theorem ParsePrototype_shape (s : Parser) :
    (∀ (FnName : String) (names : List String) (rest : List Token),
      s.CurTok = Token.tok_identifier FnName →
      s.input = Token.char '(' :: (names.map Token.tok_identifier ++ Token.char ')' :: rest) →
      ParsePrototype s =
        (some { Name := FnName, Args := names },
          getNextToken { s with CurTok := Token.char ')', input := rest })) ∧
    (∀ (P : PrototypeAST) (s1 : Parser), ParsePrototype s = (some P, s1) →
      ∃ rest, s.CurTok = Token.tok_identifier P.Name ∧
        s.input =
          Token.char '(' :: (P.Args.map Token.tok_identifier ++ Token.char ')' :: rest) ∧
        s1 = getNextToken { s with CurTok := Token.char ')', input := rest }) ∧
    ((¬ ∃ (FnName : String) (names : List String) (rest : List Token),
        s.CurTok = Token.tok_identifier FnName ∧
        s.input =
          Token.char '(' :: (names.map Token.tok_identifier ++ Token.char ')' :: rest)) →
      (ParsePrototype s).1 = none) := by
  have hfwd : ∀ (FnName : String) (names : List String) (rest : List Token),
      s.CurTok = Token.tok_identifier FnName →
      s.input = Token.char '(' :: (names.map Token.tok_identifier ++ Token.char ')' :: rest) →
      ParsePrototype s =
        (some { Name := FnName, Args := names },
          getNextToken { s with CurTok := Token.char ')', input := rest }) := by
    intro FnName names rest hcur hin
    obtain ⟨cur, inp, tbl, errs⟩ := s
    simp only at hcur hin
    subst hcur hin
    simp [ParsePrototype, getNextToken, gettok,
      ParsePrototypeArgs_idents names [] (Token.char ')') rest (by intro n h; cases h)]
  have hbwd : ∀ (P : PrototypeAST) (s1 : Parser), ParsePrototype s = (some P, s1) →
      ∃ rest, s.CurTok = Token.tok_identifier P.Name ∧
        s.input =
          Token.char '(' :: (P.Args.map Token.tok_identifier ++ Token.char ')' :: rest) ∧
        s1 = getNextToken { s with CurTok := Token.char ')', input := rest } := by
    intro P s1 h
    obtain ⟨cur, inp, tbl, errs⟩ := s
    cases cur with
    | tok_identifier FnName =>
      cases inp with
      | nil => simp [ParsePrototype, getNextToken, gettok] at h
      | cons t l =>
        by_cases ht : t = Token.char '('
        · subst ht
          by_cases hclose : (ParsePrototypeArgs [] l).2.1 = Token.char ')'
          · obtain ⟨names, _, h2⟩ := ParsePrototypeArgs_close l [] _ _
              (show ParsePrototypeArgs [] l = ((ParsePrototypeArgs [] l).1, Token.char ')',
                (ParsePrototypeArgs [] l).2.2) by rw [← hclose])
            have hf := hfwd FnName names (ParsePrototypeArgs [] l).2.2 rfl
              (by simp only [List.cons.injEq, true_and]; exact h2)
            rw [hf] at h
            simp only [Prod.mk.injEq, Option.some.injEq] at h
            refine ⟨(ParsePrototypeArgs [] l).2.2, ?_, ?_, h.2.symm⟩
            · rw [← h.1]
            · rw [← h.1]; simp only [List.cons.injEq, true_and]; exact h2
          · simp [ParsePrototype, getNextToken, gettok, hclose] at h
        · simp [ParsePrototype, getNextToken, gettok, ht] at h
    | _ => simp [ParsePrototype] at h
  refine ⟨hfwd, hbwd, ?_⟩
  intro hno
  cases hr : ParsePrototype s with
  | mk v s1 =>
    cases v with
    | none => rfl
    | some P =>
      obtain ⟨rest, h1, h2, _⟩ := hbwd P s1 hr
      exact absurd ⟨P.Name, P.Args, rest, h1, h2⟩ hno

/-- The examples of the spec: `foo(a b)` gives a prototype of arity 2 and `foo(a, b)`
is rejected, with the comma as the current token. -/
theorem ParsePrototype_shape_examples :
    ParsePrototype (Parser.start stdPrec [Token.tok_identifier "foo", Token.char '(',
        Token.tok_identifier "a", Token.tok_identifier "b", Token.char ')']) =
      (some { Name := "foo", Args := ["a", "b"] },
        { CurTok := Token.tok_eof, input := [], BinopPrecedence := stdPrec, errs := [] }) ∧
    ParsePrototype (Parser.start stdPrec [Token.tok_identifier "foo", Token.char '(',
        Token.tok_identifier "a", Token.char ',', Token.tok_identifier "b", Token.char ')']) =
      (none,
        { CurTok := Token.char ',', input := [Token.tok_identifier "b", Token.char ')'],
          BinopPrecedence := stdPrec, errs := ["Expected ')' in prototype"] }) :=
  ⟨(ParsePrototype_shape (Parser.start stdPrec [Token.tok_identifier "foo", Token.char '(',
        Token.tok_identifier "a", Token.tok_identifier "b", Token.char ')'])).1
      "foo" ["a", "b"] [] rfl rfl,
   rfl⟩

/-! ## Chains of operators of one precedence -/

/-- The loop of `ParseBinOpRHS` does the same in the state a precedence query left
as in the state before the query. -/
theorem ParseBinOpRHS_after_query (n : Nat) (ExprPrec : Int) (LHS : ExprAST) (s : Parser) :
    ParseBinOpRHS n ExprPrec LHS (GetTokPrecedence s).2 = ParseBinOpRHS n ExprPrec LHS s := by
  cases n with
  | zero => rw [ParseBinOpRHS, ParseBinOpRHS]
  | succ n =>
    rw [ParseBinOpRHS, ParseBinOpRHS]
    simp only [GetTokPrecedence_again]

/-- The loop of `ParseBinOpRHS` on a chain of operators of one positive precedence:
every operand is merged into the left-hand side as soon as it is parsed. -/
theorem ParseBinOpRHS_chain (n : Nat) (tbl : List (Char × Int)) (p : Int) (hpos : 0 < p)
    (items : List (Char × ExprAST × Parser)) :
    ∀ (LHS : ExprAST) (s : Parser) (fuel : Nat), TableLe tbl s.BinopPrecedence →
      IsChain n tbl p s items → (GetTokPrecedence (chainEnd s items)).1 = -1 →
      n + items.length + 1 ≤ fuel →
      ParseBinOpRHS fuel 0 LHS s =
        some (some (leftNested LHS items), (GetTokPrecedence (chainEnd s items)).2) := by
  induction items with
  | nil =>
    intro LHS s fuel _ _ hend hfuel
    obtain ⟨f, rfl⟩ : ∃ f, fuel = f + 1 := ⟨fuel - 1, by simp at hfuel; omega⟩
    simp only [chainEnd, leftNested] at hend ⊢
    exact ParseBinOpRHS_stop f 0 LHS s (by rw [hend]; exact (by decide : (-1 : Int) < 0))
  | cons item rest ih =>
    obtain ⟨o, e, s1⟩ := item
    intro LHS s fuel htbl hchain hend hfuel
    obtain ⟨hcur, hascii, hfind, hprim, hrest⟩ := hchain
    simp only [List.length_cons] at hfuel
    obtain ⟨f, rfl⟩ : ∃ f, fuel = f + 1 := ⟨fuel - 1, by omega⟩
    have g : GetTokPrecedence s = (p, s) :=
      GetTokPrecedence_listed hcur hascii (htbl _ _ hfind) hpos
    have hprim1 : ParsePrimary f (getNextToken s) = some (some e, s1) :=
      ParsePrimary_mono (by omega) hprim
    have htbl1 : TableLe tbl s1.BinopPrecedence := by
      have h1 := (parse_table n).2.2.2.1 _ _ _ hprim
      simp only [getNextToken_BinopPrecedence] at h1
      exact htbl.trans h1
    have hnext : ¬ p < (GetTokPrecedence s1).1 := by
      cases rest with
      | nil =>
        simp only [chainEnd] at hend
        rw [hend]; omega
      | cons item2 rest2 =>
        obtain ⟨o2, e2, s2⟩ := item2
        obtain ⟨hcur2, hascii2, hfind2, _, _⟩ := hrest
        rw [GetTokPrecedence_listed hcur2 hascii2 (htbl1 _ _ hfind2) hpos]
        exact lt_irrefl p
    rw [ParseBinOpRHS_merge f 0 p LHS e s s1 o g (by omega) hcur hprim1 hnext,
      ParseBinOpRHS_after_query]
    exact ih _ s1 f htbl1 hrest hend (by omega)

/-- C18: for a chain `p0 o1 p1 ... ok pk` whose operators are ASCII characters that
the table lists with one positive precedence `p`, with a non-operator token after
`pk`, `ParseExpression` returns the left-nested tree
`Binary ok (... (Binary o1 p0 p1) ...) pk` and stops right after `pk`: the state is
the one after the last operand, but for the precedence query on the token that
follows. This holds for chains of any length and any fuel from `n + k + 2` on. -/
theorem ParseExpression_left_assoc (n : Nat) (s s0 : Parser) (p0 : ExprAST)
    (items : List (Char × ExprAST × Parser)) (p : Int) (hpos : 0 < p)
    (h0 : ParsePrimary n s = some (some p0, s0))
    (hchain : IsChain n s.BinopPrecedence p s0 items)
    (hend : (GetTokPrecedence (chainEnd s0 items)).1 = -1) :
    ∀ m, n + items.length + 2 ≤ m →
      ParseExpression m s =
        some (some (leftNested p0 items), (GetTokPrecedence (chainEnd s0 items)).2) := by
  intro m hm
  obtain ⟨k, rfl⟩ : ∃ k, m = k + 1 := ⟨m - 1, by omega⟩
  have h1 : ParsePrimary k s = some (some p0, s0) := ParsePrimary_mono (by omega) h0
  rw [ParseExpression]
  simp only [h1]
  exact ParseBinOpRHS_chain n s.BinopPrecedence p hpos items p0 s0 k
    ((parse_table n).2.2.2.1 _ _ _ h0) hchain hend (by omega)

/-- The chain `1 - 2 + 3 - 4` under the table of the language, where `+` and `-`
share the precedence 20: the tree is `((1 - 2) + 3) - 4`. -/
theorem ParseExpression_left_assoc_example :
    ParseExpression 6 (Parser.start stdPrec [Token.tok_number 1, Token.char '-',
        Token.tok_number 2, Token.char '+', Token.tok_number 3, Token.char '-',
        Token.tok_number 4]) =
      some (some (ExprAST.Binary '-' (ExprAST.Binary '+' (ExprAST.Binary '-'
          (ExprAST.Number 1) (ExprAST.Number 2)) (ExprAST.Number 3)) (ExprAST.Number 4)),
        { CurTok := Token.tok_eof, input := [], BinopPrecedence := stdPrec, errs := [] }) :=
  ParseExpression_left_assoc 1
    (Parser.start stdPrec [Token.tok_number 1, Token.char '-', Token.tok_number 2,
      Token.char '+', Token.tok_number 3, Token.char '-', Token.tok_number 4])
    { CurTok := Token.char '-', input := [Token.tok_number 2, Token.char '+',
        Token.tok_number 3, Token.char '-', Token.tok_number 4],
      BinopPrecedence := stdPrec, errs := [] }
    (ExprAST.Number 1)
    [('-', ExprAST.Number 2,
        { CurTok := Token.char '+', input := [Token.tok_number 3, Token.char '-',
            Token.tok_number 4], BinopPrecedence := stdPrec, errs := [] }),
     ('+', ExprAST.Number 3,
        { CurTok := Token.char '-', input := [Token.tok_number 4],
          BinopPrecedence := stdPrec, errs := [] }),
     ('-', ExprAST.Number 4,
        { CurTok := Token.tok_eof, input := [], BinopPrecedence := stdPrec, errs := [] })]
    20 (by decide) rfl
    ⟨rfl, by decide, rfl, rfl, rfl, by decide, rfl, rfl, rfl, by decide, rfl, rfl, trivial⟩
    rfl 6 (by decide)

/-! ## The diagnostic of a failed parse -/

@[simp] theorem getNextToken_errs (s : Parser) : (getNextToken s).errs = s.errs := by
  unfold getNextToken gettok
  cases s.input <;> rfl

@[simp] theorem GetTokPrecedence_errs (s : Parser) : (GetTokPrecedence s).2.errs = s.errs := by
  unfold GetTokPrecedence
  split
  · dsimp only
    split_ifs <;> rfl
  · rfl

theorem ParseOutcome_fail {α : Type} {E : List String} {u : Parser} (msg : String)
    (he : u.errs = E) (hr : Rejects msg u.CurTok) :
    ParseOutcome E (none : Option α) (LogError msg u) :=
  ⟨msg, by simp [LogError, he], hr⟩

theorem ParseOutcome_none {α β : Type} {E : List String} {u : Parser}
    (h : ParseOutcome E (none : Option α) u) : ParseOutcome E (none : Option β) u := h

/-- After a success no diagnostic has been written; after a failure one has, and the
current token is the token the failing test rejected: all six functions at once. -/
theorem parse_outcome (n : Nat) :
    (∀ s v u, ParseParenExpr n s = some (v, u) → ParseOutcome s.errs v u) ∧
    (∀ A s v u, ParseArgs n A s = some (v, u) → ParseOutcome s.errs v u) ∧
    (∀ I s v u, ParseIdentifierExpr n I s = some (v, u) → ParseOutcome s.errs v u) ∧
    (∀ s v u, ParsePrimary n s = some (v, u) → ParseOutcome s.errs v u) ∧
    (∀ p L s v u, ParseBinOpRHS n p L s = some (v, u) → ParseOutcome s.errs v u) ∧
    (∀ s v u, ParseExpression n s = some (v, u) → ParseOutcome s.errs v u) := by
  induction n with
  | zero =>
    refine ⟨?_, ?_, ?_, ?_, ?_, ?_⟩ <;> intros <;> simp_all [ParseParenExpr, ParseArgs,
      ParseIdentifierExpr, ParsePrimary, ParseBinOpRHS, ParseExpression]
  | succ n ih =>
    obtain ⟨ihP, ihA, ihI, ihPr, ihB, ihE⟩ := ih
    refine ⟨?_, ?_, ?_, ?_, ?_, ?_⟩
    · intro s v u h
      rw [ParseParenExpr] at h
      cases hq : ParseExpression n (getNextToken s) with
      | none => simp [hq] at h
      | some q =>
        obtain ⟨w, s2⟩ := q
        have h2 := ihE _ _ _ hq
        simp only [getNextToken_errs] at h2
        simp only [hq] at h
        cases w with
        | none =>
          simp only [Option.some.injEq, Prod.mk.injEq] at h
          obtain ⟨rfl, rfl⟩ := h
          exact h2
        | some V =>
          simp only at h
          split_ifs at h with hc
          · simp only [Option.some.injEq, Prod.mk.injEq] at h
            obtain ⟨rfl, rfl⟩ := h
            exact ParseOutcome_fail _ h2 (Or.inr (Or.inl ⟨rfl, hc⟩))
          · simp only [Option.some.injEq, Prod.mk.injEq] at h
            obtain ⟨rfl, rfl⟩ := h
            simpa [ParseOutcome] using h2
    · intro A s v u h
      rw [ParseArgs] at h
      cases hq : ParseExpression n s with
      | none => simp [hq] at h
      | some q =>
        obtain ⟨w, s1⟩ := q
        have h2 := ihE _ _ _ hq
        simp only [hq] at h
        cases w with
        | none =>
          simp only [Option.some.injEq, Prod.mk.injEq] at h
          obtain ⟨rfl, rfl⟩ := h
          exact ParseOutcome_none h2
        | some Arg =>
          simp only at h
          have h2e : s1.errs = s.errs := h2
          split_ifs at h with hc1 hc2
          · simp only [Option.some.injEq, Prod.mk.injEq] at h
            obtain ⟨rfl, rfl⟩ := h
            exact h2e
          · simp only [Option.some.injEq, Prod.mk.injEq] at h
            obtain ⟨rfl, rfl⟩ := h
            exact ParseOutcome_fail _ h2e (Or.inr (Or.inr (Or.inl ⟨rfl, hc1, hc2⟩)))
          · have h3 := ihA _ _ _ _ h
            simp only [getNextToken_errs, h2e] at h3
            exact h3
    · intro I s v u h
      rw [ParseIdentifierExpr] at h
      simp only at h
      split_ifs at h
      · simp only [Option.some.injEq, Prod.mk.injEq] at h
        obtain ⟨rfl, rfl⟩ := h
        simp [ParseOutcome]
      · cases hq : ParseArgs n [] (getNextToken (getNextToken s)) with
        | none => simp [hq] at h
        | some q =>
          obtain ⟨w, s3⟩ := q
          have h2 := ihA _ _ _ _ hq
          simp only [getNextToken_errs] at h2
          simp only [hq] at h
          cases w with
          | none =>
            simp only [Option.some.injEq, Prod.mk.injEq] at h
            obtain ⟨rfl, rfl⟩ := h
            exact ParseOutcome_none h2
          | some Args =>
            simp only [Option.some.injEq, Prod.mk.injEq] at h
            obtain ⟨rfl, rfl⟩ := h
            have h2e : s3.errs = s.errs := h2
            simpa [ParseOutcome] using h2e
      · simp only [Option.some.injEq, Prod.mk.injEq] at h
        obtain ⟨rfl, rfl⟩ := h
        simp [ParseOutcome]
    · intro s v u h
      rw [ParsePrimary] at h
      cases hc : s.CurTok with
      | tok_identifier IdName => rw [hc] at h; exact ihI _ _ _ _ h
      | tok_number NumVal =>
        rw [hc] at h
        simp only [ParseNumberExpr, Option.some.injEq, Prod.mk.injEq] at h
        obtain ⟨rfl, rfl⟩ := h
        simp [ParseOutcome]
      | char c =>
        rw [hc] at h
        simp only at h
        split_ifs at h with hp
        · exact ihP _ _ _ h
        · simp only [Option.some.injEq, Prod.mk.injEq] at h
          obtain ⟨rfl, rfl⟩ := h
          refine ParseOutcome_fail _ rfl (Or.inl ⟨rfl, ?_, ?_, ?_⟩)
          · intro m; rw [hc]; exact fun e => Token.noConfusion e
          · intro m; rw [hc]; exact fun e => Token.noConfusion e
          · rw [hc]; intro e; exact hp (Token.char.inj e)
      | tok_eof =>
        rw [hc] at h
        simp only [Option.some.injEq, Prod.mk.injEq] at h
        obtain ⟨rfl, rfl⟩ := h
        refine ParseOutcome_fail _ rfl (Or.inl ⟨rfl, ?_, ?_, ?_⟩) <;>
          simp [hc]
      | tok_def =>
        rw [hc] at h
        simp only [Option.some.injEq, Prod.mk.injEq] at h
        obtain ⟨rfl, rfl⟩ := h
        refine ParseOutcome_fail _ rfl (Or.inl ⟨rfl, ?_, ?_, ?_⟩) <;>
          simp [hc]
      | tok_extern =>
        rw [hc] at h
        simp only [Option.some.injEq, Prod.mk.injEq] at h
        obtain ⟨rfl, rfl⟩ := h
        refine ParseOutcome_fail _ rfl (Or.inl ⟨rfl, ?_, ?_, ?_⟩) <;>
          simp [hc]
    · intro p L s v u h
      rw [ParseBinOpRHS] at h
      simp only at h
      split_ifs at h
      · simp only [Option.some.injEq, Prod.mk.injEq] at h
        obtain ⟨rfl, rfl⟩ := h
        simp [ParseOutcome]
      · cases hq : ParsePrimary n (getNextToken (GetTokPrecedence s).2) with
        | none => simp [hq] at h
        | some q =>
          obtain ⟨w, s2⟩ := q
          have h2 := ihPr _ _ _ hq
          simp only [getNextToken_errs, GetTokPrecedence_errs] at h2
          simp only [hq] at h
          cases w with
          | none =>
            simp only [Option.some.injEq, Prod.mk.injEq] at h
            obtain ⟨rfl, rfl⟩ := h
            exact h2
          | some RHS =>
            simp only at h
            have h2e : s2.errs = s.errs := h2
            split_ifs at h
            · cases hq2 : ParseBinOpRHS n ((GetTokPrecedence s).1 + 1) RHS
                  (GetTokPrecedence s2).2 with
              | none => simp [hq2] at h
              | some q2 =>
                obtain ⟨w2, s3⟩ := q2
                have h4 := ihB _ _ _ _ _ hq2
                simp only [GetTokPrecedence_errs, h2e] at h4
                simp only [hq2] at h
                cases w2 with
                | none =>
                  simp only [Option.some.injEq, Prod.mk.injEq] at h
                  obtain ⟨rfl, rfl⟩ := h
                  exact h4
                | some RHS1 =>
                  have h4e : s3.errs = s.errs := h4
                  have h5 := ihB _ _ _ _ _ h
                  rw [h4e] at h5
                  exact h5
            · have h5 := ihB _ _ _ _ _ h
              simp only [GetTokPrecedence_errs, h2e] at h5
              exact h5
    · intro s v u h
      rw [ParseExpression] at h
      cases hq : ParsePrimary n s with
      | none => simp [hq] at h
      | some q =>
        obtain ⟨w, s1⟩ := q
        have h2 := ihPr _ _ _ hq
        simp only [hq] at h
        cases w with
        | none =>
          simp only [Option.some.injEq, Prod.mk.injEq] at h
          obtain ⟨rfl, rfl⟩ := h
          exact h2
        | some LHS =>
          have h2e : s1.errs = s.errs := h2
          have h5 := ihB _ _ _ _ _ h
          rw [h2e] at h5
          exact h5

theorem ParsePrototypeArgs_stops (l : List Token) :
    ∀ (acc : List String) (n : String),
      (ParsePrototypeArgs acc l).2.1 ≠ Token.tok_identifier n := by
  induction l with
  | nil => intro acc n h; simp [ParsePrototypeArgs] at h
  | cons t l ih =>
    intro acc n
    cases t with
    | tok_identifier m => simp only [ParsePrototypeArgs]; exact ih _ n
    | _ => simp [ParsePrototypeArgs]

theorem ParsePrototype_outcome (s : Parser) (v : Option PrototypeAST) (u : Parser)
    (h : ParsePrototype s = (v, u)) : ParseOutcome s.errs v u := by
  unfold ParsePrototype at h
  cases hc : s.CurTok with
  | tok_identifier FnName =>
    rw [hc] at h
    simp only at h
    split_ifs at h with h1 h2
    · simp only [Prod.mk.injEq] at h
      obtain ⟨rfl, rfl⟩ := h
      exact ParseOutcome_fail _ (by simp) (Or.inr (Or.inr (Or.inr (Or.inr (Or.inl ⟨rfl, h1⟩)))))
    · simp only [Prod.mk.injEq] at h
      obtain ⟨rfl, rfl⟩ := h
      exact ParseOutcome_fail _ (by simp)
        (Or.inr (Or.inr (Or.inr (Or.inr (Or.inr ⟨rfl, h2, ParsePrototypeArgs_stops _ _⟩)))))
    · simp only [Prod.mk.injEq] at h
      obtain ⟨rfl, rfl⟩ := h
      simp [ParseOutcome]
  | tok_eof =>
    rw [hc] at h
    simp only [Prod.mk.injEq] at h
    obtain ⟨rfl, rfl⟩ := h
    exact ParseOutcome_fail _ rfl (Or.inr (Or.inr (Or.inr (Or.inl ⟨rfl, by simp [hc]⟩))))
  | tok_def =>
    rw [hc] at h
    simp only [Prod.mk.injEq] at h
    obtain ⟨rfl, rfl⟩ := h
    exact ParseOutcome_fail _ rfl (Or.inr (Or.inr (Or.inr (Or.inl ⟨rfl, by simp [hc]⟩))))
  | tok_extern =>
    rw [hc] at h
    simp only [Prod.mk.injEq] at h
    obtain ⟨rfl, rfl⟩ := h
    exact ParseOutcome_fail _ rfl (Or.inr (Or.inr (Or.inr (Or.inl ⟨rfl, by simp [hc]⟩))))
  | tok_number v =>
    rw [hc] at h
    simp only [Prod.mk.injEq] at h
    obtain ⟨rfl, rfl⟩ := h
    exact ParseOutcome_fail _ rfl (Or.inr (Or.inr (Or.inr (Or.inl ⟨rfl, by simp [hc]⟩))))
  | char c =>
    rw [hc] at h
    simp only [Prod.mk.injEq] at h
    obtain ⟨rfl, rfl⟩ := h
    exact ParseOutcome_fail _ rfl (Or.inr (Or.inr (Or.inr (Or.inl ⟨rfl, by simp [hc]⟩))))

/-! ## The operators of parsed expressions -/

theorem binopsList_append (A B : List ExprAST) :
    binopsList (A ++ B) = binopsList A ++ binopsList B := by
  induction A with
  | nil => simp [binopsList]
  | cons a A ih => simp [binopsList, ih]

theorem TableBack_refl (t : List (Char × Int)) : TableBack t t := fun _ _ h _ => h

theorem TableBack_trans {t u w : List (Char × Int)} (h1 : TableBack t u) (h2 : TableBack u w) :
    TableBack t w := fun k p h hp => h1 k p (h2 k p h hp) hp

theorem GetTokPrecedence_back (s : Parser) :
    TableBack s.BinopPrecedence (GetTokPrecedence s).2.BinopPrecedence := by
  intro k p h hp
  rcases GetTokPrecedence_table_cases s with e | ⟨c, e⟩
  · rw [e] at h; exact h
  · rw [e] at h
    rcases mapIndex_find s.BinopPrecedence c k 0 with h1 | ⟨_, _, h2⟩
    · rw [h1] at h; exact h
    · rw [h2] at h
      simp only [Option.some.injEq] at h
      omega

/-- A relation between tables that is reflexive, transitive and holds between the
table before and after a precedence query holds between the table before and after
every parsing function. -/
theorem parse_rel (R : List (Char × Int) → List (Char × Int) → Prop) (hrefl : ∀ t, R t t)
    (htrans : ∀ {t u w}, R t u → R u w → R t w)
    (hG : ∀ s : Parser, R s.BinopPrecedence (GetTokPrecedence s).2.BinopPrecedence) (n : Nat) :
    (∀ s v u, ParseParenExpr n s = some (v, u) → R s.BinopPrecedence u.BinopPrecedence) ∧
    (∀ A s v u, ParseArgs n A s = some (v, u) → R s.BinopPrecedence u.BinopPrecedence) ∧
    (∀ I s v u, ParseIdentifierExpr n I s = some (v, u) →
      R s.BinopPrecedence u.BinopPrecedence) ∧
    (∀ s v u, ParsePrimary n s = some (v, u) → R s.BinopPrecedence u.BinopPrecedence) ∧
    (∀ p L s v u, ParseBinOpRHS n p L s = some (v, u) →
      R s.BinopPrecedence u.BinopPrecedence) ∧
    (∀ s v u, ParseExpression n s = some (v, u) →
      R s.BinopPrecedence u.BinopPrecedence) := by
  induction n with
  | zero =>
    refine ⟨?_, ?_, ?_, ?_, ?_, ?_⟩ <;> intros <;> simp_all [ParseParenExpr, ParseArgs,
      ParseIdentifierExpr, ParsePrimary, ParseBinOpRHS, ParseExpression]
  | succ n ih =>
    obtain ⟨ihP, ihA, ihI, ihPr, ihB, ihE⟩ := ih
    refine ⟨?_, ?_, ?_, ?_, ?_, ?_⟩
    · intro s v u h
      rw [ParseParenExpr] at h
      cases hq : ParseExpression n (getNextToken s) with
      | none => simp [hq] at h
      | some q =>
        obtain ⟨w, s2⟩ := q
        have h2 := ihE _ _ _ hq
        simp only [getNextToken_BinopPrecedence] at h2
        simp only [hq] at h
        cases w with
        | none => simp only [Option.some.injEq, Prod.mk.injEq] at h; rw [← h.2]; exact h2
        | some V =>
          simp only at h
          split_ifs at h <;> simp only [Option.some.injEq, Prod.mk.injEq] at h <;>
            rw [← h.2] <;> simpa using h2
    · intro A s v u h
      rw [ParseArgs] at h
      cases hq : ParseExpression n s with
      | none => simp [hq] at h
      | some q =>
        obtain ⟨w, s1⟩ := q
        have h2 := ihE _ _ _ hq
        simp only [hq] at h
        cases w with
        | none => simp only [Option.some.injEq, Prod.mk.injEq] at h; rw [← h.2]; exact h2
        | some Arg =>
          simp only at h
          split_ifs at h
          · simp only [Option.some.injEq, Prod.mk.injEq] at h; rw [← h.2]; exact h2
          · simp only [Option.some.injEq, Prod.mk.injEq] at h; rw [← h.2]; simpa using h2
          · have h3 := ihA _ _ _ _ h
            simp only [getNextToken_BinopPrecedence] at h3
            exact htrans h2 h3
    · intro I s v u h
      rw [ParseIdentifierExpr] at h
      simp only at h
      split_ifs at h
      · simp only [Option.some.injEq, Prod.mk.injEq] at h; rw [← h.2]; simpa using hrefl _
      · cases hq : ParseArgs n [] (getNextToken (getNextToken s)) with
        | none => simp [hq] at h
        | some q =>
          obtain ⟨w, s3⟩ := q
          have h2 := ihA _ _ _ _ hq
          simp only [getNextToken_BinopPrecedence] at h2
          simp only [hq] at h
          cases w <;> simp only [Option.some.injEq, Prod.mk.injEq] at h <;> rw [← h.2] <;>
            simpa using h2
      · simp only [Option.some.injEq, Prod.mk.injEq] at h; rw [← h.2]; simpa using hrefl _
    · intro s v u h
      rw [ParsePrimary] at h
      generalize s.CurTok = t at h
      cases t with
      | tok_identifier IdName => exact ihI _ _ _ _ h
      | tok_number NumVal =>
        simp only [ParseNumberExpr, Option.some.injEq, Prod.mk.injEq] at h
        rw [← h.2]; simpa using hrefl _
      | char c =>
        simp only at h
        split_ifs at h
        · exact ihP _ _ _ h
        · simp only [Option.some.injEq, Prod.mk.injEq] at h; rw [← h.2]; exact hrefl _
      | _ => simp only [Option.some.injEq, Prod.mk.injEq] at h; rw [← h.2]; exact hrefl _
    · intro p L s v u h
      rw [ParseBinOpRHS] at h
      simp only at h
      have h0 := hG s
      split_ifs at h
      · simp only [Option.some.injEq, Prod.mk.injEq] at h; rw [← h.2]; exact h0
      · cases hq : ParsePrimary n (getNextToken (GetTokPrecedence s).2) with
        | none => simp [hq] at h
        | some q =>
          obtain ⟨w, s2⟩ := q
          have h2 := ihPr _ _ _ hq
          simp only [getNextToken_BinopPrecedence] at h2
          simp only [hq] at h
          cases w with
          | none =>
            simp only [Option.some.injEq, Prod.mk.injEq] at h; rw [← h.2]; exact htrans h0 h2
          | some RHS =>
            simp only at h
            have h3 := hG s2
            split_ifs at h
            · cases hq2 : ParseBinOpRHS n ((GetTokPrecedence s).1 + 1) RHS
                  (GetTokPrecedence s2).2 with
              | none => simp [hq2] at h
              | some q2 =>
                obtain ⟨w2, s3⟩ := q2
                have h4 := ihB _ _ _ _ _ hq2
                simp only [hq2] at h
                cases w2 with
                | none =>
                  simp only [Option.some.injEq, Prod.mk.injEq] at h
                  rw [← h.2]; exact htrans (htrans (htrans h0 h2) h3) h4
                | some RHS1 =>
                  exact htrans (htrans (htrans (htrans h0 h2) h3) h4) (ihB _ _ _ _ _ h)
            · exact htrans (htrans (htrans h0 h2) h3) (ihB _ _ _ _ _ h)
    · intro s v u h
      rw [ParseExpression] at h
      cases hq : ParsePrimary n s with
      | none => simp [hq] at h
      | some q =>
        obtain ⟨w, s1⟩ := q
        have h2 := ihPr _ _ _ hq
        simp only [hq] at h
        cases w with
        | none => simp only [Option.some.injEq, Prod.mk.injEq] at h; rw [← h.2]; exact h2
        | some LHS => exact htrans h2 (ihB _ _ _ _ _ h)

/-- A token with a precedence that is not negative is a legal operator of the table. -/
theorem GetTokPrecedence_nonneg (s : Parser) (h : 0 ≤ (GetTokPrecedence s).1) :
    ∃ c, s.CurTok = Token.char c ∧ Legal s.BinopPrecedence c := by
  obtain ⟨cur, inp, tbl, errs⟩ := s
  cases cur with
  | char c =>
    by_cases hc : c.toNat < 128
    · cases hf : mapFind tbl c with
      | none => simp [GetTokPrecedence, hc, mapIndex, hf] at h
      | some v =>
        by_cases hv : v ≤ 0
        · simp [GetTokPrecedence, hc, mapIndex, hf, hv] at h
        · exact ⟨c, rfl, hc, v, hf, not_le.mp hv⟩
    · simp [GetTokPrecedence, hc] at h
  | _ => simp [GetTokPrecedence] at h

theorem parse_back (n : Nat) :
    (∀ s v u, ParseParenExpr n s = some (v, u) →
      TableBack s.BinopPrecedence u.BinopPrecedence) ∧
    (∀ A s v u, ParseArgs n A s = some (v, u) →
      TableBack s.BinopPrecedence u.BinopPrecedence) ∧
    (∀ I s v u, ParseIdentifierExpr n I s = some (v, u) →
      TableBack s.BinopPrecedence u.BinopPrecedence) ∧
    (∀ s v u, ParsePrimary n s = some (v, u) →
      TableBack s.BinopPrecedence u.BinopPrecedence) ∧
    (∀ p L s v u, ParseBinOpRHS n p L s = some (v, u) →
      TableBack s.BinopPrecedence u.BinopPrecedence) ∧
    (∀ s v u, ParseExpression n s = some (v, u) →
      TableBack s.BinopPrecedence u.BinopPrecedence) :=
  parse_rel TableBack TableBack_refl (fun h1 h2 => TableBack_trans h1 h2)
    GetTokPrecedence_back n

theorem gate_later {Q : Char → Prop} {t u : List (Char × Int)} (hb : TableBack t u)
    (hg : ∀ c, Legal t c → Q c) : ∀ c, Legal u c → Q c := by
  intro c hc
  obtain ⟨hascii, p, hf, hp⟩ := hc
  exact hg c ⟨hascii, p, hb _ _ hf hp, hp⟩

/-- Every operator of a binary node that the parser builds is a legal operator of the
table in the state the parsing function was called in (stated for a property `Q`
that all legal operators have), all six functions at once; `ParseBinOpRHS` is called
with an `ExprPrec` that is not negative. -/
theorem parse_binops (Q : Char → Prop) (n : Nat) :
    (∀ s v u, ParseParenExpr n s = some (some v, u) →
      (∀ c, Legal s.BinopPrecedence c → Q c) → ∀ c ∈ v.binops, Q c) ∧
    (∀ A s v u, ParseArgs n A s = some (some v, u) →
      (∀ c, Legal s.BinopPrecedence c → Q c) → (∀ c ∈ binopsList A, Q c) →
      ∀ c ∈ binopsList v, Q c) ∧
    (∀ I s v u, ParseIdentifierExpr n I s = some (some v, u) →
      (∀ c, Legal s.BinopPrecedence c → Q c) → ∀ c ∈ v.binops, Q c) ∧
    (∀ s v u, ParsePrimary n s = some (some v, u) →
      (∀ c, Legal s.BinopPrecedence c → Q c) → ∀ c ∈ v.binops, Q c) ∧
    (∀ p L s v u, ParseBinOpRHS n p L s = some (some v, u) → 0 ≤ p →
      (∀ c, Legal s.BinopPrecedence c → Q c) → (∀ c ∈ L.binops, Q c) →
      ∀ c ∈ v.binops, Q c) ∧
    (∀ s v u, ParseExpression n s = some (some v, u) →
      (∀ c, Legal s.BinopPrecedence c → Q c) → ∀ c ∈ v.binops, Q c) := by
  induction n with
  | zero =>
    refine ⟨?_, ?_, ?_, ?_, ?_, ?_⟩ <;> intros <;> simp_all [ParseParenExpr, ParseArgs,
      ParseIdentifierExpr, ParsePrimary, ParseBinOpRHS, ParseExpression]
  | succ n ih =>
    obtain ⟨ihP, ihA, ihI, ihPr, ihB, ihE⟩ := ih
    obtain ⟨_, _, _, pbPr, pbB, pbE⟩ := parse_back n
    refine ⟨?_, ?_, ?_, ?_, ?_, ?_⟩
    · intro s v u h hg
      rw [ParseParenExpr] at h
      cases hq : ParseExpression n (getNextToken s) with
      | none => simp [hq] at h
      | some q =>
        obtain ⟨w, s2⟩ := q
        simp only [hq] at h
        cases w with
        | none => simp at h
        | some V =>
          simp only at h
          split_ifs at h
          · simp at h
          · simp only [Option.some.injEq, Prod.mk.injEq] at h
            obtain ⟨rfl, rfl⟩ := h
            exact ihE _ _ _ hq (by simpa using hg)
    · intro A s v u h hg hA
      rw [ParseArgs] at h
      cases hq : ParseExpression n s with
      | none => simp [hq] at h
      | some q =>
        obtain ⟨w, s1⟩ := q
        simp only [hq] at h
        cases w with
        | none => simp at h
        | some Arg =>
          simp only at h
          have hArg := ihE _ _ _ hq hg
          have hA1 : ∀ c ∈ binopsList (A ++ [Arg]), Q c := by
            intro c hc
            simp only [binopsList_append, binopsList, List.append_nil, List.mem_append] at hc
            rcases hc with hc | hc
            · exact hA c hc
            · exact hArg c hc
          split_ifs at h
          · simp only [Option.some.injEq, Prod.mk.injEq] at h
            obtain ⟨rfl, rfl⟩ := h
            exact hA1
          · simp at h
          · refine ihA _ _ _ _ h ?_ hA1
            have hb := pbE _ _ _ hq
            simpa using gate_later hb hg
    · intro I s v u h hg
      rw [ParseIdentifierExpr] at h
      simp only at h
      split_ifs at h
      · simp only [Option.some.injEq, Prod.mk.injEq] at h
        obtain ⟨rfl, rfl⟩ := h
        simp [ExprAST.binops]
      · cases hq : ParseArgs n [] (getNextToken (getNextToken s)) with
        | none => simp [hq] at h
        | some q =>
          obtain ⟨w, s3⟩ := q
          simp only [hq] at h
          cases w with
          | none => simp at h
          | some Args =>
            simp only [Option.some.injEq, Prod.mk.injEq] at h
            obtain ⟨rfl, rfl⟩ := h
            simp only [ExprAST.binops]
            exact ihA _ _ _ _ hq (by simpa using hg) (by simp [binopsList])
      · simp only [Option.some.injEq, Prod.mk.injEq] at h
        obtain ⟨rfl, rfl⟩ := h
        simp [ExprAST.binops, binopsList]
    · intro s v u h hg
      rw [ParsePrimary] at h
      cases hc : s.CurTok with
      | tok_identifier IdName => rw [hc] at h; exact ihI _ _ _ _ h hg
      | tok_number NumVal =>
        rw [hc] at h
        simp only [ParseNumberExpr, Option.some.injEq, Prod.mk.injEq] at h
        obtain ⟨rfl, rfl⟩ := h
        simp [ExprAST.binops]
      | char c =>
        rw [hc] at h
        simp only at h
        split_ifs at h
        · exact ihP _ _ _ h hg
        · simp at h
      | tok_eof => rw [hc] at h; simp at h
      | tok_def => rw [hc] at h; simp at h
      | tok_extern => rw [hc] at h; simp at h
    · intro p L s v u h hp hg hL
      rw [ParseBinOpRHS] at h
      simp only at h
      split_ifs at h with hlt
      · simp only [Option.some.injEq, Prod.mk.injEq] at h
        obtain ⟨rfl, rfl⟩ := h
        exact hL
      · have hnn : 0 ≤ (GetTokPrecedence s).1 := by omega
        obtain ⟨c0, hc0, hlegal⟩ := GetTokPrecedence_nonneg s hnn
        have hQ0 : Q c0 := hg c0 hlegal
        have hb0 := GetTokPrecedence_back s
        cases hq : ParsePrimary n (getNextToken (GetTokPrecedence s).2) with
        | none => simp [hq] at h
        | some q =>
          obtain ⟨w, s2⟩ := q
          simp only [hq] at h
          cases w with
          | none => simp at h
          | some RHS =>
            simp only [GetTokPrecedence_CurTok, hc0, Token.toChar] at h
            have hg1 : ∀ c, Legal (getNextToken (GetTokPrecedence s).2).BinopPrecedence c →
                Q c := by simpa using gate_later hb0 hg
            have hR := ihPr _ _ _ hq hg1
            have hb2 := pbPr _ _ _ hq
            have hg2 := gate_later (TableBack_trans hb2 (GetTokPrecedence_back s2)) hg1
            split_ifs at h
            · cases hq2 : ParseBinOpRHS n ((GetTokPrecedence s).1 + 1) RHS
                  (GetTokPrecedence s2).2 with
              | none => simp [hq2] at h
              | some q2 =>
                obtain ⟨w2, s3⟩ := q2
                simp only [hq2] at h
                cases w2 with
                | none => simp at h
                | some RHS1 =>
                  have hR1 := ihB _ _ _ _ _ hq2 (by omega) hg2 hR
                  have hg3 := gate_later (pbB _ _ _ _ _ hq2) hg2
                  refine ihB _ _ _ _ _ h hp hg3 ?_
                  intro c hc
                  simp only [ExprAST.binops, List.mem_cons, List.mem_append] at hc
                  rcases hc with rfl | hc | hc
                  · exact hQ0
                  · exact hL c hc
                  · exact hR1 c hc
            · refine ihB _ _ _ _ _ h hp hg2 ?_
              intro c hc
              simp only [ExprAST.binops, List.mem_cons, List.mem_append] at hc
              rcases hc with rfl | hc | hc
              · exact hQ0
              · exact hL c hc
              · exact hR c hc
    · intro s v u h hg
      rw [ParseExpression] at h
      cases hq : ParsePrimary n s with
      | none => simp [hq] at h
      | some q =>
        obtain ⟨w, s1⟩ := q
        simp only [hq] at h
        cases w with
        | none => simp at h
        | some LHS =>
          exact ihB _ _ _ _ _ h (le_refl 0) (gate_later (pbPr _ _ _ hq) hg)
            (ihPr _ _ _ hq hg)

/-- Lowering an expression whose operators are all among `+`, `-`, `*`, `<` writes
no "invalid binary operator" diagnostic. -/
theorem ExprAST.codegen_operators_known : ∀ (e : ExprAST) (s : Codegen) (v : Option Value)
    (s1 : Codegen), e.codegen s = Outcome.ret v s1 →
    (∀ c ∈ e.binops, c = '+' ∨ c = '-' ∨ c = '*' ∨ c = '<') →
    ∃ l, s1.errs = s.errs ++ l ∧ "invalid binary operator" ∉ l
  | ExprAST.Number _, s, v, s1, h, _ => by
    simp only [ExprAST.codegen, Outcome.ret.injEq] at h
    rw [← h.2]; exact ⟨[], by simp, by simp⟩
  | ExprAST.Variable Name, s, v, s1, h, _ => by
    simp only [ExprAST.codegen] at h
    split at h
    · simp only [Outcome.ret.injEq] at h
      rw [← h.2]
      exact ⟨["Unknown variable name"], rfl, by decide⟩
    · simp only [Outcome.ret.injEq] at h
      rw [← h.2]
      exact ⟨[], by simp, by simp⟩
  | ExprAST.Binary Op LHS RHS, s, v, s1, h, hops => by
    simp only [ExprAST.codegen] at h
    cases hL : LHS.codegen s with
    | undefined => simp [hL] at h
    | ret L sL =>
      cases hR : RHS.codegen sL with
      | undefined => simp [hL, hR] at h
      | ret R sR =>
        have hOp : Op = '+' ∨ Op = '-' ∨ Op = '*' ∨ Op = '<' :=
          hops Op (by simp [ExprAST.binops])
        obtain ⟨l1, h1, n1⟩ := ExprAST.codegen_operators_known LHS s L sL hL
          (fun c hc => hops c (by simp [ExprAST.binops, hc]))
        obtain ⟨l2, h2, n2⟩ := ExprAST.codegen_operators_known RHS sL R sR hR
          (fun c hc => hops c (by simp [ExprAST.binops, hc]))
        have h3 : s1.errs = sR.errs := by
          simp only [hL, hR] at h
          split at h
          · rcases hOp with rfl | rfl | rfl | rfl <;>
              simp only [Outcome.ret.injEq, if_true, if_false,
                (by decide : ¬ ('-' = '+')), (by decide : ¬ ('*' = '+')),
                (by decide : ¬ ('*' = '-')), (by decide : ¬ ('<' = '+')),
                (by decide : ¬ ('<' = '-')), (by decide : ¬ ('<' = '*'))] at h <;>
              rw [← h.2] <;> simp
          · simp only [Outcome.ret.injEq] at h; rw [← h.2]
        refine ⟨l1 ++ l2, ?_, ?_⟩
        · rw [h3, h2, h1, List.append_assoc]
        · simp only [List.mem_append, not_or]; exact ⟨n1, n2⟩
  | ExprAST.Call Callee Args, s, v, s1, h, _ => by
    simp only [ExprAST.codegen] at h
    split at h
    · simp only [Outcome.ret.injEq] at h
      rw [← h.2]
      exact ⟨["Uknown function referenced"], rfl, by decide⟩
    · cases h

theorem Legal_stdPrec (c : Char) (h : Legal stdPrec c) :
    c = '+' ∨ c = '-' ∨ c = '*' ∨ c = '<' := by
  obtain ⟨_, p, hf, _⟩ := h
  simp only [stdPrec, mapFind] at hf
  split_ifs at hf with h1 h2 h3 h4
  · exact Or.inr (Or.inr (Or.inr h1.symm))
  · exact Or.inl h2.symm
  · exact Or.inr (Or.inl h3.symm)
  · exact Or.inr (Or.inr (Or.inl h4.symm))

/-- C17: every binary node of a tree that `ParseExpression` returns carries an
operator that the precedence table, as it was when `ParseExpression` was called,
lists as an ASCII character with a positive precedence; hence with the table of the
language (`<`, `+`, `-`, `*`) the lowering of a tree returned by `ParseExpression`,
whenever it returns, has written no "invalid binary operator" diagnostic. -/
theorem ParseExpression_operators_legal :
    (∀ (n : Nat) (s u : Parser) (e : ExprAST), ParseExpression n s = some (some e, u) →
      ∀ c ∈ e.binops, c.toNat < 128 ∧ ∃ p, mapFind s.BinopPrecedence c = some p ∧ 0 < p) ∧
    (∀ (n : Nat) (s u : Parser) (e : ExprAST), s.BinopPrecedence = stdPrec →
      ParseExpression n s = some (some e, u) →
      ∀ (cg cg1 : Codegen) (v : Option Value), e.codegen cg = Outcome.ret v cg1 →
        ∃ l, cg1.errs = cg.errs ++ l ∧ "invalid binary operator" ∉ l) := by
  constructor
  · intro n s u e h c hc
    exact (parse_binops (Legal s.BinopPrecedence) n).2.2.2.2.2 s e u h (fun _ hl => hl) c hc
  · intro n s u e htbl h cg cg1 v hcg
    refine ExprAST.codegen_operators_known e cg v cg1 hcg ?_
    intro c hc
    exact (parse_binops (fun c => c = '+' ∨ c = '-' ∨ c = '*' ∨ c = '<') n).2.2.2.2.2 s e u h
      (fun c hl => Legal_stdPrec c (htbl ▸ hl)) c hc

/-- The text `a < b * 2` under the table of the language: the operators of the tree
are `<` and `*`, and lowering it with `a` and `b` bound writes no diagnostic. -/
theorem ParseExpression_operators_legal_example :
    ParseExpression 5 (Parser.start stdPrec [Token.tok_identifier "a", Token.char '<',
        Token.tok_identifier "b", Token.char '*', Token.tok_number 2]) =
      some (some (ExprAST.Binary '<' (ExprAST.Variable "a")
          (ExprAST.Binary '*' (ExprAST.Variable "b") (ExprAST.Number 2))),
        { CurTok := Token.tok_eof, input := [], BinopPrecedence := stdPrec, errs := [] }) ∧
    (∀ c ∈ (ExprAST.Binary '<' (ExprAST.Variable "a")
        (ExprAST.Binary '*' (ExprAST.Variable "b") (ExprAST.Number 2))).binops,
      c.toNat < 128 ∧ ∃ p, mapFind stdPrec c = some p ∧ 0 < p) ∧
    ∃ l, ([] : List String) = ltEntry.errs ++ l ∧ "invalid binary operator" ∉ l :=
  ⟨rfl,
   ParseExpression_operators_legal.1 5
     (Parser.start stdPrec [Token.tok_identifier "a", Token.char '<',
        Token.tok_identifier "b", Token.char '*', Token.tok_number 2]) _ _ rfl,
   ParseExpression_operators_legal.2 5
     (Parser.start stdPrec [Token.tok_identifier "a", Token.char '<',
        Token.tok_identifier "b", Token.char '*', Token.tok_number 2]) _ _ rfl rfl
     ltEntry
     (Insert (Inst.val (Value.UIToFP (Value.FCmpULT (Value.Argument "lt" 0)
         (Value.FMul (Value.Argument "lt" 1) (Value.ConstantFP 2)))))
       (Insert (Inst.val (Value.FCmpULT (Value.Argument "lt" 0)
         (Value.FMul (Value.Argument "lt" 1) (Value.ConstantFP 2))))
         (Insert (Inst.val (Value.FMul (Value.Argument "lt" 1) (Value.ConstantFP 2)))
           ltEntry)))
     _ rfl⟩

/-! ## Termination of the parser -/

/-- A transitive relation between parser states that holds across
`getNextToken`, across `GetTokPrecedence` and across `LogError` holds between the
state in which a parsing function is called and the state in which it returns. -/
theorem parse_steps (R : Parser → Parser → Prop)
    (htrans : ∀ {s t u}, R s t → R t u → R s u)
    (hN : ∀ s, R s (getNextToken s)) (hG : ∀ s, R s (GetTokPrecedence s).2)
    (hL : ∀ m s, R s (LogError m s)) (n : Nat) :
    (∀ s v u, ParseParenExpr n s = some (v, u) → R s u) ∧
    (∀ A s v u, ParseArgs n A s = some (v, u) → R s u) ∧
    (∀ I s v u, ParseIdentifierExpr n I s = some (v, u) → R s u) ∧
    (∀ s v u, ParsePrimary n s = some (v, u) → R s u) ∧
    (∀ p L s v u, ParseBinOpRHS n p L s = some (v, u) → R s u) ∧
    (∀ s v u, ParseExpression n s = some (v, u) → R s u) := by
  induction n with
  | zero =>
    refine ⟨?_, ?_, ?_, ?_, ?_, ?_⟩ <;> intros <;> simp_all [ParseParenExpr, ParseArgs,
      ParseIdentifierExpr, ParsePrimary, ParseBinOpRHS, ParseExpression]
  | succ n ih =>
    obtain ⟨ihP, ihA, ihI, ihPr, ihB, ihE⟩ := ih
    refine ⟨?_, ?_, ?_, ?_, ?_, ?_⟩
    · intro s v u h
      rw [ParseParenExpr] at h
      cases hq : ParseExpression n (getNextToken s) with
      | none => simp [hq] at h
      | some q =>
        obtain ⟨w, s2⟩ := q
        have base : R s s2 := htrans (hN s) (ihE _ _ _ hq)
        simp only [hq] at h
        cases w with
        | none => simp only [Option.some.injEq, Prod.mk.injEq] at h; rw [← h.2]; exact base
        | some V =>
          simp only at h
          split_ifs at h
          · simp only [Option.some.injEq, Prod.mk.injEq] at h
            rw [← h.2]; exact htrans base (hL _ _)
          · simp only [Option.some.injEq, Prod.mk.injEq] at h
            rw [← h.2]; exact htrans base (hN _)
    · intro A s v u h
      rw [ParseArgs] at h
      cases hq : ParseExpression n s with
      | none => simp [hq] at h
      | some q =>
        obtain ⟨w, s1⟩ := q
        have base : R s s1 := ihE _ _ _ hq
        simp only [hq] at h
        cases w with
        | none => simp only [Option.some.injEq, Prod.mk.injEq] at h; rw [← h.2]; exact base
        | some Arg =>
          simp only at h
          split_ifs at h
          · simp only [Option.some.injEq, Prod.mk.injEq] at h; rw [← h.2]; exact base
          · simp only [Option.some.injEq, Prod.mk.injEq] at h
            rw [← h.2]; exact htrans base (hL _ _)
          · exact htrans base (htrans (hN _) (ihA _ _ _ _ h))
    · intro I s v u h
      rw [ParseIdentifierExpr] at h
      simp only at h
      split_ifs at h
      · simp only [Option.some.injEq, Prod.mk.injEq] at h; rw [← h.2]; exact hN _
      · cases hq : ParseArgs n [] (getNextToken (getNextToken s)) with
        | none => simp [hq] at h
        | some q =>
          obtain ⟨w, s3⟩ := q
          have base : R s s3 := htrans (hN s) (htrans (hN _) (ihA _ _ _ _ hq))
          simp only [hq] at h
          cases w with
          | none => simp only [Option.some.injEq, Prod.mk.injEq] at h; rw [← h.2]; exact base
          | some Args =>
            simp only [Option.some.injEq, Prod.mk.injEq] at h
            rw [← h.2]; exact htrans base (hN _)
      · simp only [Option.some.injEq, Prod.mk.injEq] at h
        rw [← h.2]; exact htrans (hN s) (htrans (hN _) (hN _))
    · intro s v u h
      rw [ParsePrimary] at h
      generalize s.CurTok = t at h
      cases t with
      | tok_identifier IdName => exact ihI _ _ _ _ h
      | tok_number NumVal =>
        simp only [ParseNumberExpr, Option.some.injEq, Prod.mk.injEq] at h
        rw [← h.2]; exact hN _
      | char c =>
        simp only at h
        split_ifs at h
        · exact ihP _ _ _ h
        · simp only [Option.some.injEq, Prod.mk.injEq] at h; rw [← h.2]; exact hL _ _
      | _ => simp only [Option.some.injEq, Prod.mk.injEq] at h; rw [← h.2]; exact hL _ _
    · intro p L s v u h
      rw [ParseBinOpRHS] at h
      simp only at h
      split_ifs at h
      · simp only [Option.some.injEq, Prod.mk.injEq] at h; rw [← h.2]; exact hG s
      · cases hq : ParsePrimary n (getNextToken (GetTokPrecedence s).2) with
        | none => simp [hq] at h
        | some q =>
          obtain ⟨w, s2⟩ := q
          have b2 : R s s2 := htrans (hG s) (htrans (hN _) (ihPr _ _ _ hq))
          simp only [hq] at h
          cases w with
          | none => simp only [Option.some.injEq, Prod.mk.injEq] at h; rw [← h.2]; exact b2
          | some RHS =>
            simp only at h
            have b3 : R s (GetTokPrecedence s2).2 := htrans b2 (hG s2)
            split_ifs at h
            · cases hq2 : ParseBinOpRHS n ((GetTokPrecedence s).1 + 1) RHS
                  (GetTokPrecedence s2).2 with
              | none => simp [hq2] at h
              | some q2 =>
                obtain ⟨w2, s3⟩ := q2
                have b4 : R s s3 := htrans b3 (ihB _ _ _ _ _ hq2)
                simp only [hq2] at h
                cases w2 with
                | none =>
                  simp only [Option.some.injEq, Prod.mk.injEq] at h; rw [← h.2]; exact b4
                | some RHS1 => exact htrans b4 (ihB _ _ _ _ _ h)
            · exact htrans b3 (ihB _ _ _ _ _ h)
    · intro s v u h
      rw [ParseExpression] at h
      cases hq : ParsePrimary n s with
      | none => simp [hq] at h
      | some q =>
        obtain ⟨w, s1⟩ := q
        have base : R s s1 := ihPr _ _ _ hq
        simp only [hq] at h
        cases w with
        | none => simp only [Option.some.injEq, Prod.mk.injEq] at h; rw [← h.2]; exact base
        | some LHS => exact htrans base (ihB _ _ _ _ _ h)

theorem NotBefore_trans {s t u : Parser} (h1 : NotBefore s t) (h2 : NotBefore t u) :
    NotBefore s u := ⟨le_trans h2.1 h1.1, fun h => h2.2 (h1.2 h)⟩

theorem NotBefore_getNextToken (s : Parser) : NotBefore s (getNextToken s) := by
  obtain ⟨cur, inp, tbl, errs⟩ := s
  cases inp with
  | nil => exact ⟨le_refl _, fun _ => ⟨rfl, rfl⟩⟩
  | cons t rest =>
    refine ⟨by simp [getNextToken, gettok], ?_⟩
    intro h
    exact absurd h.1 (by simp)

theorem NotBefore_GetTokPrecedence (s : Parser) : NotBefore s (GetTokPrecedence s).2 := by
  refine ⟨by simp, ?_⟩
  intro h
  exact ⟨by simpa using h.1, by simpa using h.2⟩

theorem NotBefore_LogError (m : String) (s : Parser) : NotBefore s (LogError m s) :=
  ⟨le_refl _, fun h => h⟩

theorem parse_notBefore (n : Nat) :
    (∀ s v u, ParseParenExpr n s = some (v, u) → NotBefore s u) ∧
    (∀ A s v u, ParseArgs n A s = some (v, u) → NotBefore s u) ∧
    (∀ I s v u, ParseIdentifierExpr n I s = some (v, u) → NotBefore s u) ∧
    (∀ s v u, ParsePrimary n s = some (v, u) → NotBefore s u) ∧
    (∀ p L s v u, ParseBinOpRHS n p L s = some (v, u) → NotBefore s u) ∧
    (∀ s v u, ParseExpression n s = some (v, u) → NotBefore s u) :=
  parse_steps NotBefore (fun h1 h2 => NotBefore_trans h1 h2)
    NotBefore_getNextToken NotBefore_GetTokPrecedence NotBefore_LogError n

theorem getNextToken_nil {s : Parser} (h : s.input = []) :
    (getNextToken s).CurTok = Token.tok_eof ∧ (getNextToken s).input = [] := by
  obtain ⟨cur, inp, tbl, errs⟩ := s
  simp only at h
  subst h
  exact ⟨rfl, rfl⟩

theorem getNextToken_cons {s : Parser} {t : Token} {rest : List Token}
    (h : s.input = t :: rest) : (getNextToken s).input = rest := by
  obtain ⟨cur, inp, tbl, errs⟩ := s
  simp only at h
  subst h
  rfl

/-- At end-of-input `ParsePrimary` fails at once. -/
theorem ParsePrimary_eof (n : Nat) (s : Parser) (h : s.CurTok = Token.tok_eof) :
    ParsePrimary (n + 1) s =
      some (none, LogError "unknown token when expecting an expression" s) := by
  rw [ParsePrimary, h]

theorem ParseExpression_eof (n : Nat) (s : Parser) (h : s.CurTok = Token.tok_eof) :
    ParseExpression (n + 1 + 1) s =
      some (none, LogError "unknown token when expecting an expression" s) := by
  rw [ParseExpression, ParsePrimary_eof n s h]

theorem ParseArgs_eof (n : Nat) (A : List ExprAST) (s : Parser)
    (h : s.CurTok = Token.tok_eof) :
    ParseArgs (n + 1 + 1 + 1) A s =
      some (none, LogError "unknown token when expecting an expression" s) := by
  rw [ParseArgs, ParseExpression_eof n s h]

/-- With fuel linear in the number of tokens still to be delivered every parsing
function returns: for all states with fewer than `k` such tokens, by induction on
`k`. -/
theorem parse_total (k : Nat) :
    (∀ s : Parser, s.input.length < k → ∀ m, 3 * s.input.length + 4 ≤ m →
      ∃ r, ParseParenExpr m s = some r) ∧
    (∀ (A : List ExprAST) (s : Parser), s.input.length < k →
      ∀ m, 3 * s.input.length + 7 ≤ m → ∃ r, ParseArgs m A s = some r) ∧
    (∀ (I : String) (s : Parser), s.input.length < k →
      ∀ m, 3 * s.input.length + 4 ≤ m → ∃ r, ParseIdentifierExpr m I s = some r) ∧
    (∀ s : Parser, s.input.length < k → ∀ m, 3 * s.input.length + 5 ≤ m →
      ∃ r, ParsePrimary m s = some r) ∧
    (∀ (p : Int) (L : ExprAST) (s : Parser), s.input.length < k →
      ∀ m, 3 * s.input.length + 5 ≤ m → ∃ r, ParseBinOpRHS m p L s = some r) ∧
    (∀ s : Parser, s.input.length < k → ∀ m, 3 * s.input.length + 6 ≤ m →
      ∃ r, ParseExpression m s = some r) := by
  induction k with
  | zero => refine ⟨?_, ?_, ?_, ?_, ?_, ?_⟩ <;> intros <;> omega
  | succ k ih =>
    obtain ⟨ihP, ihA, ihI, ihPr, ihB, ihE⟩ := ih
    -- ParseParenExpr
    have stepP : ∀ s : Parser, s.input.length < k + 1 → ∀ m, 3 * s.input.length + 4 ≤ m →
        ∃ r, ParseParenExpr m s = some r := by
      intro s hs m hm
      obtain ⟨j, rfl⟩ : ∃ j, m = j + 1 + 1 + 1 := ⟨m - 3, by omega⟩
      have hsub : ∃ r, ParseExpression (j + 1 + 1) (getNextToken s) = some r := by
        cases hin : s.input with
        | nil => exact ⟨_, ParseExpression_eof j _ (getNextToken_nil hin).1⟩
        | cons t rest =>
          have hl := getNextToken_cons hin
          rw [hin] at hs hm
          simp only [List.length_cons] at hs hm
          exact ihE _ (by rw [hl]; omega) _ (by rw [hl]; omega)
      obtain ⟨⟨w, s2⟩, hq⟩ := hsub
      rw [ParseParenExpr]
      simp only [hq]
      cases w with
      | none => exact ⟨_, rfl⟩
      | some V =>
        simp only
        split_ifs <;> exact ⟨_, rfl⟩
    -- ParseIdentifierExpr
    have stepI : ∀ (I : String) (s : Parser), s.input.length < k + 1 →
        ∀ m, 3 * s.input.length + 4 ≤ m → ∃ r, ParseIdentifierExpr m I s = some r := by
      intro I s hs m hm
      obtain ⟨j, rfl⟩ : ∃ j, m = j + 1 + 1 + 1 + 1 := ⟨m - 4, by omega⟩
      have hsub : ∃ r, ParseArgs (j + 1 + 1 + 1) [] (getNextToken (getNextToken s)) =
          some r := by
        cases hin : s.input with
        | nil =>
          have h1 := getNextToken_nil hin
          exact ⟨_, ParseArgs_eof j _ _ (getNextToken_nil h1.2).1⟩
        | cons t rest =>
          have hl := getNextToken_cons hin
          cases hrest : rest with
          | nil =>
            rw [hrest] at hl
            exact ⟨_, ParseArgs_eof j _ _ (getNextToken_nil hl).1⟩
          | cons t2 rest2 =>
            rw [hrest] at hl
            have hl2 := getNextToken_cons hl
            rw [hin, hrest] at hs hm
            simp only [List.length_cons] at hs hm
            exact ihA _ _ (by rw [hl2]; omega) _ (by rw [hl2]; omega)
      obtain ⟨⟨w, s3⟩, hq⟩ := hsub
      rw [ParseIdentifierExpr]
      simp only [hq]
      split_ifs
      · exact ⟨_, rfl⟩
      · cases w <;> exact ⟨_, rfl⟩
      · exact ⟨_, rfl⟩
    -- ParsePrimary
    have stepPr : ∀ s : Parser, s.input.length < k + 1 → ∀ m, 3 * s.input.length + 5 ≤ m →
        ∃ r, ParsePrimary m s = some r := by
      intro s hs m hm
      obtain ⟨j, rfl⟩ : ∃ j, m = j + 1 := ⟨m - 1, by omega⟩
      rw [ParsePrimary]
      cases s.CurTok with
      | tok_identifier IdName => exact stepI _ s hs j (by omega)
      | tok_number NumVal => exact ⟨_, rfl⟩
      | char c =>
        simp only
        split_ifs
        · exact stepP s hs j (by omega)
        · exact ⟨_, rfl⟩
      | _ => exact ⟨_, rfl⟩
    -- ParseBinOpRHS
    have stepB : ∀ (p : Int) (L : ExprAST) (s : Parser), s.input.length < k + 1 →
        ∀ m, 3 * s.input.length + 5 ≤ m → ∃ r, ParseBinOpRHS m p L s = some r := by
      intro p L s hs m hm
      obtain ⟨j, rfl⟩ : ∃ j, m = j + 1 + 1 := ⟨m - 2, by omega⟩
      rw [ParseBinOpRHS]
      simp only
      split_ifs with hlt
      · exact ⟨_, rfl⟩
      · cases hin : s.input with
        | nil =>
          have hin1 : (GetTokPrecedence s).2.input = [] := by simpa using hin
          rw [ParsePrimary_eof j _ (getNextToken_nil hin1).1]
          exact ⟨_, rfl⟩
        | cons t rest =>
          have hin1 : (GetTokPrecedence s).2.input = t :: rest := by simpa using hin
          have hl := getNextToken_cons hin1
          rw [hin] at hs hm
          simp only [List.length_cons] at hs hm
          obtain ⟨⟨w, s2⟩, hq⟩ := ihPr (getNextToken (GetTokPrecedence s).2)
            (by rw [hl]; omega) (j + 1) (by rw [hl]; omega)
          have hlen2 : s2.input.length ≤ rest.length := by
            have := ((parse_notBefore (j + 1)).2.2.2.1 _ _ _ hq).1
            rwa [hl] at this
          simp only [hq]
          cases w with
          | none => exact ⟨_, rfl⟩
          | some RHS =>
            simp only
            split_ifs
            · obtain ⟨⟨w2, s3⟩, hq2⟩ := ihB ((GetTokPrecedence s).1 + 1) RHS
                (GetTokPrecedence s2).2 (by simp; omega) (j + 1) (by simp; omega)
              have hlen3 : s3.input.length ≤ rest.length := by
                have := ((parse_notBefore (j + 1)).2.2.2.2.1 _ _ _ _ _ hq2).1
                simp only [GetTokPrecedence_input] at this
                omega
              simp only [hq2]
              cases w2 with
              | none => exact ⟨_, rfl⟩
              | some RHS1 => exact ihB _ _ s3 (by omega) (j + 1) (by omega)
            · exact ihB _ _ _ (by simp; omega) (j + 1) (by simp; omega)
    -- ParseExpression
    have stepE : ∀ s : Parser, s.input.length < k + 1 → ∀ m, 3 * s.input.length + 6 ≤ m →
        ∃ r, ParseExpression m s = some r := by
      intro s hs m hm
      obtain ⟨j, rfl⟩ : ∃ j, m = j + 1 := ⟨m - 1, by omega⟩
      obtain ⟨⟨w, s1⟩, hq⟩ := stepPr s hs j (by omega)
      have hlen : s1.input.length ≤ s.input.length :=
        ((parse_notBefore j).2.2.2.1 _ _ _ hq).1
      rw [ParseExpression]
      simp only [hq]
      cases w with
      | none => exact ⟨_, rfl⟩
      | some LHS => exact stepB _ _ s1 (by omega) j (by omega)
    -- ParseArgs
    have stepA : ∀ (A : List ExprAST) (s : Parser), s.input.length < k + 1 →
        ∀ m, 3 * s.input.length + 7 ≤ m → ∃ r, ParseArgs m A s = some r := by
      intro A s hs m hm
      obtain ⟨j, rfl⟩ : ∃ j, m = j + 1 + 1 + 1 + 1 := ⟨m - 4, by omega⟩
      obtain ⟨⟨w, s1⟩, hq⟩ := stepE s hs (j + 1 + 1 + 1) (by omega)
      have hlen : s1.input.length ≤ s.input.length :=
        ((parse_notBefore _).2.2.2.2.2 _ _ _ hq).1
      rw [ParseArgs]
      simp only [hq]
      cases w with
      | none => exact ⟨_, rfl⟩
      | some Arg =>
        simp only
        split_ifs
        · exact ⟨_, rfl⟩
        · exact ⟨_, rfl⟩
        · cases hin : s1.input with
          | nil => exact ⟨_, ParseArgs_eof j _ _ (getNextToken_nil hin).1⟩
          | cons t rest =>
            have hl := getNextToken_cons hin
            rw [hin] at hlen
            simp only [List.length_cons] at hlen
            exact ihA _ _ (by rw [hl]; omega) _ (by rw [hl]; omega)
    exact ⟨stepP, stepA, stepI, stepPr, stepB, stepE⟩

theorem Advanced.later {s t u : Parser} (h1 : Advanced s t) (h2 : NotBefore t u) :
    Advanced s u := by
  rcases h1 with h | h
  · exact Or.inl (lt_of_le_of_lt h2.1 h)
  · exact Or.inr (h2.2 h)

theorem Advanced_getNextToken (s t : Parser) (h : t.input = s.input) :
    Advanced s (getNextToken t) := by
  cases hin : t.input with
  | nil =>
    have h1 := getNextToken_nil hin
    exact Or.inr ⟨h1.2, h1.1⟩
  | cons x rest =>
    left
    rw [getNextToken_cons hin, ← h, hin]
    simp

/-- C19: `ParseExpression` returns for every state, with every precedence table,
given fuel linear in the number of tokens still to be delivered (after which
`gettok` delivers end-of-input forever), and returns in a state that is not before
the one it started in. An end-of-input current token has precedence -1, stops
`ParseBinOpRHS` and fails `ParsePrimary`. `ParseParenExpr` and `ParseIdentifierExpr`,
a `ParsePrimary` that does not fail at once, and a `ParseBinOpRHS` that does not
return at once (an iteration of its loop) consume at least one token: fewer tokens
are left afterwards, or the stream is exhausted. -/
theorem ParseExpression_terminates (s : Parser) :
    (∀ m, 3 * s.input.length + 6 ≤ m →
      ∃ v u, ParseExpression m s = some (v, u) ∧ NotBefore s u) ∧
    (s.CurTok = Token.tok_eof →
      GetTokPrecedence s = (-1, s) ∧
      (∀ (n : Nat) (ExprPrec : Int) (LHS : ExprAST), 0 ≤ ExprPrec →
        ParseBinOpRHS (n + 1) ExprPrec LHS s = some (some LHS, s)) ∧
      (∀ n : Nat, ParsePrimary (n + 1) s =
        some (none, LogError "unknown token when expecting an expression" s))) ∧
    (∀ n v u, ParseParenExpr n s = some (v, u) → Advanced s u) ∧
    (∀ n I v u, ParseIdentifierExpr n I s = some (v, u) → Advanced s u) ∧
    (∀ n v u, ParsePrimary n s = some (v, u) →
      ((∃ x, s.CurTok = Token.tok_identifier x) ∨ (∃ x, s.CurTok = Token.tok_number x) ∨
        s.CurTok = Token.char '(') → Advanced s u) ∧
    (∀ n p L v u, ParseBinOpRHS n p L s = some (v, u) → ¬ (GetTokPrecedence s).1 < p →
      Advanced s u) := by
  have hparen : ∀ (s : Parser) n v u, ParseParenExpr n s = some (v, u) → Advanced s u := by
    intro s n v u h
    cases n with
    | zero => simp [ParseParenExpr] at h
    | succ n =>
      rw [ParseParenExpr] at h
      cases hq : ParseExpression n (getNextToken s) with
      | none => simp [hq] at h
      | some q =>
        obtain ⟨w, s2⟩ := q
        have base : Advanced s s2 :=
          (Advanced_getNextToken s s rfl).later ((parse_notBefore n).2.2.2.2.2 _ _ _ hq)
        simp only [hq] at h
        cases w with
        | none => simp only [Option.some.injEq, Prod.mk.injEq] at h; rw [← h.2]; exact base
        | some V =>
          simp only at h
          split_ifs at h
          · simp only [Option.some.injEq, Prod.mk.injEq] at h
            rw [← h.2]; exact base.later (NotBefore_LogError _ _)
          · simp only [Option.some.injEq, Prod.mk.injEq] at h
            rw [← h.2]; exact base.later (NotBefore_getNextToken _)
  have hident : ∀ (s : Parser) n I v u, ParseIdentifierExpr n I s = some (v, u) →
      Advanced s u := by
    intro s n I v u h
    cases n with
    | zero => simp [ParseIdentifierExpr] at h
    | succ n =>
      rw [ParseIdentifierExpr] at h
      simp only at h
      have a1 : Advanced s (getNextToken s) := Advanced_getNextToken s s rfl
      have a2 : Advanced s (getNextToken (getNextToken s)) :=
        a1.later (NotBefore_getNextToken _)
      split_ifs at h
      · simp only [Option.some.injEq, Prod.mk.injEq] at h; rw [← h.2]; exact a1
      · cases hq : ParseArgs n [] (getNextToken (getNextToken s)) with
        | none => simp [hq] at h
        | some q =>
          obtain ⟨w, s3⟩ := q
          have base : Advanced s s3 := a2.later ((parse_notBefore n).2.1 _ _ _ _ hq)
          simp only [hq] at h
          cases w with
          | none => simp only [Option.some.injEq, Prod.mk.injEq] at h; rw [← h.2]; exact base
          | some Args =>
            simp only [Option.some.injEq, Prod.mk.injEq] at h
            rw [← h.2]; exact base.later (NotBefore_getNextToken _)
      · simp only [Option.some.injEq, Prod.mk.injEq] at h
        rw [← h.2]; exact a2.later (NotBefore_getNextToken _)
  refine ⟨?_, ?_, hparen s, hident s, ?_, ?_⟩
  · intro m hm
    obtain ⟨⟨v, u⟩, hr⟩ := (parse_total (s.input.length + 1)).2.2.2.2.2 s (by omega) m hm
    exact ⟨v, u, hr, (parse_notBefore m).2.2.2.2.2 _ _ _ hr⟩
  · intro heof
    have hg : GetTokPrecedence s = (-1, s) := by
      unfold GetTokPrecedence
      rw [heof]
    refine ⟨hg, ?_, fun n => ParsePrimary_eof n s heof⟩
    intro n ExprPrec LHS hp
    rw [ParseBinOpRHS]
    simp only [hg]
    rw [if_pos (by omega)]
  · intro n v u h hcur
    cases n with
    | zero => simp [ParsePrimary] at h
    | succ n =>
      rw [ParsePrimary] at h
      rcases hcur with ⟨x, hx⟩ | ⟨x, hx⟩ | hx
      · rw [hx] at h; exact hident s _ _ _ _ h
      · rw [hx] at h
        simp only [ParseNumberExpr, Option.some.injEq, Prod.mk.injEq] at h
        rw [← h.2]; exact Advanced_getNextToken s s rfl
      · rw [hx] at h
        simp only [if_true] at h
        exact hparen s _ _ _ h
  · intro n p L v u h hnot
    cases n with
    | zero => simp [ParseBinOpRHS] at h
    | succ n =>
      rw [ParseBinOpRHS] at h
      simp only [hnot, if_false] at h
      have a1 : Advanced s (getNextToken (GetTokPrecedence s).2) :=
        Advanced_getNextToken s _ (by simp)
      cases hq : ParsePrimary n (getNextToken (GetTokPrecedence s).2) with
      | none => simp [hq] at h
      | some q =>
        obtain ⟨w, s2⟩ := q
        have b2 : Advanced s s2 := a1.later ((parse_notBefore n).2.2.2.1 _ _ _ hq)
        simp only [hq] at h
        cases w with
        | none => simp only [Option.some.injEq, Prod.mk.injEq] at h; rw [← h.2]; exact b2
        | some RHS =>
          simp only at h
          have b3 : Advanced s (GetTokPrecedence s2).2 :=
            b2.later (NotBefore_GetTokPrecedence s2)
          split_ifs at h
          · cases hq2 : ParseBinOpRHS n ((GetTokPrecedence s).1 + 1) RHS
                (GetTokPrecedence s2).2 with
            | none => simp [hq2] at h
            | some q2 =>
              obtain ⟨w2, s3⟩ := q2
              have b4 : Advanced s s3 :=
                b3.later ((parse_notBefore n).2.2.2.2.1 _ _ _ _ _ hq2)
              simp only [hq2] at h
              cases w2 with
              | none =>
                simp only [Option.some.injEq, Prod.mk.injEq] at h; rw [← h.2]; exact b4
              | some RHS1 => exact b4.later ((parse_notBefore n).2.2.2.2.1 _ _ _ _ _ h)
          · exact b3.later ((parse_notBefore n).2.2.2.2.1 _ _ _ _ _ h)

/-- The text `1 + (2` ends before the parenthesis is closed: with three tokens still
to be delivered the fuel 15 is enough, and `ParseExpression` returns null at the end
of the input. -/
theorem ParseExpression_terminates_example :
    ∃ v u, ParseExpression 15 (Parser.start stdPrec [Token.tok_number 1, Token.char '+',
        Token.char '(', Token.tok_number 2]) = some (v, u) ∧
      NotBefore (Parser.start stdPrec [Token.tok_number 1, Token.char '+',
        Token.char '(', Token.tok_number 2]) u :=
  (ParseExpression_terminates (Parser.start stdPrec [Token.tok_number 1, Token.char '+',
      Token.char '(', Token.tok_number 2])).1 15 (by decide)

/-! ## The position of the parser after a failure -/

theorem Downstream_trans {s t u : Parser} (h1 : Downstream s t) (h2 : Downstream t u) :
    Downstream s u := by
  refine ⟨?_, fun h => h2.2 (h1.2 h)⟩
  rcases h2.1 with ⟨pre2, e2⟩ | hx
  · rcases h1.1 with ⟨pre1, e1⟩ | hx1
    · exact Or.inl ⟨pre1 ++ pre2, by rw [e1, e2, List.append_assoc]⟩
    · exact Or.inr (h2.2 hx1)
  · exact Or.inr hx

theorem Downstream_getNextToken (s : Parser) : Downstream s (getNextToken s) := by
  obtain ⟨cur, inp, tbl, errs⟩ := s
  cases inp with
  | nil => exact ⟨Or.inr ⟨rfl, rfl⟩, fun _ => ⟨rfl, rfl⟩⟩
  | cons t rest =>
    refine ⟨Or.inl ⟨[cur], rfl⟩, ?_⟩
    intro h
    exact absurd h.1 (by simp)

theorem Downstream_GetTokPrecedence (s : Parser) : Downstream s (GetTokPrecedence s).2 := by
  refine ⟨Or.inl ⟨[], by simp⟩, ?_⟩
  intro h
  exact ⟨by simpa using h.1, by simpa using h.2⟩

theorem Downstream_LogError (m : String) (s : Parser) : Downstream s (LogError m s) :=
  ⟨Or.inl ⟨[], rfl⟩, fun h => h⟩

theorem parse_downstream (n : Nat) :
    (∀ s v u, ParseParenExpr n s = some (v, u) → Downstream s u) ∧
    (∀ A s v u, ParseArgs n A s = some (v, u) → Downstream s u) ∧
    (∀ I s v u, ParseIdentifierExpr n I s = some (v, u) → Downstream s u) ∧
    (∀ s v u, ParsePrimary n s = some (v, u) → Downstream s u) ∧
    (∀ p L s v u, ParseBinOpRHS n p L s = some (v, u) → Downstream s u) ∧
    (∀ s v u, ParseExpression n s = some (v, u) → Downstream s u) :=
  parse_steps Downstream (fun h1 h2 => Downstream_trans h1 h2)
    Downstream_getNextToken Downstream_GetTokPrecedence Downstream_LogError n

/-- The loop of `ParsePrototype` stops at the first token that is no identifier, or
at the end of the tokens. -/
theorem ParsePrototypeArgs_split (l : List Token) :
    ∀ acc : List String, ∃ names : List String,
      (ParsePrototypeArgs acc l).1 = acc ++ names ∧
      (l = names.map Token.tok_identifier ++
          (ParsePrototypeArgs acc l).2.1 :: (ParsePrototypeArgs acc l).2.2 ∨
        (l = names.map Token.tok_identifier ∧
          (ParsePrototypeArgs acc l).2.1 = Token.tok_eof ∧
          (ParsePrototypeArgs acc l).2.2 = [])) := by
  induction l with
  | nil => intro acc; exact ⟨[], by simp [ParsePrototypeArgs], Or.inr ⟨rfl, rfl, rfl⟩⟩
  | cons t l ih =>
    intro acc
    cases t with
    | tok_identifier m =>
      obtain ⟨names, h1, h2⟩ := ih (acc ++ [m])
      refine ⟨m :: names, ?_, ?_⟩
      · simp only [ParsePrototypeArgs, h1, List.append_assoc, List.singleton_append]
      · simp only [ParsePrototypeArgs, List.map_cons, List.cons_append, List.cons.injEq,
          true_and]
        exact h2
    | _ => exact ⟨[], by simp [ParsePrototypeArgs], Or.inl (by simp [ParsePrototypeArgs])⟩

theorem LogError_failedAt (m : String) (s : Parser) : LogError m s = s.failedAt m := rfl

theorem ParsePrimary_fails (n : Nat) (s u : Parser)
    (h : ParsePrimary (n + 1) s = some (none, u)) :
    ((∀ x, s.CurTok ≠ Token.tok_identifier x) ∧ (∀ v, s.CurTok ≠ Token.tok_number v) ∧
        s.CurTok ≠ Token.char '(' ∧
        u = s.failedAt "unknown token when expecting an expression") ∨
      (∃ x, s.CurTok = Token.tok_identifier x ∧
        ParseIdentifierExpr n x s = some (none, u)) ∨
      (s.CurTok = Token.char '(' ∧ ParseParenExpr n s = some (none, u)) := by
  cases hc : s.CurTok with
  | tok_identifier x =>
    simp only [ParsePrimary, hc] at h
    exact Or.inr (Or.inl ⟨x, rfl, h⟩)
  | tok_number v => simp [ParsePrimary, hc, ParseNumberExpr] at h
  | char c =>
    simp only [ParsePrimary, hc] at h
    by_cases hp : c = '('
    · subst hp
      simp only [if_true] at h
      exact Or.inr (Or.inr ⟨rfl, h⟩)
    · simp only [hp, if_false, Option.some.injEq, Prod.mk.injEq, true_and] at h
      refine Or.inl ⟨by simp, by simp, ?_, by rw [← h, LogError_failedAt]⟩
      intro e
      exact hp (by injection e)
  | tok_eof =>
    simp only [ParsePrimary, hc, Option.some.injEq, Prod.mk.injEq, true_and] at h
    exact Or.inl ⟨by simp, by simp, by simp, by rw [← h, LogError_failedAt]⟩
  | tok_def =>
    simp only [ParsePrimary, hc, Option.some.injEq, Prod.mk.injEq, true_and] at h
    exact Or.inl ⟨by simp, by simp, by simp, by rw [← h, LogError_failedAt]⟩
  | tok_extern =>
    simp only [ParsePrimary, hc, Option.some.injEq, Prod.mk.injEq, true_and] at h
    exact Or.inl ⟨by simp, by simp, by simp, by rw [← h, LogError_failedAt]⟩

theorem ParsePrimary_rejects (n : Nat) (s : Parser)
    (h1 : ∀ x, s.CurTok ≠ Token.tok_identifier x) (h2 : ∀ v, s.CurTok ≠ Token.tok_number v)
    (h3 : s.CurTok ≠ Token.char '(') :
    ParsePrimary (n + 1) s =
      some (none, LogError "unknown token when expecting an expression" s) := by
  cases hc : s.CurTok with
  | tok_identifier x => exact absurd hc (h1 x)
  | tok_number v => exact absurd hc (h2 v)
  | char c =>
    have hp : c ≠ '(' := fun e => h3 (by rw [hc, e])
    simp only [ParsePrimary, hc, hp, if_false]
  | tok_eof => simp only [ParsePrimary, hc]
  | tok_def => simp only [ParsePrimary, hc]
  | tok_extern => simp only [ParsePrimary, hc]

theorem ParseParenExpr_fails (n : Nat) (s u : Parser)
    (h : ParseParenExpr (n + 1) s = some (none, u)) :
    ParseExpression n (getNextToken s) = some (none, u) ∨
      ∃ V s2, ParseExpression n (getNextToken s) = some (some V, s2) ∧
        s2.CurTok ≠ Token.char ')' ∧ u = s2.failedAt "expected ')'" := by
  simp only [ParseParenExpr] at h
  rcases hr : ParseExpression n (getNextToken s) with _ | ⟨_ | V, s2⟩
  · simp [hr] at h
  · simp only [hr, Option.some.injEq, Prod.mk.injEq, true_and] at h
    exact Or.inl (by rw [h])
  · simp only [hr] at h
    by_cases hp : s2.CurTok = Token.char ')'
    · simp [hp] at h
    · simp only [ne_eq, hp, not_false_eq_true, if_true, Option.some.injEq, Prod.mk.injEq,
        true_and] at h
      exact Or.inr ⟨V, s2, rfl, hp, by rw [← h, LogError_failedAt]⟩

theorem ParseArgs_fails (n : Nat) (A : List ExprAST) (s u : Parser)
    (h : ParseArgs (n + 1) A s = some (none, u)) :
    ParseExpression n s = some (none, u) ∨
      ∃ Arg s1, ParseExpression n s = some (some Arg, s1) ∧
        ((s1.CurTok ≠ Token.char ')' ∧ s1.CurTok ≠ Token.char ',' ∧
            u = s1.failedAt "Expected ')' or ',' in argument list") ∨
          (s1.CurTok = Token.char ',' ∧
            ParseArgs n (A ++ [Arg]) (getNextToken s1) = some (none, u))) := by
  simp only [ParseArgs] at h
  rcases hr : ParseExpression n s with _ | ⟨_ | Arg, s1⟩
  · simp [hr] at h
  · simp only [hr, Option.some.injEq, Prod.mk.injEq, true_and] at h
    exact Or.inl (by rw [h])
  · simp only [hr] at h
    by_cases hp : s1.CurTok = Token.char ')'
    · simp [hp] at h
    · by_cases hq : s1.CurTok = Token.char ','
      · simp only [hq, ne_eq, not_true_eq_false, if_false] at h
        rw [if_neg (by decide)] at h
        exact Or.inr ⟨Arg, s1, rfl, Or.inr ⟨hq, h⟩⟩
      · simp only [hp, if_false, ne_eq, hq, not_false_eq_true, if_true, Option.some.injEq,
          Prod.mk.injEq, true_and] at h
        exact Or.inr ⟨Arg, s1, rfl, Or.inl ⟨hp, hq, by rw [← h, LogError_failedAt]⟩⟩

theorem ParseIdentifierExpr_fails (n : Nat) (x : String) (s u : Parser)
    (h : ParseIdentifierExpr (n + 1) x s = some (none, u)) :
    (getNextToken s).CurTok = Token.char '(' ∧
      ParseArgs n [] (getNextToken (getNextToken s)) = some (none, u) := by
  simp only [ParseIdentifierExpr] at h
  by_cases hp : (getNextToken s).CurTok = Token.char '('
  · refine ⟨hp, ?_⟩
    simp only [hp, ne_eq, not_true_eq_false, if_false] at h
    by_cases hq : (getNextToken (getNextToken s)).CurTok = Token.char ')'
    · simp [hq] at h
    · simp only [hq, not_false_eq_true, if_true] at h
      rcases hr : ParseArgs n [] (getNextToken (getNextToken s)) with _ | ⟨_ | As, s3⟩
      · simp [hr] at h
      · simp only [hr, Option.some.injEq, Prod.mk.injEq, true_and] at h
        rw [h]
      · simp [hr] at h
  · simp [hp] at h

theorem ParseBinOpRHS_fails (n : Nat) (p : Int) (L : ExprAST) (s u : Parser)
    (h : ParseBinOpRHS (n + 1) p L s = some (none, u)) :
    ¬ (GetTokPrecedence s).1 < p ∧
      (ParsePrimary n (getNextToken (GetTokPrecedence s).2) = some (none, u) ∨
        ∃ R s2, ParsePrimary n (getNextToken (GetTokPrecedence s).2) = some (some R, s2) ∧
          (((GetTokPrecedence s).1 < (GetTokPrecedence s2).1 ∧
              (ParseBinOpRHS n ((GetTokPrecedence s).1 + 1) R (GetTokPrecedence s2).2
                  = some (none, u) ∨
                ∃ R1 s3,
                  ParseBinOpRHS n ((GetTokPrecedence s).1 + 1) R (GetTokPrecedence s2).2
                    = some (some R1, s3) ∧
                  ParseBinOpRHS n p
                    (ExprAST.Binary (GetTokPrecedence s).2.CurTok.toChar L R1) s3
                    = some (none, u))) ∨
            (¬ (GetTokPrecedence s).1 < (GetTokPrecedence s2).1 ∧
              ParseBinOpRHS n p (ExprAST.Binary (GetTokPrecedence s).2.CurTok.toChar L R)
                (GetTokPrecedence s2).2 = some (none, u)))) := by
  simp only [ParseBinOpRHS] at h
  by_cases hp : (GetTokPrecedence s).1 < p
  · simp [hp] at h
  · refine ⟨hp, ?_⟩
    simp only [hp, if_false] at h
    rcases hr : ParsePrimary n (getNextToken (GetTokPrecedence s).2) with _ | ⟨_ | R, s2⟩
    · simp [hr] at h
    · simp only [hr, Option.some.injEq, Prod.mk.injEq, true_and] at h
      exact Or.inl (by rw [h])
    · simp only [hr] at h
      refine Or.inr ⟨R, s2, rfl, ?_⟩
      by_cases hq : (GetTokPrecedence s).1 < (GetTokPrecedence s2).1
      · simp only [hq, if_true] at h
        refine Or.inl ⟨hq, ?_⟩
        rcases hr2 : ParseBinOpRHS n ((GetTokPrecedence s).1 + 1) R (GetTokPrecedence s2).2
          with _ | ⟨_ | R1, s3⟩
        · simp [hr2] at h
        · simp only [hr2, Option.some.injEq, Prod.mk.injEq, true_and] at h
          exact Or.inl (by rw [h])
        · simp only [hr2] at h
          exact Or.inr ⟨R1, s3, rfl, h⟩
      · simp only [hq, if_false] at h
        exact Or.inr ⟨hq, h⟩

theorem ParseExpression_fails (n : Nat) (s u : Parser)
    (h : ParseExpression (n + 1) s = some (none, u)) :
    ParsePrimary n s = some (none, u) ∨
      ∃ L s1, ParsePrimary n s = some (some L, s1) ∧
        ParseBinOpRHS n 0 L s1 = some (none, u) := by
  simp only [ParseExpression] at h
  rcases hr : ParsePrimary n s with _ | ⟨_ | L, s1⟩
  · simp [hr] at h
  · simp only [hr, Option.some.injEq, Prod.mk.injEq, true_and] at h
    exact Or.inl (by rw [h])
  · simp only [hr] at h
    exact Or.inr ⟨L, s1, rfl, h⟩

theorem ParsePrototype_fails (s u : Parser) (h : ParsePrototype s = (none, u)) :
    ((∀ x, s.CurTok ≠ Token.tok_identifier x) ∧
        u = s.failedAt "Expected function name in prototype") ∨
      ((∃ x, s.CurTok = Token.tok_identifier x) ∧
        (getNextToken s).CurTok ≠ Token.char '(' ∧
        u = (getNextToken s).failedAt "Expected '(' in prototype") ∨
      ((∃ x, s.CurTok = Token.tok_identifier x) ∧
        (getNextToken s).CurTok = Token.char '(' ∧
        ∃ (names : List String) (t : Token) (rest : List Token),
          (∀ x, t ≠ Token.tok_identifier x) ∧ t ≠ Token.char ')' ∧
          ((getNextToken s).input = names.map Token.tok_identifier ++ t :: rest ∨
            ((getNextToken s).input = names.map Token.tok_identifier ∧
              t = Token.tok_eof ∧ rest = [])) ∧
          u = Parser.failedAt
            { CurTok := t, input := rest,
              BinopPrecedence := s.BinopPrecedence, errs := s.errs }
            "Expected ')' in prototype") := by
  have hdirect : (∀ x, s.CurTok ≠ Token.tok_identifier x) →
      ParsePrototype s = (none, LogError "Expected function name in prototype" s) := by
    intro hx
    cases hc : s.CurTok with
    | tok_identifier x => exact absurd hc (hx x)
    | _ => simp only [ParsePrototype, hc]
  cases hc : s.CurTok with
  | tok_identifier x =>
    simp only [ParsePrototype, hc] at h
    by_cases hp : (getNextToken s).CurTok = Token.char '('
    · simp only [hp, ne_eq, not_true_eq_false, if_false] at h
      refine Or.inr (Or.inr ⟨⟨x, rfl⟩, hp, ?_⟩)
      obtain ⟨names, -, hsplit⟩ := ParsePrototypeArgs_split (getNextToken s).input []
      have hstop := ParsePrototypeArgs_stops (getNextToken s).input []
      by_cases hq : (ParsePrototypeArgs [] (getNextToken s).input).2.1 = Token.char ')'
      · simp [hq] at h
      · simp only [hq, not_false_eq_true, if_true, Prod.mk.injEq, true_and] at h
        refine ⟨names, _, _, hstop, hq, hsplit, ?_⟩
        rw [← h]
        simp [LogError, Parser.failedAt]
    · simp only [ne_eq, hp, not_false_eq_true, if_true, Prod.mk.injEq, true_and] at h
      exact Or.inr (Or.inl ⟨⟨x, rfl⟩, hp, by rw [← h, LogError_failedAt]⟩)
  | _ =>
    have hx : ∀ x, s.CurTok ≠ Token.tok_identifier x := by simp [hc]
    rw [hdirect hx] at h
    simp only [Prod.mk.injEq, true_and] at h
    exact Or.inl ⟨by simp, by rw [← h, LogError_failedAt]⟩

theorem ParsePrototypeArgs_downstream (s : Parser) :
    Downstream s { s with CurTok := (ParsePrototypeArgs [] s.input).2.1,
                          input := (ParsePrototypeArgs [] s.input).2.2 } := by
  obtain ⟨names, -, hs⟩ := ParsePrototypeArgs_split s.input []
  refine ⟨?_, ?_⟩
  · rcases hs with hs | ⟨-, ht, hrest⟩
    · exact Or.inl ⟨s.CurTok :: names.map Token.tok_identifier, by
        simp only [List.cons_append]
        rw [← hs]⟩
    · exact Or.inr ⟨hrest, ht⟩
  · intro hx
    rw [hx.1]
    exact ⟨rfl, rfl⟩

theorem ParsePrototype_downstream (s : Parser) : Downstream s (ParsePrototype s).2 := by
  have hdirect : (∀ x, s.CurTok ≠ Token.tok_identifier x) →
      ParsePrototype s = (none, LogError "Expected function name in prototype" s) := by
    intro hx
    cases hc : s.CurTok with
    | tok_identifier x => exact absurd hc (hx x)
    | _ => simp only [ParsePrototype, hc]
  cases hc : s.CurTok with
  | tok_identifier x =>
    simp only [ParsePrototype, hc]
    have h1 := Downstream_getNextToken s
    have h2 := Downstream_trans h1 (ParsePrototypeArgs_downstream (getNextToken s))
    split_ifs
    · exact Downstream_trans h1 (Downstream_LogError _ _)
    · exact Downstream_trans h2 (Downstream_LogError _ _)
    · exact Downstream_trans h2 (Downstream_getNextToken _)
  | _ =>
    rw [hdirect (by simp [hc])]
    exact Downstream_LogError _ s

theorem ParseDefinition_fails (n : Nat) (s u : Parser)
    (h : ParseDefinition n s = some (none, u)) :
    ParsePrototype (getNextToken s) = (none, u) ∨
      ∃ P s1, ParsePrototype (getNextToken s) = (some P, s1) ∧
        ParseExpression n s1 = some (none, u) := by
  simp only [ParseDefinition] at h
  rcases hr : ParsePrototype (getNextToken s) with ⟨_ | P, s1⟩
  · simp only [hr, Option.some.injEq, Prod.mk.injEq, true_and] at h
    exact Or.inl (by rw [h])
  · simp only [hr] at h
    refine Or.inr ⟨P, s1, rfl, ?_⟩
    rcases hr2 : ParseExpression n s1 with _ | ⟨_ | E, s2⟩
    · simp [hr2] at h
    · simp only [hr2, Option.some.injEq, Prod.mk.injEq, true_and] at h
      rw [h]
    · simp [hr2] at h

theorem ParseDefinition_downstream (n : Nat) (s : Parser) (v : Option FunctionAST)
    (u : Parser) (h : ParseDefinition n s = some (v, u)) : Downstream s u := by
  have h1 := Downstream_trans (Downstream_getNextToken s)
    (ParsePrototype_downstream (getNextToken s))
  simp only [ParseDefinition] at h
  rcases hr : ParsePrototype (getNextToken s) with ⟨_ | P, s1⟩
  · rw [hr] at h1
    simp only [hr, Option.some.injEq, Prod.mk.injEq] at h
    rw [← h.2]; exact h1
  · rw [hr] at h1
    simp only [hr] at h
    rcases hr2 : ParseExpression n s1 with _ | ⟨w, s2⟩
    · simp [hr2] at h
    · have h2 := (parse_downstream n).2.2.2.2.2 s1 w s2 hr2
      cases w with
      | none =>
        simp only [hr2, Option.some.injEq, Prod.mk.injEq] at h
        rw [← h.2]; exact Downstream_trans h1 h2
      | some E =>
        simp only [hr2, Option.some.injEq, Prod.mk.injEq] at h
        rw [← h.2]; exact Downstream_trans h1 h2

theorem ParseTopLevelExpr_fails (n : Nat) (s u : Parser)
    (h : ParseTopLevelExpr n s = some (none, u)) :
    ParseExpression n s = some (none, u) := by
  simp only [ParseTopLevelExpr] at h
  rcases hr : ParseExpression n s with _ | ⟨_ | E, s2⟩
  · simp [hr] at h
  · simp only [hr, Option.some.injEq, Prod.mk.injEq, true_and] at h
    rw [h]
  · simp [hr] at h

theorem ParseDefinition_outcome (n : Nat) (s u : Parser)
    (h : ParseDefinition n s = some (none, u)) :
    ∃ msg, u.errs = s.errs ++ [msg] ∧ Rejects msg u.CurTok := by
  rcases ParseDefinition_fails n s u h with hp | ⟨P, s1, hp, hq⟩
  · have h1 := ParsePrototype_outcome _ _ _ hp
    simpa using h1
  · have h1 : s1.errs = s.errs := by
      have := ParsePrototype_outcome _ _ _ hp
      simpa [ParseOutcome] using this
    have h2 := (parse_outcome n).2.2.2.2.2 _ _ _ hq
    rw [h1] at h2
    exact h2

/-- C14 (amended): when `ParsePrimary`, `ParseExpression`, `ParsePrototype`,
`ParseDefinition`, `ParseExtern` or `ParseTopLevelExpr` fails it returns null, it has
written exactly one diagnostic, and the token stream stands at the failing token, which
has not been consumed. First part: after a failure of one of the six functions one line
has been added, the current token is one that the test which writes that line rejects,
and the current token with the tokens still to be delivered is a final part of what it
was at the call. Second part, where the stream stands: a function that rejects a token
itself returns the very state in which it made the test, with the diagnostic added and
nothing else changed (the rejected token is still the current one and the tokens after it
are all still to be delivered), and a function one of whose calls failed returns the
state of that call unchanged. Third part: a first token that starts no expression makes
`ParsePrimary`, `ParseExpression` and `ParseTopLevelExpr` fail in that way. -/
theorem parse_failure_position :
    ((∀ n s u, ParsePrimary n s = some (none, u) →
        (∃ msg, u.errs = s.errs ++ [msg] ∧ Rejects msg u.CurTok) ∧ Downstream s u) ∧
      (∀ n s u, ParseExpression n s = some (none, u) →
        (∃ msg, u.errs = s.errs ++ [msg] ∧ Rejects msg u.CurTok) ∧ Downstream s u) ∧
      (∀ s u, ParsePrototype s = (none, u) →
        (∃ msg, u.errs = s.errs ++ [msg] ∧ Rejects msg u.CurTok) ∧ Downstream s u) ∧
      (∀ n s u, ParseDefinition n s = some (none, u) →
        (∃ msg, u.errs = s.errs ++ [msg] ∧ Rejects msg u.CurTok) ∧ Downstream s u) ∧
      (∀ s u, ParseExtern s = (none, u) →
        (∃ msg, u.errs = s.errs ++ [msg] ∧ Rejects msg u.CurTok) ∧ Downstream s u) ∧
      (∀ n s u, ParseTopLevelExpr n s = some (none, u) →
        (∃ msg, u.errs = s.errs ++ [msg] ∧ Rejects msg u.CurTok) ∧ Downstream s u)) ∧
    ((∀ n s u, ParsePrimary (n + 1) s = some (none, u) →
        ((∀ x, s.CurTok ≠ Token.tok_identifier x) ∧ (∀ v, s.CurTok ≠ Token.tok_number v) ∧
            s.CurTok ≠ Token.char '(' ∧
            u = s.failedAt "unknown token when expecting an expression") ∨
          (∃ x, s.CurTok = Token.tok_identifier x ∧
            ParseIdentifierExpr n x s = some (none, u)) ∨
          (s.CurTok = Token.char '(' ∧ ParseParenExpr n s = some (none, u))) ∧
      (∀ n s u, ParseParenExpr (n + 1) s = some (none, u) →
        ParseExpression n (getNextToken s) = some (none, u) ∨
          ∃ V s2, ParseExpression n (getNextToken s) = some (some V, s2) ∧
            s2.CurTok ≠ Token.char ')' ∧ u = s2.failedAt "expected ')'") ∧
      (∀ n x s u, ParseIdentifierExpr (n + 1) x s = some (none, u) →
        (getNextToken s).CurTok = Token.char '(' ∧
          ParseArgs n [] (getNextToken (getNextToken s)) = some (none, u)) ∧
      (∀ n A s u, ParseArgs (n + 1) A s = some (none, u) →
        ParseExpression n s = some (none, u) ∨
          ∃ Arg s1, ParseExpression n s = some (some Arg, s1) ∧
            ((s1.CurTok ≠ Token.char ')' ∧ s1.CurTok ≠ Token.char ',' ∧
                u = s1.failedAt "Expected ')' or ',' in argument list") ∨
              (s1.CurTok = Token.char ',' ∧
                ParseArgs n (A ++ [Arg]) (getNextToken s1) = some (none, u)))) ∧
      (∀ n p L s u, ParseBinOpRHS (n + 1) p L s = some (none, u) →
        ¬ (GetTokPrecedence s).1 < p ∧
          (ParsePrimary n (getNextToken (GetTokPrecedence s).2) = some (none, u) ∨
            ∃ R s2,
              ParsePrimary n (getNextToken (GetTokPrecedence s).2) = some (some R, s2) ∧
              (((GetTokPrecedence s).1 < (GetTokPrecedence s2).1 ∧
                  (ParseBinOpRHS n ((GetTokPrecedence s).1 + 1) R (GetTokPrecedence s2).2
                      = some (none, u) ∨
                    ∃ R1 s3,
                      ParseBinOpRHS n ((GetTokPrecedence s).1 + 1) R (GetTokPrecedence s2).2
                        = some (some R1, s3) ∧
                      ParseBinOpRHS n p
                        (ExprAST.Binary (GetTokPrecedence s).2.CurTok.toChar L R1) s3
                        = some (none, u))) ∨
                (¬ (GetTokPrecedence s).1 < (GetTokPrecedence s2).1 ∧
                  ParseBinOpRHS n p
                    (ExprAST.Binary (GetTokPrecedence s).2.CurTok.toChar L R)
                    (GetTokPrecedence s2).2 = some (none, u))))) ∧
      (∀ n s u, ParseExpression (n + 1) s = some (none, u) →
        ParsePrimary n s = some (none, u) ∨
          ∃ L s1, ParsePrimary n s = some (some L, s1) ∧
            ParseBinOpRHS n 0 L s1 = some (none, u)) ∧
      (∀ s u, ParsePrototype s = (none, u) →
        ((∀ x, s.CurTok ≠ Token.tok_identifier x) ∧
            u = s.failedAt "Expected function name in prototype") ∨
          ((∃ x, s.CurTok = Token.tok_identifier x) ∧
            (getNextToken s).CurTok ≠ Token.char '(' ∧
            u = (getNextToken s).failedAt "Expected '(' in prototype") ∨
          ((∃ x, s.CurTok = Token.tok_identifier x) ∧
            (getNextToken s).CurTok = Token.char '(' ∧
            ∃ (names : List String) (t : Token) (rest : List Token),
              (∀ x, t ≠ Token.tok_identifier x) ∧ t ≠ Token.char ')' ∧
              ((getNextToken s).input = names.map Token.tok_identifier ++ t :: rest ∨
                ((getNextToken s).input = names.map Token.tok_identifier ∧
                  t = Token.tok_eof ∧ rest = [])) ∧
              u = Parser.failedAt
                { CurTok := t, input := rest,
                  BinopPrecedence := s.BinopPrecedence, errs := s.errs }
                "Expected ')' in prototype")) ∧
      (∀ n s u, ParseDefinition n s = some (none, u) →
        ParsePrototype (getNextToken s) = (none, u) ∨
          ∃ P s1, ParsePrototype (getNextToken s) = (some P, s1) ∧
            ParseExpression n s1 = some (none, u)) ∧
      (∀ s u, ParseExtern s = (none, u) → ParsePrototype (getNextToken s) = (none, u)) ∧
      (∀ n s u, ParseTopLevelExpr n s = some (none, u) →
        ParseExpression n s = some (none, u))) ∧
    (∀ n s, (∀ x, s.CurTok ≠ Token.tok_identifier x) → (∀ v, s.CurTok ≠ Token.tok_number v) →
      s.CurTok ≠ Token.char '(' →
      ParsePrimary (n + 1) s =
          some (none, s.failedAt "unknown token when expecting an expression") ∧
        ParseExpression (n + 2) s =
          some (none, s.failedAt "unknown token when expecting an expression") ∧
        ParseTopLevelExpr (n + 2) s =
          some (none, s.failedAt "unknown token when expecting an expression")) := by
  refine ⟨⟨?_, ?_, ?_, ?_, ?_, ?_⟩, ⟨?_, ?_, ?_, ?_, ?_, ?_, ?_, ?_, ?_, ?_⟩, ?_⟩
  · intro n s u h
    exact ⟨(parse_outcome n).2.2.2.1 s none u h, (parse_downstream n).2.2.2.1 s none u h⟩
  · intro n s u h
    exact ⟨(parse_outcome n).2.2.2.2.2 s none u h, (parse_downstream n).2.2.2.2.2 s none u h⟩
  · intro s u h
    refine ⟨ParsePrototype_outcome s none u h, ?_⟩
    have := ParsePrototype_downstream s
    rw [h] at this
    exact this
  · intro n s u h
    exact ⟨ParseDefinition_outcome n s u h, ParseDefinition_downstream n s none u h⟩
  · intro s u h
    have h1 := ParsePrototype_outcome _ _ _ h
    refine ⟨by simpa using h1, ?_⟩
    have h2 := ParsePrototype_downstream (getNextToken s)
    rw [show ParsePrototype (getNextToken s) = (none, u) from h] at h2
    exact Downstream_trans (Downstream_getNextToken s) h2
  · intro n s u h
    have h1 := ParseTopLevelExpr_fails n s u h
    exact ⟨(parse_outcome n).2.2.2.2.2 s none u h1, (parse_downstream n).2.2.2.2.2 s none u h1⟩
  · exact ParsePrimary_fails
  · exact ParseParenExpr_fails
  · exact ParseIdentifierExpr_fails
  · exact ParseArgs_fails
  · exact ParseBinOpRHS_fails
  · exact ParseExpression_fails
  · exact ParsePrototype_fails
  · exact ParseDefinition_fails
  · intro s u h
    exact h
  · exact ParseTopLevelExpr_fails
  · intro n s h1 h2 h3
    have hp : ParsePrimary (n + 1) s =
        some (none, s.failedAt "unknown token when expecting an expression") :=
      ParsePrimary_rejects n s h1 h2 h3
    have he : ParseExpression (n + 2) s =
        some (none, s.failedAt "unknown token when expecting an expression") := by
      simp only [ParseExpression, hp]
    refine ⟨hp, he, ?_⟩
    simp only [ParseTopLevelExpr, he]

/-- C14 (counterexample): `ParsePrimary` fails on `)` and leaves `)` as the current
token, the token `x` that follows it is still to be read; likewise `ParseExpression`
on `1 + )` and `ParsePrototype` on `foo(a, b)`, which stops at the comma. -/
theorem parse_failure_leaves_failing_token :
    ParsePrimary 1 (Parser.start stdPrec [Token.char ')', Token.tok_identifier "x"]) =
      some (none,
        { CurTok := Token.char ')', input := [Token.tok_identifier "x"],
          BinopPrecedence := stdPrec,
          errs := ["unknown token when expecting an expression"] }) ∧
    ParseExpression 3 (Parser.start stdPrec [Token.tok_number 1, Token.char '+',
        Token.char ')', Token.tok_identifier "x"]) =
      some (none,
        { CurTok := Token.char ')', input := [Token.tok_identifier "x"],
          BinopPrecedence := stdPrec,
          errs := ["unknown token when expecting an expression"] }) ∧
    ParsePrototype (Parser.start stdPrec [Token.tok_identifier "foo", Token.char '(',
        Token.tok_identifier "a", Token.char ',', Token.tok_identifier "b", Token.char ')']) =
      (none,
        { CurTok := Token.char ',', input := [Token.tok_identifier "b", Token.char ')'],
          BinopPrecedence := stdPrec, errs := ["Expected ')' in prototype"] }) ∧
    Token.char ')' ≠ Token.tok_identifier "x" ∧ Token.char ',' ≠ Token.tok_identifier "b" :=
  ⟨rfl, rfl, rfl, by decide, by decide⟩

/-- The amended statement at work. `ParsePrimary` on `)` followed by `x` returns the
state of the call with the diagnostic added. `ParseExpression` on `1 + )` followed by
`x` fails with one diagnostic, at the `)` that starts no expression, and `x` is still to
be delivered. -/
theorem parse_failure_position_example :
    ParsePrimary 1 (Parser.start stdPrec [Token.char ')', Token.tok_identifier "x"]) =
      some (none, (Parser.start stdPrec [Token.char ')', Token.tok_identifier "x"]).failedAt
        "unknown token when expecting an expression") ∧
    ((∃ msg,
        ({ CurTok := Token.char ')', input := [Token.tok_identifier "x"],
           BinopPrecedence := stdPrec,
           errs := ["unknown token when expecting an expression"] } : Parser).errs =
          (Parser.start stdPrec [Token.tok_number 1, Token.char '+', Token.char ')',
            Token.tok_identifier "x"]).errs ++ [msg] ∧
        Rejects msg (Token.char ')')) ∧
      Downstream
        (Parser.start stdPrec [Token.tok_number 1, Token.char '+', Token.char ')',
          Token.tok_identifier "x"])
        { CurTok := Token.char ')', input := [Token.tok_identifier "x"],
          BinopPrecedence := stdPrec,
          errs := ["unknown token when expecting an expression"] }) ∧
    (ParseExpression 3 (Parser.start stdPrec [Token.tok_number 1, Token.char '+',
        Token.char ')', Token.tok_identifier "x"]) =
      some (none,
        { CurTok := Token.char ')', input := [Token.tok_identifier "x"],
          BinopPrecedence := stdPrec,
          errs := ["unknown token when expecting an expression"] })) :=
  ⟨(parse_failure_position.2.2 0
      (Parser.start stdPrec [Token.char ')', Token.tok_identifier "x"])
      (fun _ h => Token.noConfusion h) (fun _ h => Token.noConfusion h)
      (by decide)).1,
    parse_failure_position.1.2.1 3
      (Parser.start stdPrec [Token.tok_number 1, Token.char '+', Token.char ')',
        Token.tok_identifier "x"])
      { CurTok := Token.char ')', input := [Token.tok_identifier "x"],
        BinopPrecedence := stdPrec,
        errs := ["unknown token when expecting an expression"] } rfl,
    rfl⟩

end Kaleidoscope

